import Mathlib

/-!
Verification of the Smart Time System (smart_tm) against its specification.

This file gives a shallow embedding of the C++ sources (smart_tm.h,
smart_tm.cpp) and proves properties of the embedded program.

Modelling conventions:
* `long long` fields are modelled as `Int`.  C++ `/` on `long long`
  (truncation toward zero) is `Int.tdiv`; `floor` of a double quotient of
  integers is `Int.fdiv`.  These agree with the C++ semantics whenever the
  intermediate doubles are exact, i.e. for magnitudes below 2^52.
* `size_t` values are modelled as `Nat`; where the C++ computation can wrap
  modulo 2^64 (in `toEpoch` and `numSecondsBetweenEpochs`, whose additions
  and multiplications are all performed in 64-bit unsigned arithmetic) the
  embedding takes the exact integer value modulo 2^64, which is exactly the
  C++ result on every execution free of signed-overflow UB.
* `double` values (the fractional-second field) are modelled as `Rat`,
  i.e. with exact real arithmetic; `floor(double)` is exact floor.
* `days[mon - 1]` with `mon` outside 1..12 is undefined behaviour in C++;
  the embedding completes it with the value 31 (`daysTable`).  All
  executions considered below only read the table in range.
* The while-loops of `stepMon`, `stepMonNoLeapCorrection` and `fixSec` are
  embedded with an explicit fuel argument that is instantiated, at each
  call site, with a proven upper bound on the number of iterations the
  C++ loop performs (each iteration strictly decreases the fuel measure),
  so the embedded functions compute exactly what the C++ loops compute.
* The process-wide mutable state (epoch year, the two leap-second tables,
  the `initialized` flag) is made explicit as a `Ctx` / `Sys` value that is
  threaded through every operation.  Only the year of the Epoch Reference
  is ever written by the program, so the Epoch Reference is represented by
  its year together with the canonical start-of-year remaining fields.
* The external line reader (FileIO) is out of scope per the spec; `init`
  takes the list of parsed leading-digit values of the non-comment lines of
  the leap-second file, which is what `strtoull` extracts from each line.
-/

/-- Calendar timestamp value type: the seven fields of `smart_tm`. -/
structure smart_tm where
  yr : Int
  mon : Int
  day : Int
  hr : Int
  min : Int
  sec : Int
  fracSec : Rat
deriving DecidableEq

/-- Process-wide state read by timestamp operations: the configured epoch
year (the Epoch Reference is its first instant) and the two parallel
leap-second tables built by `init`. -/
structure Ctx where
  epochYr : Int
  leapSecondTMs : List smart_tm
  leapSecondDeltas : List Nat
deriving DecidableEq

/-- Epoch Reference: first instant (Jan 1, 00:00:00.0) of the configured
epoch year.  Only the year field of the global `epoch` is ever mutated
(by `init`); all other fields keep the canonical start values. -/
def Ctx.epoch (c : Ctx) : smart_tm := ⟨c.epochYr, 1, 1, 0, 0, 0, 0⟩

/-- the static table `days[12]` of canonical month lengths, indexed by the
month number `mon` (1..12, i.e. `days[mon - 1]` in the source); reads
outside 1..12 are UB in C++ and completed here with 31. -/
def daysTable (m : Int) : Int :=
  match m with
  | 1 => 31 | 2 => 28 | 3 => 31 | 4 => 30 | 5 => 31 | 6 => 30
  | 7 => 31 | 8 => 31 | 9 => 30 | 10 => 31 | 11 => 30 | 12 => 31
  | _ => 31

/-- the loop of `toEpoch` summing `days[i] * SECONDS_PER_DAY` for
`i = 0 .. mon-2`, phrased as a recursion on the number of summands. -/
def monthSecsLoop : Nat → Int
  | 0 => 0
  | k+1 => monthSecsLoop k + daysTable (k + 1) * 86400

/-- seconds contributed by the whole months before month `mon`
(the `for` loop of `toEpoch`). -/
def monthSecs (mon : Int) : Int := monthSecsLoop (mon - 1).toNat

/-- free function `isLeapYear(size_t)`. -/
def isLeapYearY (y : Int) : Bool :=
  y % 4 == 0 && (y % 400 == 0 || y % 100 != 0)

/-- member `smart_tm::isLeapYear`. -/
def smart_tm.isLeapYear (t : smart_tm) : Bool :=
  t.yr % 4 == 0 && (t.yr % 400 == 0 || t.yr % 100 != 0)

/-- member `smart_tm::equalsNoFrac`. -/
def eqNoFrac (a b : smart_tm) : Bool :=
  a.yr == b.yr && a.mon == b.mon && a.day == b.day && a.hr == b.hr &&
  a.min == b.min && a.sec == b.sec

/-- operator `<` on `smart_tm`: lexicographic over the seven fields with
fractional seconds as the last tie break. -/
def tmLt (a b : smart_tm) : Bool :=
  if a.yr = b.yr then
    if a.mon = b.mon then
      if a.day = b.day then
        if a.hr = b.hr then
          if a.min = b.min then
            if a.sec = b.sec then decide (a.fracSec < b.fracSec)
            else decide (a.sec < b.sec)
          else decide (a.min < b.min)
        else decide (a.hr < b.hr)
      else decide (a.day < b.day)
    else decide (a.mon < b.mon)
  else decide (a.yr < b.yr)

/-- member `smart_tm::isLeapMinute`: some recorded leap instant matches
this timestamp down to the minute. -/
def isLeapMinute (c : Ctx) (t : smart_tm) : Bool :=
  c.leapSecondTMs.any fun u =>
    t.yr == u.yr && t.mon == u.mon && t.day == u.day && t.hr == u.hr &&
    t.min == u.min

/-- member `smart_tm::numDaysOfMonth`. -/
def numDaysOfMonth (t : smart_tm) : Int :=
  if t.mon - 1 = 1 ∧ t.isLeapYear = true then 29 else daysTable t.mon

/-- member `smart_tm::numSecondsOfMinute`. -/
def numSecondsOfMinute (c : Ctx) (t : smart_tm) : Int :=
  if isLeapMinute c t = true then 61 else 60

/-- member `smart_tm::yrInLimits`. -/
def yrInLimits (c : Ctx) (t : smart_tm) : Bool :=
  decide (c.epochYr ≤ t.yr) && decide (t.yr ≤ 9999)

/-- member `smart_tm::monInLimits`. -/
def monInLimits (t : smart_tm) : Bool :=
  decide (1 ≤ t.mon) && decide (t.mon ≤ 12)

/-- member `smart_tm::dayInLimits`. -/
def dayInLimits (t : smart_tm) : Bool :=
  decide (1 ≤ t.day) && decide (t.day ≤ 1 + numDaysOfMonth t - 1)

/-- member `smart_tm::hrInLimits`. -/
def hrInLimits (t : smart_tm) : Bool :=
  decide (0 ≤ t.hr) && decide (t.hr ≤ 23)

/-- member `smart_tm::minInLimits`. -/
def minInLimits (t : smart_tm) : Bool :=
  decide (0 ≤ t.min) && decide (t.min ≤ 59)

/-- member `smart_tm::secInLimits`. -/
def secInLimits (c : Ctx) (t : smart_tm) : Bool :=
  decide (0 ≤ t.sec) && decide (t.sec ≤ 0 + numSecondsOfMinute c t - 1)

/-- member `smart_tm::fracSecInLimits`. -/
def fracSecInLimits (t : smart_tm) : Bool :=
  decide (0 ≤ t.fracSec) && decide (t.fracSec < 1)

/-- member `smart_tm::isValid`. -/
def isValid (c : Ctx) (t : smart_tm) : Bool :=
  yrInLimits c t && monInLimits t && dayInLimits t && hrInLimits t &&
  minInLimits t && secInLimits c t && fracSecInLimits t

/-- free function `leapDaysWalkedThroughFrom(size_t, size_t)`: the year-only
overload.  The C++ parameters are `size_t` converted from year values; for
year 0 the C++ `startYr - 1` wraps and is reinterpreted as -1 when assigned
to `long long calcYr`, which is exactly `(0 : Int) - 1`. -/
def leapCountTo (y : Int) : Int :=
  Int.tdiv y 4 + Int.tdiv y 400 - Int.tdiv y 100

def leapDaysWalkedThroughFromYears (startYr endYr : Int) : Int :=
  let calcS := if isLeapYearY startYr = true then startYr - 1 else startYr
  let startCount := leapCountTo calcS
  let calcE := if isLeapYearY endYr = true then endYr - 1 else endYr
  leapCountTo calcE - startCount

/-- the endpoint adjustment of the Timestamp overload of
`leapDaysWalkedThroughFrom`: the endpoint year is treated as non-leap while
the date is in January, or in February on/before day 29. -/
def beforeLeapDay (t : smart_tm) : Bool :=
  t.isLeapYear && ((t.mon - 1 == 1 && decide (t.day ≤ 29)) || t.mon - 1 == 0)

/-- free function `leapDaysWalkedThroughFrom(const smart_tm&, const smart_tm&)`. -/
def leapDaysWalkedThroughFrom (s e : smart_tm) : Int :=
  let calcS := if beforeLeapDay s = true then s.yr - 1 else s.yr
  let startCount := leapCountTo calcS
  let calcE := if beforeLeapDay e = true then e.yr - 1 else e.yr
  leapCountTo calcE - startCount

/-- member `smart_tm::leapSecondsWalkedThroughSinceEpoch`: recorded leap
instants strictly less than this timestamp and not equal to it ignoring
fractional seconds. -/
def leapSecondsWalkedThroughSinceEpoch (c : Ctx) (t : smart_tm) : Nat :=
  c.leapSecondTMs.countP fun u => tmLt u t && !eqNoFrac t u

/-- member `smart_tm::leapDaysWalkedThroughSinceEpoch` (before its cast to
`size_t`, which is absorbed by the modular arithmetic of `toEpoch`). -/
def leapDaysWalkedThroughSinceEpoch (c : Ctx) (t : smart_tm) : Int :=
  leapDaysWalkedThroughFrom c.epoch t

/-- exact integer value of the sum computed by `smart_tm::toEpoch`; the
C++ function returns this value reduced modulo 2^64 (all of its additions
and multiplications happen in 64-bit unsigned arithmetic). -/
def toEpochZ (c : Ctx) (t : smart_tm) : Int :=
  monthSecs t.mon + (t.yr - c.epochYr) * 31536000 + (t.day - 1) * 86400 +
    t.hr * 3600 + t.min * 60 + leapDaysWalkedThroughSinceEpoch c t * 86400 +
    (leapSecondsWalkedThroughSinceEpoch c t : Int) + t.sec

/-- member `smart_tm::toEpoch` (result as the `size_t` the C++ returns). -/
def toEpoch (c : Ctx) (t : smart_tm) : Nat :=
  ((toEpochZ c t) % (2 : Int) ^ 64).toNat

/-- free function `leapSecondsWalkedThroughFrom(size_t, size_t)`: signed
count of delta-list entries in the closed interval between two raw
epoch offsets. -/
def leapSecondsWalkedThroughFrom (c : Ctx) (s e : Nat) : Int :=
  if e > s then
    (c.leapSecondDeltas.countP fun d => decide (e ≥ d) && decide (s ≤ d) : Nat)
  else
    -(c.leapSecondDeltas.countP fun d => decide (s ≥ d) && decide (e ≤ d) : Nat)

/-- free function `numSecondsBetweenEpochs` (64-bit unsigned result). -/
def numSecondsBetweenEpochs (startYr endYr : Int) : Nat :=
  (((endYr - startYr) * 31536000 +
    leapDaysWalkedThroughFromYears startYr endYr * 86400) % (2 : Int) ^ 64).toNat

/-- member `smart_tm::fixMon`. -/
def fixMon (t : smart_tm) : smart_tm :=
  if monInLimits t = true then t
  else
    let count := Int.fdiv (t.mon - 1) 12
    { t with yr := t.yr + count, mon := t.mon - count * 12 }

/-- first while-loop of `smart_tm::stepMonNoLeapCorrection`, with fuel.
Each iteration decreases `day` by at least 28 while `day` stays positive,
so `day.toNat` bounds the iteration count. -/
def stepMonNLA : Nat → smart_tm → smart_tm
  | 0, t => t
  | f+1, t =>
    if t.day > 1 + daysTable t.mon - 1 then
      stepMonNLA f (fixMon { t with day := t.day - daysTable t.mon, mon := t.mon + 1 })
    else t

/-- second while-loop of `smart_tm::stepMonNoLeapCorrection`, with fuel.
Each iteration increases `day` by at least 28 while `day < 1`, so
`(1 - day).toNat` bounds the iteration count. -/
def stepMonNLB : Nat → smart_tm → smart_tm
  | 0, t => t
  | f+1, t =>
    if t.day < 1 then
      let t1 := fixMon { t with mon := t.mon - 1 }
      stepMonNLB f { t1 with day := t1.day + daysTable t1.mon }
    else t

/-- member `smart_tm::stepMonNoLeapCorrection`. -/
def stepMonNoLeapCorrection (t : smart_tm) : smart_tm :=
  let t1 := stepMonNLA t.day.toNat t
  stepMonNLB (1 - t1.day).toNat t1

/-- first while-loop of `smart_tm::stepMon`, with fuel (bound as in
`stepMonNLA`, since `numDaysOfMonth` is at least 28). -/
def stepMonA : Nat → smart_tm → smart_tm
  | 0, t => t
  | f+1, t =>
    if t.day > 1 + numDaysOfMonth t - 1 then
      stepMonA f (fixMon { t with day := t.day - numDaysOfMonth t, mon := t.mon + 1 })
    else t

/-- second while-loop of `smart_tm::stepMon`, with fuel (bound as in
`stepMonNLB`). -/
def stepMonB : Nat → smart_tm → smart_tm
  | 0, t => t
  | f+1, t =>
    if t.day < 1 then
      let t1 := fixMon { t with mon := t.mon - 1 }
      stepMonB f { t1 with day := t1.day + numDaysOfMonth t1 }
    else t

/-- member `smart_tm::stepMon`. -/
def stepMon (t : smart_tm) : smart_tm :=
  let t1 := stepMonA t.day.toNat t
  stepMonB (1 - t1.day).toNat t1

/-- member `smart_tm::fixDay`.  The count is
`static_cast<long long>(double(day - 1) / 365.0)`, i.e. truncation toward
zero of the quotient. -/
def fixDay (t : smart_tm) : smart_tm :=
  if dayInLimits t = true then t
  else
    let old : smart_tm := ⟨t.yr, t.mon, 1, 0, 0, 0, 0⟩
    let count := Int.tdiv (t.day - 1) 365
    let t1 := { t with yr := t.yr + count, day := t.day - count * 365 }
    let t2 := stepMonNoLeapCorrection t1
    let t3 := { t2 with day := t2.day - leapDaysWalkedThroughFrom old t2 }
    stepMon t3

/-- member `smart_tm::fixHr`. -/
def fixHr (t : smart_tm) : smart_tm :=
  if hrInLimits t = true then t
  else
    let count := Int.fdiv (t.hr - 0) 24
    fixDay { t with day := t.day + count, hr := t.hr - count * 24 }

/-- member `smart_tm::fixMin`. -/
def fixMin (t : smart_tm) : smart_tm :=
  if minInLimits t = true then t
  else
    let count := Int.fdiv (t.min - 0) 60
    fixHr { t with hr := t.hr + count, min := t.min - count * 60 }

/-- first while-loop of `smart_tm::fixSec`, with fuel.  Each iteration
decreases `sec` by `numSecondsOfMinute` (at least 60) while `sec` stays
nonnegative, so `sec.toNat` bounds the iteration count.  The loop body
evaluates `numSecondsOfMinute` on the state before incrementing `min`. -/
def fixSecA (c : Ctx) : Nat → smart_tm → smart_tm
  | 0, t => t
  | f+1, t =>
    if t.sec > 0 + numSecondsOfMinute c t - 1 then
      fixSecA c f (fixMin { t with sec := t.sec - numSecondsOfMinute c t, min := t.min + 1 })
    else t

/-- second while-loop of `smart_tm::fixSec`, with fuel.  Each iteration
increases `sec` by at least 60 while `sec < 0`, so `(-sec).toNat` bounds
the iteration count.  The loop body evaluates `numSecondsOfMinute` after
decrementing `min` and running `fixMin`. -/
def fixSecB (c : Ctx) : Nat → smart_tm → smart_tm
  | 0, t => t
  | f+1, t =>
    if t.sec < 0 then
      let t1 := fixMin { t with min := t.min - 1 }
      fixSecB c f { t1 with sec := t1.sec + numSecondsOfMinute c t1 }
    else t

/-- member `smart_tm::fixSec`. -/
def fixSec (c : Ctx) (t : smart_tm) : smart_tm :=
  if secInLimits c t = true then t
  else
    let addSec := t.sec
    let t0 := { t with sec := 0 }
    let oldEpoch := toEpoch c t0
    let count := Int.fdiv (addSec - 0) 60
    let t1 := fixMin { t0 with min := t0.min + count }
    let t2 := { t1 with sec := addSec - count * 60 }
    let newEpoch := toEpoch c t2
    let t3 := { t2 with sec := t2.sec - leapSecondsWalkedThroughFrom c oldEpoch newEpoch }
    let t4 := fixMin t3
    let t5 := fixSecA c t4.sec.toNat t4
    fixSecB c (-t5.sec).toNat t5

/-- floor of a rational, computed as the floor division of numerator by
denominator (this equals `Int.floor`, see `ratFloor_eq_floor`). -/
def ratFloor (q : Rat) : Int := q.num / (q.den : Int)

/-- member `smart_tm::fixFracSec`. -/
def fixFracSec (c : Ctx) (t : smart_tm) : smart_tm :=
  if fracSecInLimits t = true then t
  else
    let count := ratFloor (t.fracSec - 0)
    fixSec c { t with sec := t.sec + count, fracSec := t.fracSec - (count : Rat) }

/-- member `smart_tm::adjust`. -/
def adjust (c : Ctx) (t : smart_tm) : smart_tm :=
  if isValid c t = true then t
  else fixFracSec c (fixSec c (fixMin (fixHr (fixDay (fixMon t)))))

/-- constructor `smart_tm::smart_tm(const size_t sinceEpoch)`: copy the
Epoch Reference, add the offset to the second field, adjust.  Exact for
offsets below 2^63 (beyond which the C++ `long long` addition wraps). -/
def sinceEpochTm (c : Ctx) (n : Nat) : smart_tm :=
  adjust c { c.epoch with sec := c.epoch.sec + (n : Int) }

/-- full process-wide state, including the `initialized` flag. -/
structure Sys where
  initialized : Bool
  epochYr : Int
  leapSecondTMs : List smart_tm
  leapSecondDeltas : List Nat
deriving DecidableEq

/-- context view of a system state. -/
def Sys.ctx (s : Sys) : Ctx := ⟨s.epochYr, s.leapSecondTMs, s.leapSecondDeltas⟩

/-- state before any call to `init`: default epoch year 1900, empty
tables, not initialized. -/
def defaultSys : Sys := ⟨false, 1900, [], []⟩

/-- the line-processing loop of `smart_tm::init`.  For each parsed value
`v > d` it first appends `v - d + k` to the delta list, then constructs a
timestamp from the 1900-relative offset `v + k` (using the tables built so
far and the PREVIOUS epoch year, since `epoch.yr` is only updated after the
loop), increments its second field to land on the `:60` reading, appends
it to the instant list and increments `k`.  Values `v ≤ d` are skipped. -/
def initLoop (prevEpochYr : Int) (d : Nat) :
    List Nat → List smart_tm → List Nat → Nat → List smart_tm × List Nat
  | [], tms, ds, _ => (tms, ds)
  | v :: rest, tms, ds, k =>
    if v > d then
      let ds' := ds ++ [v - d + k]
      let newTm := sinceEpochTm ⟨prevEpochYr, tms, ds'⟩ (v + k)
      initLoop prevEpochYr d rest (tms ++ [{ newTm with sec := newTm.sec + 1 }]) ds' (k + 1)
    else
      initLoop prevEpochYr d rest tms ds k

/-- static member `smart_tm::init`.  `openable` records whether the
leap-second file could be opened; on failure the function returns before
touching any state (after emitting a diagnostic).  `entries` is the list of
parsed leading-digit values of the file's data lines. -/
def init (s : Sys) (epochYr : Int) (openable : Bool) (entries : List Nat) : Sys :=
  if openable = false then s
  else
    let d := numSecondsBetweenEpochs 1900 epochYr
    let p := initLoop s.epochYr d entries [] [] 0
    ⟨true, epochYr, p.1, p.2⟩

/-- two's-complement reinterpretation of a 64-bit value: the result of
storing `z` modulo 2^64 into a `long long`. -/
def wrapS64 (z : Int) : Int := (z + 2 ^ 63) % 2 ^ 64 - 2 ^ 63

/-- free operator `-` on `smart_tm`: the unsigned 64-bit difference of the
two `toEpoch` values is reinterpreted as signed and the fractional parts
are combined afterwards. -/
def tmSub (c : Ctx) (l r : smart_tm) : Rat :=
  (wrapS64 ((toEpoch c l : Int) - (toEpoch c r : Int)) : Rat) +
    (l.fracSec - r.fracSec)

/-!
Spec-side definitions: formulations taken from the specification's wording,
used to state the claims against the embedded source functions.
-/

/-- strict calendar order ignoring fractional seconds (lexicographic on the
six integer fields); the spec describes the Timestamp-relative leap-second
counter as counting instants strictly before `t` in this order. -/
def tmLtNoFrac (a b : smart_tm) : Bool :=
  if a.yr = b.yr then
    if a.mon = b.mon then
      if a.day = b.day then
        if a.hr = b.hr then
          if a.min = b.min then decide (a.sec < b.sec)
          else decide (a.min < b.min)
        else decide (a.hr < b.hr)
      else decide (a.day < b.day)
    else decide (a.mon < b.mon)
  else decide (a.yr < b.yr)

/-- number of recorded leap instants strictly before `t` ignoring
fractional seconds (spec-side formulation). -/
def leapInstantsBefore (c : Ctx) (t : smart_tm) : Nat :=
  c.leapSecondTMs.countP fun u => tmLtNoFrac u t

/-- canonical non-leap month lengths, as the spec lists them. -/
def canonicalMonthDays : List Int := [31, 28, 31, 30, 31, 30, 31, 31, 30, 31, 30, 31]

/-- the spec's term-by-term decomposition of `toEpoch` (claim C3). -/
def specEpochSum (c : Ctx) (t : smart_tm) : Int :=
  (canonicalMonthDays.take (t.mon - 1).toNat).sum * 86400 +
    (t.yr - c.epochYr) * 365 * 86400 +
    ((t.day - 1) * 86400 + t.hr * 3600 + t.min * 60) +
    86400 * leapDaysWalkedThroughFrom c.epoch t +
    (leapInstantsBefore c t : Int) + t.sec

/-- number of delta-list entries lying in the closed interval between `s`
and `e` (spec-side formulation for claim C4). -/
def intervalEntryCount (c : Ctx) (s e : Nat) : Nat :=
  c.leapSecondDeltas.countP fun d => decide (min s e ≤ d) && decide (d ≤ max s e)

/-- embedding of the default constructor `smart_tm()`, which copies the
process-wide Epoch Reference. -/
def defaultConstructed (c : Ctx) : smart_tm := c.epoch

/-- first instant of a year (used to compare the two leap-day overloads). -/
def jan1 (y : Int) : smart_tm := ⟨y, 1, 1, 0, 0, 0, 0⟩

/-!
Concrete instances used by counterexamples and witnesses.
-/

/-- system state after a successful `init` with epoch year 1990 and a
leap-second file whose single data line carries the value 3550089600
(the registry's seconds-since-1900 stamp of the 2012-06-30 23:59:60 UTC
leap second, i.e. of 2012-07-01 00:00:00). -/
def sys6 : Sys := init defaultSys 1990 true [3550089600]

/-- the calendar instant 2012-06-30 23:59:60.0. -/
def leapTm2012 : smart_tm := ⟨2012, 6, 30, 23, 59, 60, 0⟩

/-- context whose delta list contains the single entry 5. -/
def c4ctx : Ctx := ⟨1990, [], [5]⟩

/-- state after a successful `init` followed by an `init` whose file could
not be opened. -/
def sys8 : Sys := init sys6 1995 false [1234]

/-- state after `init` with the out-of-range epoch year 10000. -/
def sys10 : Sys := init defaultSys 10000 true []

/-!
Proof-side measures: an exact day/minute/second indexing of field tuples,
used to verify the epoch round trips.  These are definitions about the
embedded program (not part of the source).
-/

/-- day-count version of the `toEpoch` month loop. -/
def monthDaysSumLoop : Nat → Int
  | 0 => 0
  | k+1 => monthDaysSumLoop k + daysTable (k + 1)

/-- canonical days contributed by the whole months before month `mon`. -/
def monthDaysSum (m : Int) : Int := monthDaysSumLoop (m - 1).toNat

/-- leap days from the year-0 baseline that lie strictly before the
current (year, month) position, phrased so that it does not depend on the
day of month: in January and February of a leap year the year's own leap
day is not yet counted. -/
def yearMonthLeapBase (t : smart_tm) : Int :=
  if isLeapYearY t.yr = true ∧ (t.mon = 1 ∨ t.mon = 2) then
    leapCountTo (t.yr - 1)
  else leapCountTo t.yr

/-- artifact indicator of the source's day-dependent leap adjustment: a
transient February date of a leap year with day at least 30 counts the
year's leap day although the day field also covers it. -/
def febOverflow (t : smart_tm) : Int :=
  if isLeapYearY t.yr = true ∧ t.mon = 2 ∧ 30 ≤ t.day then 1 else 0

/-- leap-day baseline of the Epoch Reference of epoch year `E`. -/
def epochLeapBase (E : Int) : Int :=
  leapCountTo (if isLeapYearY E = true then E - 1 else E)

/-- exact day index of a field tuple relative to the first day of epoch
year `E`; linear in the day field, and stepping by exactly one per true
calendar day on valid dates. -/
def dayIndex (E : Int) (t : smart_tm) : Int :=
  365 * (t.yr - E) + monthDaysSum t.mon + (t.day - 1) +
    yearMonthLeapBase t - epochLeapBase E

/-- 365-day naive day count (no leap-day term). -/
def naiveDays (E : Int) (t : smart_tm) : Int :=
  365 * (t.yr - E) + monthDaysSum t.mon + (t.day - 1)

/-- strict lexicographic order on the minute tuple (year, month, day,
hour, minute). -/
def minuteLtB (a b : smart_tm) : Bool :=
  if a.yr = b.yr then
    if a.mon = b.mon then
      if a.day = b.day then
        if a.hr = b.hr then decide (a.min < b.min)
        else decide (a.hr < b.hr)
      else decide (a.day < b.day)
    else decide (a.mon < b.mon)
  else decide (a.yr < b.yr)

/-- equality of the minute tuple, phrased exactly as the predicate of
`isLeapMinute`. -/
def minuteEqB (t u : smart_tm) : Bool :=
  t.yr == u.yr && t.mon == u.mon && t.day == u.day && t.hr == u.hr &&
  t.min == u.min

/-- exact minute index of a field tuple relative to the Epoch Reference. -/
def minuteIdx (E : Int) (t : smart_tm) : Int :=
  1440 * dayIndex E t + 60 * t.hr + t.min

/-- number of recorded leap instants in minutes strictly before `t`'s
minute. -/
def leapsBeforeMinute (c : Ctx) (t : smart_tm) : Nat :=
  c.leapSecondTMs.countP fun u => minuteLtB u t

/-- exact leap-aware second index of a field tuple relative to the Epoch
Reference: each minute before `t`'s minute contributes its true length
(60, or 61 if it carries a recorded leap instant), and the second field is
added on top. -/
def instIdx (c : Ctx) (t : smart_tm) : Int :=
  60 * minuteIdx c.epochYr t + t.sec + leapsBeforeMinute c t

/-- invariants of an initialized context, as established by a successful
`init` from a sane leap-second file: the epoch year is a usable year, the
recorded leap instants are valid field tuples at or after the epoch with
second field 60 and no fractional part, they are strictly increasing, and
the delta list holds exactly their epoch offsets. -/
def WfCtx (c : Ctx) : Prop :=
  1 ≤ c.epochYr ∧ c.epochYr ≤ 9999 ∧
  c.leapSecondTMs.length ≤ 4294967296 ∧
  (∀ u ∈ c.leapSecondTMs, monInLimits u = true ∧ dayInLimits u = true ∧
    hrInLimits u = true ∧ minInLimits u = true ∧ u.sec = 60 ∧
    u.fracSec = 0 ∧ c.epochYr ≤ u.yr ∧ u.yr ≤ 9999) ∧
  List.Pairwise (fun a b => tmLtNoFrac a b = true) c.leapSecondTMs ∧
  c.leapSecondDeltas = c.leapSecondTMs.map fun u => (toEpochZ c u).toNat

/-- epoch-independent part of `dayIndex`: the naive 365-day count plus the
calendar position within the year. -/
def naiveIdx (t : smart_tm) : Int :=
  365 * t.yr + monthDaysSum t.mon + (t.day - 1)

/-- epoch-independent day index: `dayIndex E t` differs from it by the
constant `365 * E + epochLeapBase E`. -/
def gIdx (t : smart_tm) : Int :=
  naiveIdx t + yearMonthLeapBase t

/-- epoch-independent minute index. -/
def minGIdx (t : smart_tm) : Int :=
  1440 * gIdx t + 60 * t.hr + t.min

/-!
Helper lemmas.
-/

/-- the conjunction `u < t && not (t equalsNoFrac u)` used by
`leapSecondsWalkedThroughSinceEpoch` is exactly the strict noFrac order. -/
theorem tmLt_and_not_eqNoFrac (u t : smart_tm) :
    (tmLt u t && !eqNoFrac t u) = tmLtNoFrac u t := by
  unfold tmLt eqNoFrac tmLtNoFrac
  by_cases h1 : u.yr = t.yr
  · by_cases h2 : u.mon = t.mon
    · by_cases h3 : u.day = t.day
      · by_cases h4 : u.hr = t.hr
        · by_cases h5 : u.min = t.min
          · by_cases h6 : u.sec = t.sec
            · simp [h1, h2, h3, h4, h5, h6]
            · simp [h1, h2, h3, h4, h5, h6, Ne.symm h6]
          · simp [h1, h2, h3, h4, h5, Ne.symm h5]
        · simp [h1, h2, h3, h4, Ne.symm h4]
      · simp [h1, h2, h3, Ne.symm h3]
    · simp [h1, h2, Ne.symm h2]
  · simp [h1, Ne.symm h1]

/-- the Timestamp-relative counter of the source equals the spec-side
count of instants strictly before `t` ignoring fractional seconds. -/
theorem leapSecondsWalkedThroughSinceEpoch_eq (c : Ctx) (t : smart_tm) :
    leapSecondsWalkedThroughSinceEpoch c t = leapInstantsBefore c t := by
  unfold leapSecondsWalkedThroughSinceEpoch leapInstantsBefore
  exact List.countP_congr fun u _ => by rw [tmLt_and_not_eqNoFrac u t]

/-- the month-seconds loop agrees with the canonical month list for
in-range months. -/
theorem monthSecs_eq_canonical (m : Int) (h1 : 1 ≤ m) (h2 : m ≤ 12) :
    monthSecs m = (canonicalMonthDays.take (m - 1).toNat).sum * 86400 := by
  interval_cases m <;> decide

/-!
Claim theorems (first batch).
-/

/-- C3: for every Timestamp with an in-range month field, `toEpoch` equals
the sum of the canonical month seconds before its month, plus
(year − epoch year)·365·86400, plus (day−1)·86400 + hour·3600 + minute·60,
plus 86400 times the leap-day count from the Epoch Reference (Timestamp
overload), plus the count of recorded leap instants strictly before it
(ignoring fractional seconds and excluding exact equality), plus the
second field — whenever that sum is representable in the unsigned 64-bit
result. -/
theorem toEpoch_eq_specEpochSum (c : Ctx) (t : smart_tm)
    (hm : monInLimits t = true)
    (h0 : 0 ≤ specEpochSum c t) (h1 : specEpochSum c t < 2 ^ 64) :
    (toEpoch c t : Int) = specEpochSum c t := by
  have hm1 : 1 ≤ t.mon ∧ t.mon ≤ 12 := by simpa [monInLimits] using hm
  have hsum : toEpochZ c t = specEpochSum c t := by
    unfold toEpochZ specEpochSum leapDaysWalkedThroughSinceEpoch
    rw [leapSecondsWalkedThroughSinceEpoch_eq,
      monthSecs_eq_canonical t.mon hm1.1 hm1.2]
    ring
  unfold toEpoch
  rw [hsum, Int.emod_eq_of_lt h0 h1, Int.toNat_of_nonneg h0]

/-- C3 witness: the hypotheses and conclusion at a concrete input. -/
theorem toEpoch_eq_specEpochSum_witness :
    monInLimits leapTm2012 = true ∧ 0 ≤ specEpochSum sys6.ctx leapTm2012 ∧
      specEpochSum sys6.ctx leapTm2012 < 2 ^ 64 ∧
      (toEpoch sys6.ctx leapTm2012 : Int) = specEpochSum sys6.ctx leapTm2012 :=
  ⟨by decide, by decide, by decide,
    toEpoch_eq_specEpochSum sys6.ctx leapTm2012 (by decide) (by decide) (by decide)⟩

/-- C4 counterexample: with a delta list containing the single entry 5, the
zero-length interval from 5 to 5 yields −1, not the claimed 0. -/
theorem leapSecondsWalkedThroughFrom_zeroLen_cex :
    leapSecondsWalkedThroughFrom c4ctx 5 5 ≠ 0 := by decide

/-- C4 amended: the epoch-offset-relative counter returns the number of
delta-list entries in the closed interval between start and end, positively
signed when end > start and negatively signed when end ≤ start; in
particular a zero-length interval yields 0 when start is not an entry of
the delta list, but −1 times the number of entries equal to start when it
is. -/
theorem leapSecondsWalkedThroughFrom_signed_count (c : Ctx) (s e : Nat) :
    leapSecondsWalkedThroughFrom c s e =
      if s < e then (intervalEntryCount c s e : Int)
      else -(intervalEntryCount c s e : Int) := by
  unfold leapSecondsWalkedThroughFrom intervalEntryCount
  by_cases h : s < e
  · have h1 : min s e = s := by omega
    have h2 : max s e = e := by omega
    simp only [gt_iff_lt, if_pos h, h1, h2]
    norm_cast
    refine List.countP_congr fun d _ => ?_
    simp only [Bool.and_eq_true, decide_eq_true_eq]
    omega
  · have h1 : min s e = e := by omega
    have h2 : max s e = s := by omega
    simp only [gt_iff_lt, if_neg h, h1, h2, neg_inj]
    norm_cast
    refine List.countP_congr fun d _ => ?_
    simp only [Bool.and_eq_true, decide_eq_true_eq]
    omega

set_option maxRecDepth 8000 in
/-- C6: after `init` with epoch year 1990 and a leap-second file containing
the entry for the 2012-06-30 23:59:60 UTC leap second, that exact instant
is valid, its second field is 60, and its minute is recognized as a leap
minute with 61 second values. -/
theorem leap_instant_2012_valid :
    isValid sys6.ctx leapTm2012 = true ∧ leapTm2012.sec = 60 ∧
      numSecondsOfMinute sys6.ctx leapTm2012 = 61 := by decide

/-- C7: the year-only overload of the leap-day counter (which always
excludes an endpoint leap year's own leap day by subtracting 1 from that
year before applying ⌊y/4⌋ + ⌊y/400⌋ − ⌊y/100⌋) agrees with the
full-Timestamp overload applied to January 1, 00:00:00.0 of the two
years, for every pair of years. -/
theorem leapDays_overloads_consistent (s e : Int) :
    leapDaysWalkedThroughFromYears s e =
      leapDaysWalkedThroughFrom (jan1 s) (jan1 e) := by
  unfold leapDaysWalkedThroughFromYears leapDaysWalkedThroughFrom
    beforeLeapDay jan1 smart_tm.isLeapYear isLeapYearY
  norm_num

/-- C8 counterexample: a failed re-initialization (file cannot be opened)
after an earlier successful `init` leaves the earlier tables in place (not
empty) and the system still initialized, refuting the claim that the tables
are left empty and the system uninitialized for every prior state. -/
theorem init_failure_cex :
    ¬(sys8.leapSecondTMs = [] ∧ sys8.initialized = false) := by decide

/-- C8 amended: when the leap-second file cannot be opened, `init` emits a
diagnostic and returns with the entire process-wide state (both tables, the
Epoch Reference and the initialized flag) exactly as it was; from a fresh
state the tables thus remain empty and the system uninitialized, while a
state left by an earlier successful `init` is retained unchanged. -/
theorem init_failure_state_unchanged (s : Sys) (epochYr : Int)
    (entries : List Nat) : init s epochYr false entries = s := rfl

/-- C10 counterexample: after `init` with epoch year 10000, the
default-constructed Timestamp (the copy of the Epoch Reference) is not
valid, refuting the unconditional validity consequence of the claim. -/
theorem defaultConstructed_invalid_cex :
    isValid sys10.ctx (defaultConstructed sys10.ctx) = false := by decide

/-- C10 amended: the default constructor always yields an exact fieldwise
copy of the Epoch Reference (year = configured epoch year, month 1, day 1,
hour 0, minute 0, second 0, fractional second 0); when the configured epoch
year is at most 9999 the copy is moreover valid, and when in addition no
recorded leap instant precedes the Epoch Reference its `toEpoch` is 0. -/
theorem defaultConstructed_props (c : Ctx)
    (h9999 : c.epochYr ≤ 9999)
    (hTMs : ∀ u ∈ c.leapSecondTMs, tmLt u c.epoch = false) :
    defaultConstructed c = c.epoch ∧
      isValid c (defaultConstructed c) = true ∧
      toEpoch c (defaultConstructed c) = 0 := by
  refine ⟨rfl, ?_, ?_⟩
  · unfold isValid defaultConstructed yrInLimits monInLimits dayInLimits
      hrInLimits minInLimits secInLimits fracSecInLimits numDaysOfMonth
      numSecondsOfMinute Ctx.epoch daysTable smart_tm.isLeapYear
    by_cases hL : isLeapMinute c ⟨c.epochYr, 1, 1, 0, 0, 0, 0⟩ = true <;>
      simp [hL, h9999, Ctx.epoch]
  · have hz : toEpochZ c c.epoch = 0 := by
      unfold toEpochZ leapDaysWalkedThroughSinceEpoch
        leapSecondsWalkedThroughSinceEpoch
      have hcount : (c.leapSecondTMs.countP
          fun u => tmLt u c.epoch && !eqNoFrac c.epoch u) = 0 := by
        rw [List.countP_eq_zero]
        intro u hu
        simp [hTMs u hu]
      rw [hcount]
      unfold leapDaysWalkedThroughFrom
      simp [Ctx.epoch, monthSecs, monthSecsLoop]
    unfold toEpoch defaultConstructed
    rw [hz]
    decide

/-- C10 witness: the amended statement at a concrete initialized state. -/
theorem defaultConstructed_props_witness :
    defaultConstructed sys6.ctx = sys6.ctx.epoch ∧
      isValid sys6.ctx (defaultConstructed sys6.ctx) = true ∧
      toEpoch sys6.ctx (defaultConstructed sys6.ctx) = 0 :=
  defaultConstructed_props sys6.ctx (by decide) (by decide)
/-!
Bounds on table values.
-/

theorem daysTable_bounds (m : Int) : 28 ≤ daysTable m ∧ daysTable m ≤ 31 := by
  unfold daysTable
  split <;> norm_num

theorem numDaysOfMonth_bounds (t : smart_tm) :
    28 ≤ numDaysOfMonth t ∧ numDaysOfMonth t ≤ 31 := by
  unfold numDaysOfMonth
  split
  · norm_num
  · exact daysTable_bounds t.mon

theorem numSecondsOfMinute_bounds (c : Ctx) (t : smart_tm) :
    60 ≤ numSecondsOfMinute c t ∧ numSecondsOfMinute c t ≤ 61 := by
  unfold numSecondsOfMinute
  split <;> norm_num

/-!
Postconditions of the fixup chain: each fixup leaves its own field and all
coarser fields (month outward) within limits, and does not touch the finer
fields.  These are the loop-exit guarantees of the C++ while loops; the
fuel bounds chosen in the definitions are shown sufficient along the way.
-/

theorem fixMon_mon (t : smart_tm) : monInLimits (fixMon t) = true := by
  unfold fixMon
  split
  · assumption
  · have h12 : Int.fdiv (t.mon - 1) 12 = (t.mon - 1) / 12 :=
      Int.fdiv_eq_ediv _ (by norm_num)
    simp only [monInLimits, h12, Bool.and_eq_true, decide_eq_true_eq]
    omega

theorem fixMon_others (t : smart_tm) :
    ((fixMon t).day, (fixMon t).hr, (fixMon t).min, (fixMon t).sec,
      (fixMon t).fracSec) = (t.day, t.hr, t.min, t.sec, t.fracSec) := by
  unfold fixMon
  split <;> rfl

theorem stepMonA_post : ∀ (f : Nat) (t : smart_tm), t.day.toNat ≤ f →
    monInLimits t = true →
    monInLimits (stepMonA f t) = true ∧
    (stepMonA f t).day ≤ numDaysOfMonth (stepMonA f t) ∧
    (1 ≤ t.day → 1 ≤ (stepMonA f t).day) ∧
    ((stepMonA f t).hr, (stepMonA f t).min, (stepMonA f t).sec,
      (stepMonA f t).fracSec) = (t.hr, t.min, t.sec, t.fracSec)
  | 0, t, hf, hm => by
    have hday : t.day ≤ 0 := by omega
    have hb := numDaysOfMonth_bounds t
    have he : stepMonA 0 t = t := rfl
    rw [he]
    exact ⟨hm, by omega, by omega, rfl⟩
  | f+1, t, hf, hm => by
    rw [stepMonA]
    split
    · next hguard =>
      set t' := fixMon { t with day := t.day - numDaysOfMonth t, mon := t.mon + 1 } with ht'
      have hb := numDaysOfMonth_bounds t
      have hoth := fixMon_others { t with day := t.day - numDaysOfMonth t, mon := t.mon + 1 }
      rw [← ht'] at hoth
      simp only [Prod.mk.injEq] at hoth
      have hday' : t'.day = t.day - numDaysOfMonth t := hoth.1
      have hfuel : t'.day.toNat ≤ f := by omega
      have hmon' : monInLimits t' = true := fixMon_mon _
      obtain ⟨h1, h2, h3, h4⟩ := stepMonA_post f t' hfuel hmon'
      refine ⟨h1, h2, fun _ => h3 (by omega), ?_⟩
      rw [h4]
      simp only [Prod.mk.injEq]
      exact ⟨hoth.2.1, hoth.2.2.1, hoth.2.2.2.1, hoth.2.2.2.2⟩
    · next hguard =>
      have hb := numDaysOfMonth_bounds t
      exact ⟨hm, by omega, by omega, rfl⟩

theorem stepMonB_post : ∀ (f : Nat) (t : smart_tm), (1 - t.day).toNat ≤ f →
    monInLimits t = true → t.day ≤ numDaysOfMonth t →
    monInLimits (stepMonB f t) = true ∧ dayInLimits (stepMonB f t) = true ∧
    ((stepMonB f t).hr, (stepMonB f t).min, (stepMonB f t).sec,
      (stepMonB f t).fracSec) = (t.hr, t.min, t.sec, t.fracSec)
  | 0, t, hf, hm, hd => by
    have h1 : 1 ≤ t.day := by omega
    have he : stepMonB 0 t = t := rfl
    rw [he]
    refine ⟨hm, ?_, rfl⟩
    simp only [dayInLimits, Bool.and_eq_true, decide_eq_true_eq]
    omega
  | f+1, t, hf, hm, hd => by
    rw [stepMonB]
    split
    · next hguard =>
      set t1 := fixMon { t with mon := t.mon - 1 } with ht1
      have hoth := fixMon_others { t with mon := t.mon - 1 }
      rw [← ht1] at hoth
      simp only [Prod.mk.injEq] at hoth
      have hday1 : t1.day = t.day := hoth.1
      set t' : smart_tm := { t1 with day := t1.day + numDaysOfMonth t1 } with ht'
      have hnd : numDaysOfMonth t' = numDaysOfMonth t1 := rfl
      have hmon' : monInLimits t' = true := fixMon_mon { t with mon := t.mon - 1 }
      have hb := numDaysOfMonth_bounds t1
      have hday' : t'.day = t.day + numDaysOfMonth t1 := by
        simp [ht', hday1]
      have hfuel : (1 - t'.day).toNat ≤ f := by omega
      have hdle : t'.day ≤ numDaysOfMonth t' := by rw [hnd]; omega
      obtain ⟨h1, h2, h3⟩ := stepMonB_post f t' hfuel hmon' hdle
      refine ⟨h1, h2, ?_⟩
      rw [h3]
      simp only [Prod.mk.injEq]
      exact ⟨hoth.2.1, hoth.2.2.1, hoth.2.2.2.1, hoth.2.2.2.2⟩
    · next hguard =>
      refine ⟨hm, ?_, rfl⟩
      simp only [dayInLimits, Bool.and_eq_true, decide_eq_true_eq]
      omega

theorem stepMon_post (t : smart_tm) (hm : monInLimits t = true) :
    monInLimits (stepMon t) = true ∧ dayInLimits (stepMon t) = true ∧
    ((stepMon t).hr, (stepMon t).min, (stepMon t).sec, (stepMon t).fracSec)
      = (t.hr, t.min, t.sec, t.fracSec) := by
  unfold stepMon
  obtain ⟨a1, a2, _, a4⟩ := stepMonA_post t.day.toNat t le_rfl hm
  obtain ⟨b1, b2, b3⟩ := stepMonB_post (1 - (stepMonA t.day.toNat t).day).toNat
    (stepMonA t.day.toNat t) le_rfl a1 a2
  exact ⟨b1, b2, by rw [b3, a4]⟩

theorem stepMonNLA_post : ∀ (f : Nat) (t : smart_tm), monInLimits t = true →
    monInLimits (stepMonNLA f t) = true ∧
    ((stepMonNLA f t).hr, (stepMonNLA f t).min, (stepMonNLA f t).sec,
      (stepMonNLA f t).fracSec) = (t.hr, t.min, t.sec, t.fracSec)
  | 0, t, hm => ⟨hm, rfl⟩
  | f+1, t, hm => by
    rw [stepMonNLA]
    split
    · next hguard =>
      set t' := fixMon { t with day := t.day - daysTable t.mon, mon := t.mon + 1 } with ht'
      have hoth := fixMon_others { t with day := t.day - daysTable t.mon, mon := t.mon + 1 }
      rw [← ht'] at hoth
      simp only [Prod.mk.injEq] at hoth
      obtain ⟨h1, h2⟩ := stepMonNLA_post f t' (fixMon_mon _)
      refine ⟨h1, ?_⟩
      rw [h2]
      simp only [Prod.mk.injEq]
      exact ⟨hoth.2.1, hoth.2.2.1, hoth.2.2.2.1, hoth.2.2.2.2⟩
    · exact ⟨hm, rfl⟩

theorem stepMonNLB_post : ∀ (f : Nat) (t : smart_tm), monInLimits t = true →
    monInLimits (stepMonNLB f t) = true ∧
    ((stepMonNLB f t).hr, (stepMonNLB f t).min, (stepMonNLB f t).sec,
      (stepMonNLB f t).fracSec) = (t.hr, t.min, t.sec, t.fracSec)
  | 0, t, hm => ⟨hm, rfl⟩
  | f+1, t, hm => by
    rw [stepMonNLB]
    split
    · next hguard =>
      set t1 := fixMon { t with mon := t.mon - 1 } with ht1
      have hoth := fixMon_others { t with mon := t.mon - 1 }
      rw [← ht1] at hoth
      simp only [Prod.mk.injEq] at hoth
      have hmon1 : monInLimits { t1 with day := t1.day + daysTable t1.mon } = true :=
        fixMon_mon { t with mon := t.mon - 1 }
      obtain ⟨h1, h2⟩ := stepMonNLB_post f { t1 with day := t1.day + daysTable t1.mon } hmon1
      refine ⟨h1, ?_⟩
      rw [h2]
      simp only [Prod.mk.injEq]
      exact ⟨hoth.2.1, hoth.2.2.1, hoth.2.2.2.1, hoth.2.2.2.2⟩
    · exact ⟨hm, rfl⟩

theorem stepMonNoLeapCorrection_post (t : smart_tm) (hm : monInLimits t = true) :
    monInLimits (stepMonNoLeapCorrection t) = true ∧
    ((stepMonNoLeapCorrection t).hr, (stepMonNoLeapCorrection t).min,
      (stepMonNoLeapCorrection t).sec, (stepMonNoLeapCorrection t).fracSec)
      = (t.hr, t.min, t.sec, t.fracSec) := by
  unfold stepMonNoLeapCorrection
  obtain ⟨a1, a2⟩ := stepMonNLA_post t.day.toNat t hm
  obtain ⟨b1, b2⟩ := stepMonNLB_post (1 - (stepMonNLA t.day.toNat t).day).toNat
    (stepMonNLA t.day.toNat t) a1
  exact ⟨b1, by rw [b2, a2]⟩

theorem fixDay_eq (t : smart_tm) (h : ¬ dayInLimits t = true) :
    fixDay t = stepMon
      ⟨(stepMonNoLeapCorrection ⟨t.yr + Int.tdiv (t.day - 1) 365, t.mon,
          t.day - Int.tdiv (t.day - 1) 365 * 365, t.hr, t.min, t.sec, t.fracSec⟩).yr,
       (stepMonNoLeapCorrection ⟨t.yr + Int.tdiv (t.day - 1) 365, t.mon,
          t.day - Int.tdiv (t.day - 1) 365 * 365, t.hr, t.min, t.sec, t.fracSec⟩).mon,
       (stepMonNoLeapCorrection ⟨t.yr + Int.tdiv (t.day - 1) 365, t.mon,
          t.day - Int.tdiv (t.day - 1) 365 * 365, t.hr, t.min, t.sec, t.fracSec⟩).day -
         leapDaysWalkedThroughFrom ⟨t.yr, t.mon, 1, 0, 0, 0, 0⟩
           (stepMonNoLeapCorrection ⟨t.yr + Int.tdiv (t.day - 1) 365, t.mon,
             t.day - Int.tdiv (t.day - 1) 365 * 365, t.hr, t.min, t.sec, t.fracSec⟩),
       (stepMonNoLeapCorrection ⟨t.yr + Int.tdiv (t.day - 1) 365, t.mon,
          t.day - Int.tdiv (t.day - 1) 365 * 365, t.hr, t.min, t.sec, t.fracSec⟩).hr,
       (stepMonNoLeapCorrection ⟨t.yr + Int.tdiv (t.day - 1) 365, t.mon,
          t.day - Int.tdiv (t.day - 1) 365 * 365, t.hr, t.min, t.sec, t.fracSec⟩).min,
       (stepMonNoLeapCorrection ⟨t.yr + Int.tdiv (t.day - 1) 365, t.mon,
          t.day - Int.tdiv (t.day - 1) 365 * 365, t.hr, t.min, t.sec, t.fracSec⟩).sec,
       (stepMonNoLeapCorrection ⟨t.yr + Int.tdiv (t.day - 1) 365, t.mon,
          t.day - Int.tdiv (t.day - 1) 365 * 365, t.hr, t.min, t.sec, t.fracSec⟩).fracSec⟩ := by
  unfold fixDay
  rw [if_neg h]

theorem fixDay_post (t : smart_tm) (hm : monInLimits t = true) :
    monInLimits (fixDay t) = true ∧ dayInLimits (fixDay t) = true ∧
    ((fixDay t).hr, (fixDay t).min, (fixDay t).sec, (fixDay t).fracSec)
      = (t.hr, t.min, t.sec, t.fracSec) := by
  by_cases h : dayInLimits t = true
  · unfold fixDay
    rw [if_pos h]
    exact ⟨hm, h, rfl⟩
  · rw [fixDay_eq t h]
    set u := stepMonNoLeapCorrection ⟨t.yr + Int.tdiv (t.day - 1) 365, t.mon,
      t.day - Int.tdiv (t.day - 1) 365 * 365, t.hr, t.min, t.sec, t.fracSec⟩ with hu
    have hm1 : monInLimits (⟨t.yr + Int.tdiv (t.day - 1) 365, t.mon,
        t.day - Int.tdiv (t.day - 1) 365 * 365, t.hr, t.min, t.sec, t.fracSec⟩ : smart_tm)
        = true := hm
    obtain ⟨h2m, h2t⟩ := stepMonNoLeapCorrection_post _ hm1
    rw [← hu] at h2m h2t
    simp only [Prod.mk.injEq] at h2t
    have hm3 : monInLimits (⟨u.yr, u.mon,
        u.day - leapDaysWalkedThroughFrom ⟨t.yr, t.mon, 1, 0, 0, 0, 0⟩ u,
        u.hr, u.min, u.sec, u.fracSec⟩ : smart_tm) = true := h2m
    obtain ⟨s1, s2, s3⟩ := stepMon_post _ hm3
    simp only [Prod.mk.injEq] at s3
    refine ⟨s1, s2, ?_⟩
    simp only [Prod.mk.injEq]
    refine ⟨?_, ?_, ?_, ?_⟩
    · rw [s3.1]; exact h2t.1
    · rw [s3.2.1]; exact h2t.2.1
    · rw [s3.2.2.1]; exact h2t.2.2.1
    · rw [s3.2.2.2]; exact h2t.2.2.2

theorem fixHr_eq (t : smart_tm) (h : ¬ hrInLimits t = true) :
    fixHr t = fixDay ⟨t.yr, t.mon, t.day + Int.fdiv (t.hr - 0) 24,
      t.hr - Int.fdiv (t.hr - 0) 24 * 24, t.min, t.sec, t.fracSec⟩ := by
  unfold fixHr
  rw [if_neg h]

theorem fixHr_post (t : smart_tm) (hm : monInLimits t = true)
    (hd : dayInLimits t = true) :
    monInLimits (fixHr t) = true ∧ dayInLimits (fixHr t) = true ∧
    hrInLimits (fixHr t) = true ∧
    ((fixHr t).min, (fixHr t).sec, (fixHr t).fracSec) = (t.min, t.sec, t.fracSec) := by
  by_cases h : hrInLimits t = true
  · unfold fixHr
    rw [if_pos h]
    exact ⟨hm, hd, h, rfl⟩
  · rw [fixHr_eq t h]
    have h24 : Int.fdiv (t.hr - 0) 24 = (t.hr - 0) / 24 :=
      Int.fdiv_eq_ediv _ (by norm_num)
    set t1 : smart_tm := ⟨t.yr, t.mon, t.day + Int.fdiv (t.hr - 0) 24,
      t.hr - Int.fdiv (t.hr - 0) 24 * 24, t.min, t.sec, t.fracSec⟩ with ht1
    have hm1 : monInLimits t1 = true := hm
    obtain ⟨d1, d2, d3⟩ := fixDay_post t1 hm1
    simp only [Prod.mk.injEq] at d3
    refine ⟨d1, d2, ?_, ?_⟩
    · have ht1hr : t1.hr = t.hr - Int.fdiv (t.hr - 0) 24 * 24 := rfl
      simp only [hrInLimits, Bool.and_eq_true, decide_eq_true_eq, d3.1, ht1hr, h24]
      constructor <;> omega
    · simp only [Prod.mk.injEq]
      exact ⟨d3.2.1, d3.2.2.1, d3.2.2.2⟩

theorem fixMin_eq (t : smart_tm) (h : ¬ minInLimits t = true) :
    fixMin t = fixHr ⟨t.yr, t.mon, t.day, t.hr + Int.fdiv (t.min - 0) 60,
      t.min - Int.fdiv (t.min - 0) 60 * 60, t.sec, t.fracSec⟩ := by
  unfold fixMin
  rw [if_neg h]

theorem fixMin_post (t : smart_tm) (hm : monInLimits t = true)
    (hd : dayInLimits t = true) (hh : hrInLimits t = true) :
    monInLimits (fixMin t) = true ∧ dayInLimits (fixMin t) = true ∧
    hrInLimits (fixMin t) = true ∧ minInLimits (fixMin t) = true ∧
    ((fixMin t).sec, (fixMin t).fracSec) = (t.sec, t.fracSec) := by
  by_cases h : minInLimits t = true
  · unfold fixMin
    rw [if_pos h]
    exact ⟨hm, hd, hh, h, rfl⟩
  · rw [fixMin_eq t h]
    have h60 : Int.fdiv (t.min - 0) 60 = (t.min - 0) / 60 :=
      Int.fdiv_eq_ediv _ (by norm_num)
    set t1 : smart_tm := ⟨t.yr, t.mon, t.day, t.hr + Int.fdiv (t.min - 0) 60,
      t.min - Int.fdiv (t.min - 0) 60 * 60, t.sec, t.fracSec⟩ with ht1
    have hm1 : monInLimits t1 = true := hm
    have hd1 : dayInLimits t1 = true := hd
    obtain ⟨r1, r2, r3, r4⟩ := fixHr_post t1 hm1 hd1
    simp only [Prod.mk.injEq] at r4
    refine ⟨r1, r2, r3, ?_, ?_⟩
    · have ht1mn : t1.min = t.min - Int.fdiv (t.min - 0) 60 * 60 := rfl
      simp only [minInLimits, Bool.and_eq_true, decide_eq_true_eq, r4.1, ht1mn, h60]
      constructor <;> omega
    · simp only [Prod.mk.injEq]
      exact ⟨r4.2.1, r4.2.2⟩

theorem fixSecA_post (c : Ctx) : ∀ (f : Nat) (t : smart_tm), t.sec.toNat ≤ f →
    monInLimits t = true → dayInLimits t = true → hrInLimits t = true →
    minInLimits t = true →
    monInLimits (fixSecA c f t) = true ∧ dayInLimits (fixSecA c f t) = true ∧
    hrInLimits (fixSecA c f t) = true ∧ minInLimits (fixSecA c f t) = true ∧
    (fixSecA c f t).sec ≤ numSecondsOfMinute c (fixSecA c f t) - 1 ∧
    (0 ≤ t.sec → 0 ≤ (fixSecA c f t).sec) ∧
    (fixSecA c f t).fracSec = t.fracSec
  | 0, t, hf, hm, hd, hh, hmn => by
    have he : fixSecA c 0 t = t := rfl
    rw [he]
    have hb := numSecondsOfMinute_bounds c t
    exact ⟨hm, hd, hh, hmn, by omega, fun h2 => h2, rfl⟩
  | f+1, t, hf, hm, hd, hh, hmn => by
    rw [fixSecA]
    split
    · next hguard =>
      have hb := numSecondsOfMinute_bounds c t
      set u := fixMin ⟨t.yr, t.mon, t.day, t.hr, t.min + 1,
        t.sec - numSecondsOfMinute c t, t.fracSec⟩ with hu
      have hm0 : monInLimits (⟨t.yr, t.mon, t.day, t.hr, t.min + 1,
          t.sec - numSecondsOfMinute c t, t.fracSec⟩ : smart_tm) = true := hm
      have hd0 : dayInLimits (⟨t.yr, t.mon, t.day, t.hr, t.min + 1,
          t.sec - numSecondsOfMinute c t, t.fracSec⟩ : smart_tm) = true := hd
      have hh0 : hrInLimits (⟨t.yr, t.mon, t.day, t.hr, t.min + 1,
          t.sec - numSecondsOfMinute c t, t.fracSec⟩ : smart_tm) = true := hh
      obtain ⟨p1, p2, p3, p4, p5⟩ := fixMin_post _ hm0 hd0 hh0
      rw [← hu] at p1 p2 p3 p4 p5
      simp only [Prod.mk.injEq] at p5
      have husec : u.sec = t.sec - numSecondsOfMinute c t := p5.1
      have hfuel : u.sec.toNat ≤ f := by omega
      obtain ⟨q1, q2, q3, q4, q5, q6, q7⟩ := fixSecA_post c f u hfuel p1 p2 p3 p4
      exact ⟨q1, q2, q3, q4, q5, fun _ => q6 (by omega), by rw [q7, p5.2]⟩
    · next hguard =>
      have hb := numSecondsOfMinute_bounds c t
      exact ⟨hm, hd, hh, hmn, by omega, fun h2 => h2, rfl⟩

theorem fixSecB_post (c : Ctx) : ∀ (f : Nat) (t : smart_tm), (-t.sec).toNat ≤ f →
    monInLimits t = true → dayInLimits t = true → hrInLimits t = true →
    minInLimits t = true → t.sec ≤ numSecondsOfMinute c t - 1 →
    monInLimits (fixSecB c f t) = true ∧ dayInLimits (fixSecB c f t) = true ∧
    hrInLimits (fixSecB c f t) = true ∧ minInLimits (fixSecB c f t) = true ∧
    secInLimits c (fixSecB c f t) = true ∧
    (fixSecB c f t).fracSec = t.fracSec
  | 0, t, hf, hm, hd, hh, hmn, hs => by
    have he : fixSecB c 0 t = t := rfl
    rw [he]
    refine ⟨hm, hd, hh, hmn, ?_, rfl⟩
    simp only [secInLimits, Bool.and_eq_true, decide_eq_true_eq]
    omega
  | f+1, t, hf, hm, hd, hh, hmn, hs => by
    rw [fixSecB]
    split
    · next hguard =>
      set u := fixMin ⟨t.yr, t.mon, t.day, t.hr, t.min - 1, t.sec, t.fracSec⟩ with hu
      have hm0 : monInLimits (⟨t.yr, t.mon, t.day, t.hr, t.min - 1, t.sec,
          t.fracSec⟩ : smart_tm) = true := hm
      have hd0 : dayInLimits (⟨t.yr, t.mon, t.day, t.hr, t.min - 1, t.sec,
          t.fracSec⟩ : smart_tm) = true := hd
      have hh0 : hrInLimits (⟨t.yr, t.mon, t.day, t.hr, t.min - 1, t.sec,
          t.fracSec⟩ : smart_tm) = true := hh
      obtain ⟨p1, p2, p3, p4, p5⟩ := fixMin_post _ hm0 hd0 hh0
      rw [← hu] at p1 p2 p3 p4 p5
      simp only [Prod.mk.injEq] at p5
      have husec : u.sec = t.sec := p5.1
      have hbu := numSecondsOfMinute_bounds c u
      have hm1 : monInLimits (⟨u.yr, u.mon, u.day, u.hr, u.min,
          u.sec + numSecondsOfMinute c u, u.fracSec⟩ : smart_tm) = true := p1
      have hd1 : dayInLimits (⟨u.yr, u.mon, u.day, u.hr, u.min,
          u.sec + numSecondsOfMinute c u, u.fracSec⟩ : smart_tm) = true := p2
      have hh1 : hrInLimits (⟨u.yr, u.mon, u.day, u.hr, u.min,
          u.sec + numSecondsOfMinute c u, u.fracSec⟩ : smart_tm) = true := p3
      have hmn1 : minInLimits (⟨u.yr, u.mon, u.day, u.hr, u.min,
          u.sec + numSecondsOfMinute c u, u.fracSec⟩ : smart_tm) = true := p4
      have hL : numSecondsOfMinute c (⟨u.yr, u.mon, u.day, u.hr, u.min,
          u.sec + numSecondsOfMinute c u, u.fracSec⟩ : smart_tm)
          = numSecondsOfMinute c u := rfl
      have hs1 : (⟨u.yr, u.mon, u.day, u.hr, u.min,
          u.sec + numSecondsOfMinute c u, u.fracSec⟩ : smart_tm).sec ≤
          numSecondsOfMinute c (⟨u.yr, u.mon, u.day, u.hr, u.min,
            u.sec + numSecondsOfMinute c u, u.fracSec⟩ : smart_tm) - 1 := by
        rw [hL]
        show u.sec + numSecondsOfMinute c u ≤ numSecondsOfMinute c u - 1
        omega
      have hfuel : (-(⟨u.yr, u.mon, u.day, u.hr, u.min,
          u.sec + numSecondsOfMinute c u, u.fracSec⟩ : smart_tm).sec).toNat ≤ f := by
        show (-(u.sec + numSecondsOfMinute c u)).toNat ≤ f
        omega
      obtain ⟨q1, q2, q3, q4, q5, q6⟩ := fixSecB_post c f _ hfuel hm1 hd1 hh1 hmn1 hs1
      refine ⟨q1, q2, q3, q4, q5, ?_⟩
      rw [q6]
      show u.fracSec = t.fracSec
      exact p5.2
    · next hguard =>
      refine ⟨hm, hd, hh, hmn, ?_, rfl⟩
      simp only [secInLimits, Bool.and_eq_true, decide_eq_true_eq]
      omega

theorem fixSecAB_post (c : Ctx) (t4 : smart_tm)
    (hm : monInLimits t4 = true) (hd : dayInLimits t4 = true)
    (hh : hrInLimits t4 = true) (hmn : minInLimits t4 = true) :
    monInLimits (fixSecB c (-(fixSecA c t4.sec.toNat t4).sec).toNat
        (fixSecA c t4.sec.toNat t4)) = true ∧
    dayInLimits (fixSecB c (-(fixSecA c t4.sec.toNat t4).sec).toNat
        (fixSecA c t4.sec.toNat t4)) = true ∧
    hrInLimits (fixSecB c (-(fixSecA c t4.sec.toNat t4).sec).toNat
        (fixSecA c t4.sec.toNat t4)) = true ∧
    minInLimits (fixSecB c (-(fixSecA c t4.sec.toNat t4).sec).toNat
        (fixSecA c t4.sec.toNat t4)) = true ∧
    secInLimits c (fixSecB c (-(fixSecA c t4.sec.toNat t4).sec).toNat
        (fixSecA c t4.sec.toNat t4)) = true ∧
    (fixSecB c (-(fixSecA c t4.sec.toNat t4).sec).toNat
        (fixSecA c t4.sec.toNat t4)).fracSec = t4.fracSec := by
  obtain ⟨a1, a2, a3, a4, a5, _, a7⟩ :=
    fixSecA_post c t4.sec.toNat t4 le_rfl hm hd hh hmn
  obtain ⟨b1, b2, b3, b4, b5, b6⟩ :=
    fixSecB_post c (-(fixSecA c t4.sec.toNat t4).sec).toNat
      (fixSecA c t4.sec.toNat t4) le_rfl a1 a2 a3 a4 a5
  exact ⟨b1, b2, b3, b4, b5, by rw [b6, a7]⟩

theorem ratFloor_eq_floor (q : Rat) : ratFloor q = ⌊q⌋ := by
  rw [Rat.floor_def]
  rfl

theorem fixSec_post (c : Ctx) (t : smart_tm) (hm : monInLimits t = true)
    (hd : dayInLimits t = true) (hh : hrInLimits t = true)
    (hmn : minInLimits t = true) :
    monInLimits (fixSec c t) = true ∧ dayInLimits (fixSec c t) = true ∧
    hrInLimits (fixSec c t) = true ∧ minInLimits (fixSec c t) = true ∧
    secInLimits c (fixSec c t) = true ∧ (fixSec c t).fracSec = t.fracSec := by
  by_cases h : secInLimits c t = true
  · unfold fixSec
    rw [if_pos h]
    exact ⟨hm, hd, hh, hmn, h, rfl⟩
  · -- the minute-carried state t1 of the body
    have hm0 : monInLimits (⟨t.yr, t.mon, t.day, t.hr,
        t.min + Int.fdiv (t.sec - 0) 60, 0, t.fracSec⟩ : smart_tm) = true := hm
    have hd0 : dayInLimits (⟨t.yr, t.mon, t.day, t.hr,
        t.min + Int.fdiv (t.sec - 0) 60, 0, t.fracSec⟩ : smart_tm) = true := hd
    have hh0 : hrInLimits (⟨t.yr, t.mon, t.day, t.hr,
        t.min + Int.fdiv (t.sec - 0) 60, 0, t.fracSec⟩ : smart_tm) = true := hh
    obtain ⟨p1, p2, p3, p4, p5⟩ := fixMin_post
      (⟨t.yr, t.mon, t.day, t.hr, t.min + Int.fdiv (t.sec - 0) 60, 0,
        t.fracSec⟩ : smart_tm) hm0 hd0 hh0
    simp only [Prod.mk.injEq] at p5
    set t1s := fixMin (⟨t.yr, t.mon, t.day, t.hr,
      t.min + Int.fdiv (t.sec - 0) 60, 0, t.fracSec⟩ : smart_tm) with ht1s
    set t2s : smart_tm := ⟨t1s.yr, t1s.mon, t1s.day, t1s.hr, t1s.min,
      t.sec - Int.fdiv (t.sec - 0) 60 * 60, t1s.fracSec⟩ with ht2s
    set t3s : smart_tm := ⟨t2s.yr, t2s.mon, t2s.day, t2s.hr, t2s.min,
      t2s.sec - leapSecondsWalkedThroughFrom c
        (toEpoch c ⟨t.yr, t.mon, t.day, t.hr, t.min, 0, t.fracSec⟩)
        (toEpoch c t2s), t2s.fracSec⟩ with ht3s
    have q1 : monInLimits t3s = true := p1
    have q2 : dayInLimits t3s = true := p2
    have q3 : hrInLimits t3s = true := p3
    obtain ⟨r1, r2, r3, r4, r5⟩ := fixMin_post t3s q1 q2 q3
    simp only [Prod.mk.injEq] at r5
    have key := fixSecAB_post c (fixMin t3s) r1 r2 r3 r4
    unfold fixSec
    rw [if_neg h]
    refine ⟨key.1, key.2.1, key.2.2.1, key.2.2.2.1, key.2.2.2.2.1, ?_⟩
    rw [key.2.2.2.2.2, r5.2]
    show t1s.fracSec = t.fracSec
    exact p5.2

theorem fixFracSec_post (c : Ctx) (t : smart_tm) (hm : monInLimits t = true)
    (hd : dayInLimits t = true) (hh : hrInLimits t = true)
    (hmn : minInLimits t = true) (hs : secInLimits c t = true) :
    monInLimits (fixFracSec c t) = true ∧ dayInLimits (fixFracSec c t) = true ∧
    hrInLimits (fixFracSec c t) = true ∧ minInLimits (fixFracSec c t) = true ∧
    secInLimits c (fixFracSec c t) = true ∧
    fracSecInLimits (fixFracSec c t) = true := by
  by_cases h : fracSecInLimits t = true
  · unfold fixFracSec
    rw [if_pos h]
    exact ⟨hm, hd, hh, hmn, hs, h⟩
  · have hm0 : monInLimits (⟨t.yr, t.mon, t.day, t.hr, t.min,
        t.sec + ratFloor (t.fracSec - 0),
        t.fracSec - (ratFloor (t.fracSec - 0) : Rat)⟩ : smart_tm) = true := hm
    have hd0 : dayInLimits (⟨t.yr, t.mon, t.day, t.hr, t.min,
        t.sec + ratFloor (t.fracSec - 0),
        t.fracSec - (ratFloor (t.fracSec - 0) : Rat)⟩ : smart_tm) = true := hd
    have hh0 : hrInLimits (⟨t.yr, t.mon, t.day, t.hr, t.min,
        t.sec + ratFloor (t.fracSec - 0),
        t.fracSec - (ratFloor (t.fracSec - 0) : Rat)⟩ : smart_tm) = true := hh
    have hmn0 : minInLimits (⟨t.yr, t.mon, t.day, t.hr, t.min,
        t.sec + ratFloor (t.fracSec - 0),
        t.fracSec - (ratFloor (t.fracSec - 0) : Rat)⟩ : smart_tm) = true := hmn
    obtain ⟨s1, s2, s3, s4, s5, s6⟩ := fixSec_post c
      (⟨t.yr, t.mon, t.day, t.hr, t.min, t.sec + ratFloor (t.fracSec - 0),
        t.fracSec - (ratFloor (t.fracSec - 0) : Rat)⟩ : smart_tm) hm0 hd0 hh0 hmn0
    unfold fixFracSec
    rw [if_neg h]
    refine ⟨s1, s2, s3, s4, s5, ?_⟩
    have hfr : (fixSec c (⟨t.yr, t.mon, t.day, t.hr, t.min,
        t.sec + ratFloor (t.fracSec - 0),
        t.fracSec - (ratFloor (t.fracSec - 0) : Rat)⟩ : smart_tm)).fracSec
        = t.fracSec - (ratFloor (t.fracSec - 0) : Rat) := s6
    simp only [fracSecInLimits, Bool.and_eq_true, decide_eq_true_eq, hfr]
    rw [ratFloor_eq_floor, sub_zero]
    constructor
    · have := Int.floor_le t.fracSec
      linarith
    · have := Int.lt_floor_add_one t.fracSec
      linarith

theorem isValid_parts (c : Ctx) (t : smart_tm) (h : isValid c t = true) :
    yrInLimits c t = true ∧ monInLimits t = true ∧ dayInLimits t = true ∧
    hrInLimits t = true ∧ minInLimits t = true ∧ secInLimits c t = true ∧
    fracSecInLimits t = true := by
  unfold isValid at h
  simp only [Bool.and_eq_true] at h
  exact ⟨h.1.1.1.1.1.1, h.1.1.1.1.1.2, h.1.1.1.1.2, h.1.1.1.2, h.1.1.2, h.1.2, h.2⟩

theorem adjust_post (c : Ctx) (t : smart_tm) :
    monInLimits (adjust c t) = true ∧ dayInLimits (adjust c t) = true ∧
    hrInLimits (adjust c t) = true ∧ minInLimits (adjust c t) = true ∧
    secInLimits c (adjust c t) = true ∧
    fracSecInLimits (adjust c t) = true := by
  unfold adjust
  split
  · next h =>
    obtain ⟨_, h2, h3, h4, h5, h6, h7⟩ := isValid_parts c t h
    exact ⟨h2, h3, h4, h5, h6, h7⟩
  · have m1 := fixMon_mon t
    obtain ⟨d1, d2, _⟩ := fixDay_post (fixMon t) m1
    obtain ⟨e1, e2, e3, _⟩ := fixHr_post (fixDay (fixMon t)) d1 d2
    obtain ⟨f1, f2, f3, f4, _⟩ := fixMin_post (fixHr (fixDay (fixMon t))) e1 e2 e3
    obtain ⟨g1, g2, g3, g4, g5, _⟩ :=
      fixSec_post c (fixMin (fixHr (fixDay (fixMon t)))) f1 f2 f3 f4
    exact fixFracSec_post c (fixSec c (fixMin (fixHr (fixDay (fixMon t)))))
      g1 g2 g3 g4 g5

/-- C5: a single call to `adjust` terminates (the embedded function is
total, with each loop's fuel a proven iteration bound) and leaves the
Timestamp satisfying all six context-dependent field bounds — month 1–12,
day within the true month length, hour 0–23, minute 0–59, second within
the true leap-aware minute length, fractional second in [0,1) — for every
context and every starting field assignment; whenever the resulting
instant's year moreover lies between the epoch year and 9999, the result
satisfies `isValid`. -/
theorem adjust_single_call_valid (c : Ctx) (t : smart_tm) :
    (monInLimits (adjust c t) = true ∧ dayInLimits (adjust c t) = true ∧
     hrInLimits (adjust c t) = true ∧ minInLimits (adjust c t) = true ∧
     secInLimits c (adjust c t) = true ∧
     fracSecInLimits (adjust c t) = true) ∧
    (yrInLimits c (adjust c t) = true → isValid c (adjust c t) = true) := by
  obtain ⟨h1, h2, h3, h4, h5, h6⟩ := adjust_post c t
  refine ⟨⟨h1, h2, h3, h4, h5, h6⟩, fun hy => ?_⟩
  unfold isValid
  rw [hy, h1, h2, h3, h4, h5, h6]
  rfl

/-- C5 witness: the statement at a concrete context and input. -/
theorem adjust_single_call_valid_witness :
    ((monInLimits (adjust sys6.ctx ⟨2012, 3, 5, 14, 30, 200, 0⟩) = true ∧
      dayInLimits (adjust sys6.ctx ⟨2012, 3, 5, 14, 30, 200, 0⟩) = true ∧
      hrInLimits (adjust sys6.ctx ⟨2012, 3, 5, 14, 30, 200, 0⟩) = true ∧
      minInLimits (adjust sys6.ctx ⟨2012, 3, 5, 14, 30, 200, 0⟩) = true ∧
      secInLimits sys6.ctx (adjust sys6.ctx ⟨2012, 3, 5, 14, 30, 200, 0⟩) = true ∧
      fracSecInLimits (adjust sys6.ctx ⟨2012, 3, 5, 14, 30, 200, 0⟩) = true) ∧
     (yrInLimits sys6.ctx (adjust sys6.ctx ⟨2012, 3, 5, 14, 30, 200, 0⟩) = true →
      isValid sys6.ctx (adjust sys6.ctx ⟨2012, 3, 5, 14, 30, 200, 0⟩) = true)) :=
  adjust_single_call_valid sys6.ctx ⟨2012, 3, 5, 14, 30, 200, 0⟩

theorem leapCountTo_nonneg (y : Int) (h : -1 ≤ y) : 0 ≤ leapCountTo y := by
  rcases Int.lt_or_le y 0 with h0 | h0
  · have hy : y = -1 := by omega
    subst hy
    decide
  · unfold leapCountTo
    rw [Int.tdiv_eq_ediv h0 (by norm_num), Int.tdiv_eq_ediv h0 (by norm_num),
      Int.tdiv_eq_ediv h0 (by norm_num)]
    omega

theorem leapCountTo_step (y : Int) (h : 0 ≤ y) :
    leapCountTo y ≤ leapCountTo (y + 1) ∧ leapCountTo (y + 1) ≤ leapCountTo y + 1 := by
  unfold leapCountTo
  rw [Int.tdiv_eq_ediv h (by norm_num), Int.tdiv_eq_ediv h (by norm_num),
    Int.tdiv_eq_ediv h (by norm_num), Int.tdiv_eq_ediv (by omega) (by norm_num),
    Int.tdiv_eq_ediv (by omega) (by norm_num), Int.tdiv_eq_ediv (by omega) (by norm_num)]
  omega

theorem leapCountTo_mono_aux : ∀ (k : Nat) (a : Int), 0 ≤ a →
    leapCountTo a ≤ leapCountTo (a + k)
  | 0, a, _ => by simp
  | k+1, a, ha => by
    have h1 := leapCountTo_mono_aux k a ha
    have h2 := (leapCountTo_step (a + k) (by omega)).1
    have h3 : (a + (k + 1 : Nat) : Int) = (a + k) + 1 := by push_cast; ring
    rw [h3]
    exact le_trans h1 h2

theorem leapCountTo_mono (a b : Int) (ha : -1 ≤ a) (hab : a ≤ b) :
    leapCountTo a ≤ leapCountTo b := by
  rcases Int.lt_or_le a 0 with h0 | h0
  · have hy : a = -1 := by omega
    subst hy
    have hv : leapCountTo (-1) = 0 := by decide
    rw [hv]
    exact leapCountTo_nonneg b (by omega)
  · have hb : b = a + ((b - a).toNat : Int) := by omega
    rw [hb]
    exact leapCountTo_mono_aux (b - a).toNat a h0

theorem beforeLeapDay_epoch (c : Ctx) :
    beforeLeapDay c.epoch = isLeapYearY c.epochYr := by
  simp [beforeLeapDay, Ctx.epoch, smart_tm.isLeapYear, isLeapYearY]

theorem leapDays_epoch_bounds (c : Ctx) (t : smart_tm)
    (hE : 0 ≤ c.epochYr) (hyr : c.epochYr ≤ t.yr) (hyr2 : t.yr ≤ 9999) :
    0 ≤ leapDaysWalkedThroughFrom c.epoch t ∧
      leapDaysWalkedThroughFrom c.epoch t ≤ 2424 := by
  unfold leapDaysWalkedThroughFrom
  rw [beforeLeapDay_epoch]
  have hey : c.epoch.yr = c.epochYr := rfl
  rw [hey]
  dsimp only
  set aS := if isLeapYearY c.epochYr = true then c.epochYr - 1 else c.epochYr with haS
  set aE := if beforeLeapDay t = true then t.yr - 1 else t.yr with haE
  have h1 : -1 ≤ aS := by rw [haS]; split <;> omega
  have h2 : aS ≤ aE := by
    rw [haS, haE]
    by_cases hSE : isLeapYearY c.epochYr = true
    · rw [if_pos hSE]; split <;> omega
    · rw [if_neg hSE]
      by_cases hbt : beforeLeapDay t = true
      · rw [if_pos hbt]
        have hlt : isLeapYearY t.yr = true := by
          unfold beforeLeapDay at hbt
          simp only [Bool.and_eq_true] at hbt
          exact hbt.1
        have hne : t.yr ≠ c.epochYr := fun hq => hSE (hq ▸ hlt)
        omega
      · rw [if_neg hbt]; omega
  have h3 : aE ≤ 9999 := by rw [haE]; split <;> omega
  have m1 := leapCountTo_mono aS aE h1 h2
  have m2 := leapCountTo_mono aE 9999 (by omega) h3
  have m3 := leapCountTo_nonneg aS h1
  have m4 : leapCountTo 9999 = 2424 := by decide
  omega

theorem monthSecs_range (m : Int) (h1 : 1 ≤ m) (h2 : m ≤ 12) :
    0 ≤ monthSecs m ∧ monthSecs m ≤ 28857600 := by
  interval_cases m <;> decide

theorem toEpochZ_bounds (c : Ctx) (t : smart_tm)
    (hE : 0 ≤ c.epochYr) (hlen : c.leapSecondTMs.length ≤ 4294967296)
    (hv : isValid c t = true) :
    0 ≤ toEpochZ c t ∧ toEpochZ c t < 2 ^ 62 := by
  obtain ⟨hy, hm, hd, hh, hmn, hs, _⟩ := isValid_parts c t hv
  simp only [yrInLimits, monInLimits, dayInLimits, hrInLimits, minInLimits,
    secInLimits, Bool.and_eq_true, decide_eq_true_eq] at hy hm hd hh hmn hs
  have hnd := numDaysOfMonth_bounds t
  have hns := numSecondsOfMinute_bounds c t
  have hms := monthSecs_range t.mon hm.1 hm.2
  have hld := leapDays_epoch_bounds c t hE hy.1 hy.2
  have hcount : leapSecondsWalkedThroughSinceEpoch c t ≤ 4294967296 := by
    unfold leapSecondsWalkedThroughSinceEpoch
    exact le_trans (List.countP_le_length _) hlen
  unfold toEpochZ leapDaysWalkedThroughSinceEpoch
  constructor
  · have : (0 : Int) ≤ (leapSecondsWalkedThroughSinceEpoch c t : Int) := by positivity
    nlinarith [hy.1, hy.2, hE, hd.1, hd.2, hh.1, hh.2, hmn.1, hmn.2, hs.1]
  · have hco : ((leapSecondsWalkedThroughSinceEpoch c t : Nat) : Int) ≤ 4294967296 := by
      exact_mod_cast hcount
    nlinarith [hy.1, hy.2, hE, hd.1, hd.2, hh.1, hh.2, hmn.1, hmn.2, hs.1, hs.2,
      hns.2, hnd.2]

theorem toEpoch_eq_toEpochZ (c : Ctx) (t : smart_tm)
    (hE : 0 ≤ c.epochYr) (hlen : c.leapSecondTMs.length ≤ 4294967296)
    (hv : isValid c t = true) :
    (toEpoch c t : Int) = toEpochZ c t := by
  obtain ⟨h0, h1⟩ := toEpochZ_bounds c t hE hlen hv
  unfold toEpoch
  rw [Int.emod_eq_of_lt h0 (by omega), Int.toNat_of_nonneg h0]

/-- C9: for valid Timestamps under an initialized context (epoch year
nonnegative, leap table of any realistic size), the difference operator
returns exactly (toEpoch(lhs) + lhs.fracSec) − (toEpoch(rhs) + rhs.fracSec)
as a real (rational) number, including negative results: the unsigned
64-bit subtraction of the two `toEpoch` values wraps modulo 2^64 and is
reinterpreted as a signed integer, and the fractional parts are combined
after the integer conversion. -/
theorem tmSub_eq_real_difference (c : Ctx) (l r : smart_tm)
    (hE : 0 ≤ c.epochYr) (hlen : c.leapSecondTMs.length ≤ 4294967296)
    (hl : isValid c l = true) (hr : isValid c r = true) :
    tmSub c l r = (((toEpoch c l : Int) : Rat) + l.fracSec) -
      (((toEpoch c r : Int) : Rat) + r.fracSec) := by
  obtain ⟨l0, l1⟩ := toEpochZ_bounds c l hE hlen hl
  obtain ⟨r0, r1⟩ := toEpochZ_bounds c r hE hlen hr
  have hle := toEpoch_eq_toEpochZ c l hE hlen hl
  have hre := toEpoch_eq_toEpochZ c r hE hlen hr
  have hw : wrapS64 ((toEpoch c l : Int) - (toEpoch c r : Int))
      = (toEpoch c l : Int) - (toEpoch c r : Int) := by
    unfold wrapS64
    rw [hle, hre]
    rw [Int.emod_eq_of_lt (by omega) (by omega)]
    ring
  unfold tmSub
  rw [hw]
  push_cast
  ring

/-- C9 witness: the hypotheses and conclusion at concrete inputs (with the
left operand earlier than the right, so the difference is negative). -/
theorem tmSub_eq_real_difference_witness :
    tmSub sys6.ctx ⟨1995, 3, 1, 0, 0, 0, 0⟩ ⟨2013, 1, 1, 0, 0, 30, 0⟩ =
      (((toEpoch sys6.ctx ⟨1995, 3, 1, 0, 0, 0, 0⟩ : Int) : Rat) + 0) -
      (((toEpoch sys6.ctx ⟨2013, 1, 1, 0, 0, 30, 0⟩ : Int) : Rat) + 0) :=
  tmSub_eq_real_difference sys6.ctx ⟨1995, 3, 1, 0, 0, 0, 0⟩
    ⟨2013, 1, 1, 0, 0, 30, 0⟩ (by decide) (by decide) (by decide) (by decide)

theorem monthSecsLoop_eq : ∀ k : Nat, monthSecsLoop k = monthDaysSumLoop k * 86400
  | 0 => rfl
  | k+1 => by
    unfold monthSecsLoop monthDaysSumLoop
    rw [monthSecsLoop_eq k]
    ring

theorem monthSecs_eq_daysSum (m : Int) : monthSecs m = monthDaysSum m * 86400 := by
  unfold monthSecs monthDaysSum
  exact monthSecsLoop_eq _

theorem isLeapYearY_iff (y : Int) :
    isLeapYearY y = true ↔ (y % 4 = 0 ∧ (y % 400 = 0 ∨ y % 100 ≠ 0)) := by
  unfold isLeapYearY
  simp

theorem leapCountTo_succ_exact (y : Int) (h : 0 ≤ y) :
    leapCountTo (y + 1) = leapCountTo y +
      (if isLeapYearY (y + 1) = true then 1 else 0) := by
  unfold leapCountTo
  rw [Int.tdiv_eq_ediv h (by norm_num), Int.tdiv_eq_ediv h (by norm_num),
    Int.tdiv_eq_ediv h (by norm_num), Int.tdiv_eq_ediv (by omega) (by norm_num),
    Int.tdiv_eq_ediv (by omega) (by norm_num), Int.tdiv_eq_ediv (by omega) (by norm_num)]
  by_cases hy : isLeapYearY (y + 1) = true
  · rw [if_pos hy]
    rw [isLeapYearY_iff] at hy
    omega
  · rw [if_neg hy]
    rw [isLeapYearY_iff] at hy
    push_neg at hy
    omega

theorem leapCountTo_nonpos (y : Int) (h : y ≤ 0) : leapCountTo y ≤ 0 := by
  unfold leapCountTo
  have h4 : Int.tdiv y 4 = -(Int.tdiv (-y) 4) := by
    rw [← Int.neg_tdiv, neg_neg]
  have h400 : Int.tdiv y 400 = -(Int.tdiv (-y) 400) := by
    rw [← Int.neg_tdiv, neg_neg]
  have h100 : Int.tdiv y 100 = -(Int.tdiv (-y) 100) := by
    rw [← Int.neg_tdiv, neg_neg]
  rw [h4, h400, h100, Int.tdiv_eq_ediv (by omega) (by norm_num),
    Int.tdiv_eq_ediv (by omega) (by norm_num), Int.tdiv_eq_ediv (by omega) (by norm_num)]
  omega

theorem beforeLeapDay_iff (t : smart_tm) :
    beforeLeapDay t = true ↔
      (isLeapYearY t.yr = true ∧ ((t.mon = 2 ∧ t.day ≤ 29) ∨ t.mon = 1)) := by
  unfold beforeLeapDay smart_tm.isLeapYear isLeapYearY
  simp only [Bool.and_eq_true, Bool.or_eq_true, beq_iff_eq, decide_eq_true_eq]
  constructor
  · rintro ⟨h1, h2 | h2⟩
    · exact ⟨h1, Or.inl ⟨by omega, h2.2⟩⟩
    · exact ⟨h1, Or.inr (by omega)⟩
  · rintro ⟨h1, h2 | h2⟩
    · exact ⟨h1, Or.inl ⟨by omega, h2.2⟩⟩
    · exact ⟨h1, Or.inr (by omega)⟩

theorem adjCnt_eq (t : smart_tm) (h : 1 ≤ t.yr) :
    leapCountTo (if beforeLeapDay t = true then t.yr - 1 else t.yr) =
      yearMonthLeapBase t + febOverflow t := by
  unfold yearMonthLeapBase febOverflow
  by_cases hb : beforeLeapDay t = true
  · rw [if_pos hb]
    rw [beforeLeapDay_iff] at hb
    obtain ⟨h1, h2⟩ := hb
    have hmon : t.mon = 1 ∨ t.mon = 2 := by omega
    rw [if_pos ⟨h1, hmon⟩, if_neg (by omega)]
    ring
  · rw [if_neg hb]
    rw [beforeLeapDay_iff] at hb
    push_neg at hb
    by_cases h1 : isLeapYearY t.yr = true
    · have h2 := hb h1
      by_cases hm2 : t.mon = 2
      · have hd30 : 30 ≤ t.day := by omega
        rw [if_pos ⟨h1, Or.inr hm2⟩, if_pos ⟨h1, hm2, hd30⟩]
        have hs := leapCountTo_succ_exact (t.yr - 1) (by omega)
        rw [if_pos (by simpa using h1 : isLeapYearY (t.yr - 1 + 1) = true)] at hs
        rw [show t.yr - 1 + 1 = t.yr by ring] at hs
        omega
      · have hm1 : t.mon ≠ 1 := by omega
        rw [if_neg (by tauto), if_neg (by tauto)]
        ring
    · rw [if_neg (by tauto), if_neg (by tauto)]
      ring

theorem leapDays_decomp (s e : smart_tm) (hs : 1 ≤ s.yr) (he : 1 ≤ e.yr) :
    leapDaysWalkedThroughFrom s e =
      (yearMonthLeapBase e + febOverflow e) -
      (yearMonthLeapBase s + febOverflow s) := by
  unfold leapDaysWalkedThroughFrom
  dsimp only
  rw [adjCnt_eq s hs, adjCnt_eq e he]

theorem monthDaysSum_step (m : Int) (h : 1 ≤ m) :
    monthDaysSum (m + 1) = monthDaysSum m + daysTable m := by
  unfold monthDaysSum
  have h1 : (m + 1 - 1).toNat = (m - 1).toNat + 1 := by omega
  have hstep : ∀ k : Nat, monthDaysSumLoop (k + 1) =
      monthDaysSumLoop k + daysTable ((k : Int) + 1) := fun k => rfl
  rw [h1, hstep]
  have h2 : ((m - 1).toNat : Int) = m - 1 := by omega
  rw [h2, show m - 1 + 1 = m by ring]

theorem monthDaysSum_mono_aux : ∀ (k : Nat) (a : Int), 1 ≤ a →
    monthDaysSum a ≤ monthDaysSum (a + k)
  | 0, a, _ => by simp
  | k+1, a, ha => by
    have h1 := monthDaysSum_mono_aux k a ha
    have h2 := monthDaysSum_step (a + k) (by omega)
    have h3 := daysTable_bounds (a + k)
    have h4 : (a + (k + 1 : Nat) : Int) = (a + k) + 1 := by push_cast; ring
    rw [h4]
    omega

theorem monthDaysSum_mono (a b : Int) (ha : 1 ≤ a) (hab : a ≤ b) :
    monthDaysSum a ≤ monthDaysSum b := by
  have hb : b = a + ((b - a).toNat : Int) := by omega
  rw [hb]
  exact monthDaysSum_mono_aux (b - a).toNat a ha

theorem monthDaysSum_nonneg (m : Int) (h : 1 ≤ m) : 0 ≤ monthDaysSum m := by
  have h1 : monthDaysSum 1 = 0 := by decide
  have := monthDaysSum_mono 1 m (by norm_num) h
  omega

theorem monthDaysSum_ub (m : Int) (h1 : 1 ≤ m) (h2 : m ≤ 12) :
    monthDaysSum m + daysTable m ≤ 365 := by
  have hs := monthDaysSum_step m h1
  have hm := monthDaysSum_mono (m + 1) 13 (by omega) (by omega)
  have h13 : monthDaysSum 13 = 365 := by decide
  omega

theorem yearMonthLeapBase_eq (t : smart_tm) (h : 1 ≤ t.yr) :
    yearMonthLeapBase t = leapCountTo (t.yr - 1) +
      (if isLeapYearY t.yr = true then 1 else 0) -
      (if isLeapYearY t.yr = true ∧ (t.mon = 1 ∨ t.mon = 2) then 1 else 0) := by
  unfold yearMonthLeapBase
  have hs := leapCountTo_succ_exact (t.yr - 1) (by omega)
  rw [show t.yr - 1 + 1 = t.yr by ring] at hs
  by_cases hl : isLeapYearY t.yr = true
  · by_cases hm : t.mon = 1 ∨ t.mon = 2
    · rw [if_pos ⟨hl, hm⟩, if_pos hl, if_pos ⟨hl, hm⟩]
      omega
    · rw [if_neg (by tauto), if_pos hl, if_neg (by tauto)]
      rw [if_pos hl] at hs
      omega
  · rw [if_neg (by tauto), if_neg hl, if_neg (by tauto)]
    rw [if_neg hl] at hs
    omega

theorem epochLeapBase_eq (E : Int) (h : 1 ≤ E) :
    epochLeapBase E = leapCountTo (E - 1) := by
  unfold epochLeapBase
  have hs := leapCountTo_succ_exact (E - 1) (by omega)
  rw [show E - 1 + 1 = E by ring] at hs
  by_cases hl : isLeapYearY E = true
  · rw [if_pos hl]
  · rw [if_neg hl]
    rw [if_neg hl] at hs
    omega

theorem epochLeapBase_nonneg (E : Int) (h : 1 ≤ E) : 0 ≤ epochLeapBase E := by
  rw [epochLeapBase_eq E h]
  exact leapCountTo_nonneg (E - 1) (by omega)

theorem dayIndex_gIdx (E : Int) (t : smart_tm) :
    dayIndex E t = gIdx t - (365 * E + epochLeapBase E) := by
  unfold dayIndex gIdx naiveIdx
  ring

theorem minuteIdx_minGIdx (E : Int) (t : smart_tm) :
    minuteIdx E t = minGIdx t - 1440 * (365 * E + epochLeapBase E) := by
  unfold minuteIdx minGIdx
  rw [dayIndex_gIdx]
  ring

theorem yearMonthLeapBase_congr (a b : smart_tm) (hy : a.yr = b.yr)
    (hm : a.mon = b.mon) : yearMonthLeapBase a = yearMonthLeapBase b := by
  unfold yearMonthLeapBase
  rw [hy, hm]

theorem adjCnt_noFeb (t : smart_tm) (h : t.mon = 2 → t.day ≤ 29) :
    leapCountTo (if beforeLeapDay t = true then t.yr - 1 else t.yr) =
      yearMonthLeapBase t := by
  unfold yearMonthLeapBase
  by_cases hb : beforeLeapDay t = true
  · rw [if_pos hb]
    rw [beforeLeapDay_iff] at hb
    rw [if_pos ⟨hb.1, by omega⟩]
  · rw [if_neg hb]
    rw [beforeLeapDay_iff] at hb
    by_cases hl : isLeapYearY t.yr = true
    · rw [if_neg (by
        rintro ⟨-, hm1 | hm2⟩
        · exact hb ⟨hl, Or.inr hm1⟩
        · exact hb ⟨hl, Or.inl ⟨hm2, h hm2⟩⟩)]
    · rw [if_neg (by tauto)]

theorem fixMon_id (t : smart_tm) (h : monInLimits t = true) : fixMon t = t := by
  unfold fixMon
  rw [if_pos h]

theorem fixMon_13 (t : smart_tm) (h : t.mon = 13) :
    fixMon t = { t with yr := t.yr + 1, mon := 1 } := by
  unfold fixMon
  rw [if_neg (by simp [monInLimits, h])]
  have hq : Int.fdiv (t.mon - 1) 12 = 1 := by rw [h]; decide
  rw [hq]
  simp only [smart_tm.mk.injEq, and_true, true_and]
  omega

theorem fixMon_0 (t : smart_tm) (h : t.mon = 0) :
    fixMon t = { t with yr := t.yr - 1, mon := 12 } := by
  unfold fixMon
  rw [if_neg (by simp [monInLimits, h])]
  have hq : Int.fdiv (t.mon - 1) 12 = -1 := by rw [h]; decide
  rw [hq]
  simp only [smart_tm.mk.injEq, and_true, true_and]
  omega

theorem stepMonNLA_id : ∀ (f : Nat) (s : smart_tm),
    s.day ≤ daysTable s.mon → stepMonNLA f s = s
  | 0, s, _ => rfl
  | f+1, s, h => by
    rw [stepMonNLA, if_neg (by omega)]

theorem stepMonNLB_id : ∀ (f : Nat) (s : smart_tm),
    1 ≤ s.day → stepMonNLB f s = s
  | 0, s, _ => rfl
  | f+1, s, h => by
    rw [stepMonNLB, if_neg (by omega)]

theorem stepMonA_id : ∀ (f : Nat) (s : smart_tm),
    s.day ≤ numDaysOfMonth s → stepMonA f s = s
  | 0, s, _ => rfl
  | f+1, s, h => by
    rw [stepMonA, if_neg (by omega)]

theorem stepMonB_id : ∀ (f : Nat) (s : smart_tm),
    1 ≤ s.day → stepMonB f s = s
  | 0, s, _ => rfl
  | f+1, s, h => by
    rw [stepMonB, if_neg (by omega)]

theorem stepMon_id (s : smart_tm) (h1 : 1 ≤ s.day)
    (h2 : s.day ≤ numDaysOfMonth s) : stepMon s = s := by
  unfold stepMon
  rw [stepMonA_id _ _ h2, stepMonB_id _ _ h1]

theorem numDaysOfMonth_eq (t : smart_tm) :
    numDaysOfMonth t = daysTable t.mon +
      (if t.mon = 2 ∧ isLeapYearY t.yr = true then 1 else 0) := by
  unfold numDaysOfMonth
  have hL : t.isLeapYear = isLeapYearY t.yr := rfl
  rw [hL]
  by_cases h : t.mon - 1 = 1 ∧ isLeapYearY t.yr = true
  · rw [if_pos h, if_pos ⟨by omega, h.2⟩]
    have h2 : t.mon = 2 := by omega
    rw [h2]
    decide
  · rw [if_neg h, if_neg (by rintro ⟨a, b⟩; exact h ⟨by omega, b⟩)]
    ring

theorem base_step_mon (y M d1 h1 m1 s1 d2 h2 m2 s2 : Int) (f1 f2 : Rat)
    (hy : 1 ≤ y) (hM : 1 ≤ M) :
    yearMonthLeapBase ⟨y, M + 1, d1, h1, m1, s1, f1⟩ =
      yearMonthLeapBase ⟨y, M, d2, h2, m2, s2, f2⟩ +
      (if M = 2 ∧ isLeapYearY y = true then 1 else 0) := by
  unfold yearMonthLeapBase
  dsimp only
  have hstep := leapCountTo_succ_exact (y - 1) (by omega)
  rw [show y - 1 + 1 = y by ring] at hstep
  by_cases hl : isLeapYearY y = true
  · rw [if_pos hl] at hstep
    by_cases hM1 : M = 1
    · rw [if_pos ⟨hl, by omega⟩, if_pos ⟨hl, by omega⟩, if_neg (by omega)]
      ring
    · by_cases hM2 : M = 2
      · rw [if_neg (by rintro ⟨-, hc | hc⟩ <;> omega),
          if_pos ⟨hl, by omega⟩, if_pos ⟨hM2, hl⟩]
        omega
      · rw [if_neg (by rintro ⟨-, hc | hc⟩ <;> omega),
          if_neg (by rintro ⟨-, hc | hc⟩ <;> omega), if_neg (by tauto)]
        ring
  · rw [if_neg hl] at hstep
    rw [if_neg (by tauto), if_neg (by tauto), if_neg (by tauto)]
    omega

theorem base_year_up (y d1 h1 m1 s1 d2 h2 m2 s2 : Int) (f1 f2 : Rat)
    (hy : 1 ≤ y) :
    yearMonthLeapBase ⟨y + 1, 1, d1, h1, m1, s1, f1⟩ =
      yearMonthLeapBase ⟨y, 12, d2, h2, m2, s2, f2⟩ := by
  unfold yearMonthLeapBase
  dsimp only
  have hstep := leapCountTo_succ_exact y (by omega)
  have h12 : ¬ (isLeapYearY y = true ∧ ((12 : Int) = 1 ∨ (12 : Int) = 2)) := by
    rintro ⟨-, hc | hc⟩ <;> norm_num at hc
  rw [if_neg h12]
  by_cases hl : isLeapYearY (y + 1) = true
  · rw [if_pos (⟨hl, Or.inl rfl⟩ :
      isLeapYearY (y + 1) = true ∧ ((1 : Int) = 1 ∨ (1 : Int) = 2))]
    rw [if_pos hl] at hstep
    rw [show y + 1 - 1 = y by ring]
  · rw [if_neg (fun hc => hl hc.1)]
    rw [if_neg hl] at hstep
    omega

theorem base_year_down (y d1 h1 m1 s1 d2 h2 m2 s2 : Int) (f1 f2 : Rat)
    (hy : 2 ≤ y) :
    yearMonthLeapBase ⟨y - 1, 12, d1, h1, m1, s1, f1⟩ =
      yearMonthLeapBase ⟨y, 1, d2, h2, m2, s2, f2⟩ := by
  unfold yearMonthLeapBase
  dsimp only
  have hstep := leapCountTo_succ_exact (y - 1) (by omega)
  rw [show y - 1 + 1 = y by ring] at hstep
  have h12 : ¬ (isLeapYearY (y - 1) = true ∧ ((12 : Int) = 1 ∨ (12 : Int) = 2)) := by
    rintro ⟨-, hc | hc⟩ <;> norm_num at hc
  rw [if_neg h12]
  by_cases hl : isLeapYearY y = true
  · rw [if_pos (⟨hl, Or.inl rfl⟩ :
      isLeapYearY y = true ∧ ((1 : Int) = 1 ∨ (1 : Int) = 2))]
  · rw [if_neg (fun hc => hl hc.1)]
    rw [if_neg hl] at hstep
    omega

theorem stepMonNLA_main : ∀ (f : Nat) (t : smart_tm), t.day.toNat ≤ f →
    monInLimits t = true →
    monInLimits (stepMonNLA f t) = true ∧
    naiveIdx (stepMonNLA f t) = naiveIdx t ∧
    (stepMonNLA f t).day ≤ daysTable (stepMonNLA f t).mon ∧
    (1 ≤ t.day → 1 ≤ (stepMonNLA f t).day) ∧
    t.yr ≤ (stepMonNLA f t).yr
  | 0, t, hf, hm => by
    have hb := daysTable_bounds t.mon
    have he : stepMonNLA 0 t = t := rfl
    rw [he]
    exact ⟨hm, rfl, by omega, fun h => h, le_rfl⟩
  | f+1, t, hf, hm => by
    rw [stepMonNLA]
    split
    · next hguard =>
      have hb := daysTable_bounds t.mon
      have hml : 1 ≤ t.mon ∧ t.mon ≤ 12 := by
        simp only [monInLimits, Bool.and_eq_true, decide_eq_true_eq] at hm
        exact hm
      rw [show ({ t with day := t.day - daysTable t.mon, mon := t.mon + 1 } : smart_tm)
        = ⟨t.yr, t.mon + 1, t.day - daysTable t.mon, t.hr, t.min, t.sec, t.fracSec⟩ from rfl]
      by_cases h12 : t.mon = 12
      · have h13 : fixMon (⟨t.yr, t.mon + 1, t.day - daysTable t.mon, t.hr, t.min,
            t.sec, t.fracSec⟩ : smart_tm)
            = ⟨t.yr + 1, 1, t.day - daysTable t.mon, t.hr, t.min, t.sec, t.fracSec⟩ := by
          rw [fixMon_13 _ (by dsimp only; omega)]
        rw [h13]
        have hmu : monInLimits (⟨t.yr + 1, 1, t.day - daysTable t.mon, t.hr, t.min,
            t.sec, t.fracSec⟩ : smart_tm) = true := by
          simp only [monInLimits, Bool.and_eq_true, decide_eq_true_eq]
          constructor <;> norm_num
        have hfu : (⟨t.yr + 1, 1, t.day - daysTable t.mon, t.hr, t.min, t.sec,
            t.fracSec⟩ : smart_tm).day.toNat ≤ f := by
          dsimp only
          omega
        obtain ⟨q1, q2, q3, q4, q5⟩ := stepMonNLA_main f _ hfu hmu
        refine ⟨q1, ?_, q3, fun _ => q4 (by dsimp only; omega), ?_⟩
        · rw [q2]
          unfold naiveIdx
          dsimp only
          have e1 : monthDaysSum 1 = 0 := by decide
          have e2 : monthDaysSum t.mon = 334 := by rw [h12]; decide
          have e3 : daysTable t.mon = 31 := by rw [h12]; decide
          omega
        · have hyru : t.yr ≤ (⟨t.yr + 1, 1, t.day - daysTable t.mon, t.hr, t.min,
              t.sec, t.fracSec⟩ : smart_tm).yr := by
            dsimp only
            omega
          exact le_trans hyru q5
      · have hmu : monInLimits (⟨t.yr, t.mon + 1, t.day - daysTable t.mon, t.hr, t.min,
            t.sec, t.fracSec⟩ : smart_tm) = true := by
          simp only [monInLimits, Bool.and_eq_true, decide_eq_true_eq]
          constructor <;> (dsimp only; omega)
        rw [fixMon_id _ hmu]
        have hfu : (⟨t.yr, t.mon + 1, t.day - daysTable t.mon, t.hr, t.min, t.sec,
            t.fracSec⟩ : smart_tm).day.toNat ≤ f := by
          dsimp only
          omega
        obtain ⟨q1, q2, q3, q4, q5⟩ := stepMonNLA_main f _ hfu hmu
        refine ⟨q1, ?_, q3, fun _ => q4 (by dsimp only; omega), le_trans (by dsimp only; omega) q5⟩
        rw [q2]
        unfold naiveIdx
        dsimp only
        have hs := monthDaysSum_step t.mon (by omega)
        omega
    · next hguard =>
      exact ⟨hm, rfl, by omega, fun h => h, le_rfl⟩

theorem stepMonNLB_main : ∀ (f : Nat) (t : smart_tm), (1 - t.day).toNat ≤ f →
    monInLimits t = true → t.day ≤ daysTable t.mon →
    monInLimits (stepMonNLB f t) = true ∧
    naiveIdx (stepMonNLB f t) = naiveIdx t ∧
    1 ≤ (stepMonNLB f t).day ∧
    (stepMonNLB f t).day ≤ daysTable (stepMonNLB f t).mon
  | 0, t, hf, hm, hd => by
    have he : stepMonNLB 0 t = t := rfl
    rw [he]
    exact ⟨hm, rfl, by omega, hd⟩
  | f+1, t, hf, hm, hd => by
    rw [stepMonNLB]
    split
    · next hguard =>
      have hml : 1 ≤ t.mon ∧ t.mon ≤ 12 := by
        simp only [monInLimits, Bool.and_eq_true, decide_eq_true_eq] at hm
        exact hm
      rw [show ({ t with mon := t.mon - 1 } : smart_tm)
        = ⟨t.yr, t.mon - 1, t.day, t.hr, t.min, t.sec, t.fracSec⟩ from rfl]
      by_cases h1 : t.mon = 1
      · have h0 : fixMon (⟨t.yr, t.mon - 1, t.day, t.hr, t.min, t.sec,
            t.fracSec⟩ : smart_tm)
            = ⟨t.yr - 1, 12, t.day, t.hr, t.min, t.sec, t.fracSec⟩ := by
          rw [fixMon_0 _ (by dsimp only; omega)]
        rw [h0]
        dsimp only
        have hdt : daysTable (12 : Int) = 31 := by decide
        have hmu : monInLimits (⟨t.yr - 1, 12, t.day + daysTable 12, t.hr, t.min, t.sec,
            t.fracSec⟩ : smart_tm) = true := by
          simp only [monInLimits, Bool.and_eq_true, decide_eq_true_eq]
          constructor <;> norm_num
        have hfu : (1 - (⟨t.yr - 1, 12, t.day + daysTable 12, t.hr, t.min, t.sec,
            t.fracSec⟩ : smart_tm).day).toNat ≤ f := by
          dsimp only
          omega
        have hdu : (⟨t.yr - 1, 12, t.day + daysTable 12, t.hr, t.min, t.sec,
            t.fracSec⟩ : smart_tm).day ≤ daysTable (⟨t.yr - 1, 12, t.day + daysTable 12,
            t.hr, t.min, t.sec, t.fracSec⟩ : smart_tm).mon := by
          dsimp only
          omega
        obtain ⟨q1, q2, q3, q4⟩ := stepMonNLB_main f _ hfu hmu hdu
        refine ⟨q1, ?_, q3, q4⟩
        rw [q2]
        unfold naiveIdx
        dsimp only
        have e1 : monthDaysSum t.mon = 0 := by rw [h1]; decide
        have e2 : monthDaysSum 12 = 334 := by decide
        omega
      · have hmu0 : monInLimits (⟨t.yr, t.mon - 1, t.day, t.hr, t.min, t.sec,
            t.fracSec⟩ : smart_tm) = true := by
          simp only [monInLimits, Bool.and_eq_true, decide_eq_true_eq]
          constructor <;> (dsimp only; omega)
        rw [fixMon_id _ hmu0]
        dsimp only
        have hb1 := daysTable_bounds (t.mon - 1)
        have hmu : monInLimits (⟨t.yr, t.mon - 1, t.day + daysTable (t.mon - 1), t.hr,
            t.min, t.sec, t.fracSec⟩ : smart_tm) = true := by
          simp only [monInLimits, Bool.and_eq_true, decide_eq_true_eq]
          constructor <;> (dsimp only; omega)
        have hfu : (1 - (⟨t.yr, t.mon - 1, t.day + daysTable (t.mon - 1), t.hr, t.min,
            t.sec, t.fracSec⟩ : smart_tm).day).toNat ≤ f := by
          dsimp only
          omega
        have hdu : (⟨t.yr, t.mon - 1, t.day + daysTable (t.mon - 1), t.hr, t.min, t.sec,
            t.fracSec⟩ : smart_tm).day ≤ daysTable (⟨t.yr, t.mon - 1,
            t.day + daysTable (t.mon - 1), t.hr, t.min, t.sec,
            t.fracSec⟩ : smart_tm).mon := by
          dsimp only
          omega
        obtain ⟨q1, q2, q3, q4⟩ := stepMonNLB_main f _ hfu hmu hdu
        refine ⟨q1, ?_, q3, q4⟩
        rw [q2]
        unfold naiveIdx
        dsimp only
        have hs := monthDaysSum_step (t.mon - 1) (by omega)
        rw [show t.mon - 1 + 1 = t.mon by ring] at hs
        omega
    · next hguard =>
      exact ⟨hm, rfl, by omega, hd⟩

theorem stepMonNLC_main (t : smart_tm) (hm : monInLimits t = true) :
    monInLimits (stepMonNoLeapCorrection t) = true ∧
    naiveIdx (stepMonNoLeapCorrection t) = naiveIdx t ∧
    1 ≤ (stepMonNoLeapCorrection t).day ∧
    (stepMonNoLeapCorrection t).day ≤ daysTable (stepMonNoLeapCorrection t).mon ∧
    (1 ≤ t.day → t.yr ≤ (stepMonNoLeapCorrection t).yr) := by
  unfold stepMonNoLeapCorrection
  obtain ⟨a1, a2, a3, a4, a5⟩ := stepMonNLA_main t.day.toNat t le_rfl hm
  obtain ⟨b1, b2, b3, b4⟩ :=
    stepMonNLB_main (1 - (stepMonNLA t.day.toNat t).day).toNat _ le_rfl a1 a3
  refine ⟨b1, by rw [b2, a2], b3, b4, fun h1 => ?_⟩
  rw [stepMonNLB_id _ _ (a4 h1)]
  exact a5

theorem stepMonNLC_day0 (t : smart_tm) (hm : monInLimits t = true)
    (h0 : t.day = 0) :
    (2 ≤ t.mon ∧ stepMonNoLeapCorrection t =
      ⟨t.yr, t.mon - 1, daysTable (t.mon - 1), t.hr, t.min, t.sec, t.fracSec⟩) ∨
    (t.mon = 1 ∧ stepMonNoLeapCorrection t =
      ⟨t.yr - 1, 12, 31, t.hr, t.min, t.sec, t.fracSec⟩) := by
  have hml : 1 ≤ t.mon ∧ t.mon ≤ 12 := by
    simp only [monInLimits, Bool.and_eq_true, decide_eq_true_eq] at hm
    exact hm
  have hb := daysTable_bounds t.mon
  unfold stepMonNoLeapCorrection
  rw [stepMonNLA_id _ _ (by omega)]
  dsimp only
  have hf1 : (1 - t.day).toNat = 0 + 1 := by omega
  rw [hf1, stepMonNLB]
  rw [if_pos (by omega)]
  rw [show ({ t with mon := t.mon - 1 } : smart_tm)
    = ⟨t.yr, t.mon - 1, t.day, t.hr, t.min, t.sec, t.fracSec⟩ from rfl]
  by_cases h1 : t.mon = 1
  · refine Or.inr ⟨h1, ?_⟩
    have hfx : fixMon (⟨t.yr, t.mon - 1, t.day, t.hr, t.min, t.sec,
        t.fracSec⟩ : smart_tm)
        = ⟨t.yr - 1, 12, t.day, t.hr, t.min, t.sec, t.fracSec⟩ := by
      rw [fixMon_0 _ (by dsimp only; omega)]
    rw [hfx]
    dsimp only
    rw [show t.day + daysTable 12 = 31 by rw [h0]; decide]
    exact stepMonNLB_id _ _ (by norm_num)
  · refine Or.inl ⟨by omega, ?_⟩
    have hmu0 : monInLimits (⟨t.yr, t.mon - 1, t.day, t.hr, t.min, t.sec,
        t.fracSec⟩ : smart_tm) = true := by
      simp only [monInLimits, Bool.and_eq_true, decide_eq_true_eq]
      constructor <;> (dsimp only; omega)
    rw [fixMon_id _ hmu0]
    dsimp only
    rw [show t.day + daysTable (t.mon - 1) = daysTable (t.mon - 1) by rw [h0]; ring]
    have hb1 := daysTable_bounds (t.mon - 1)
    exact stepMonNLB_id _ _ (by dsimp only; omega)

theorem stepMonA_gIdx : ∀ (f : Nat) (s : smart_tm), monInLimits s = true →
    1 ≤ s.yr → gIdx (stepMonA f s) = gIdx s
  | 0, s, _, _ => rfl
  | f+1, s, hm, hyr => by
    rw [stepMonA]
    split
    · next hguard =>
      have hml : 1 ≤ s.mon ∧ s.mon ≤ 12 := by
        simp only [monInLimits, Bool.and_eq_true, decide_eq_true_eq] at hm
        exact hm
      have hndb := numDaysOfMonth_bounds s
      have hnde := numDaysOfMonth_eq s
      rw [show ({ s with day := s.day - numDaysOfMonth s, mon := s.mon + 1 } : smart_tm)
        = ⟨s.yr, s.mon + 1, s.day - numDaysOfMonth s, s.hr, s.min, s.sec,
          s.fracSec⟩ from rfl]
      by_cases h12 : s.mon = 12
      · have h13 : fixMon (⟨s.yr, s.mon + 1, s.day - numDaysOfMonth s, s.hr, s.min,
            s.sec, s.fracSec⟩ : smart_tm)
            = ⟨s.yr + 1, 1, s.day - numDaysOfMonth s, s.hr, s.min, s.sec,
              s.fracSec⟩ := by
          rw [fixMon_13 _ (by dsimp only; omega)]
        rw [h13]
        have hmu : monInLimits (⟨s.yr + 1, 1, s.day - numDaysOfMonth s, s.hr, s.min,
            s.sec, s.fracSec⟩ : smart_tm) = true := by
          simp only [monInLimits, Bool.and_eq_true, decide_eq_true_eq]
          constructor <;> norm_num
        rw [stepMonA_gIdx f _ hmu (by dsimp only; omega)]
        unfold gIdx naiveIdx
        dsimp only
        have hbu := base_year_up s.yr (s.day - numDaysOfMonth s) s.hr s.min s.sec
          0 0 0 0 s.fracSec 0 hyr
        have hbc : yearMonthLeapBase (⟨s.yr, 12, 0, 0, 0, 0, 0⟩ : smart_tm)
            = yearMonthLeapBase s := yearMonthLeapBase_congr _ _ rfl (by dsimp only; omega)
        have e1 : monthDaysSum 1 = 0 := by decide
        have e2 : monthDaysSum s.mon = 334 := by rw [h12]; decide
        have e3 : daysTable s.mon = 31 := by rw [h12]; decide
        have e4 : ¬ (s.mon = 2 ∧ isLeapYearY s.yr = true) := by
          rintro ⟨hc, -⟩
          omega
        rw [if_neg e4] at hnde
        omega
      · have hmu : monInLimits (⟨s.yr, s.mon + 1, s.day - numDaysOfMonth s, s.hr,
            s.min, s.sec, s.fracSec⟩ : smart_tm) = true := by
          simp only [monInLimits, Bool.and_eq_true, decide_eq_true_eq]
          constructor <;> (dsimp only; omega)
        rw [fixMon_id _ hmu]
        rw [stepMonA_gIdx f _ hmu (by dsimp only; omega)]
        unfold gIdx naiveIdx
        dsimp only
        have hbs := base_step_mon s.yr s.mon (s.day - numDaysOfMonth s) s.hr s.min
          s.sec 0 0 0 0 s.fracSec 0 hyr (by omega)
        have hbc : yearMonthLeapBase (⟨s.yr, s.mon, 0, 0, 0, 0, 0⟩ : smart_tm)
            = yearMonthLeapBase s := yearMonthLeapBase_congr _ _ rfl rfl
        have hms := monthDaysSum_step s.mon (by omega)
        by_cases hFeb : s.mon = 2 ∧ isLeapYearY s.yr = true
        · rw [if_pos hFeb] at hbs hnde
          omega
        · rw [if_neg hFeb] at hbs hnde
          omega
    · next hguard => rfl

theorem yearMonthLeapBase_nonpos (s : smart_tm) (h : s.yr ≤ 0) :
    yearMonthLeapBase s ≤ 0 := by
  unfold yearMonthLeapBase
  split
  · exact leapCountTo_nonpos _ (by omega)
  · exact leapCountTo_nonpos _ (by omega)

theorem stepMonB_yr_pos (s : smart_tm) (hml : 1 ≤ s.mon ∧ s.mon ≤ 12)
    (hd31 : s.day ≤ 1) (hg : 365 ≤ gIdx s) : 1 ≤ s.yr := by
  by_contra hy
  push_neg at hy
  have hb := yearMonthLeapBase_nonpos s (by omega)
  have hms : monthDaysSum s.mon ≤ 334 := by
    have := monthDaysSum_mono s.mon 12 hml.1 hml.2
    have e : monthDaysSum 12 = 334 := by decide
    omega
  unfold gIdx naiveIdx at hg
  omega

theorem stepMonB_gIdx : ∀ (f : Nat) (s : smart_tm), monInLimits s = true →
    s.day ≤ 31 → 365 ≤ gIdx s → gIdx (stepMonB f s) = gIdx s
  | 0, s, _, _, _ => rfl
  | f+1, s, hm, hd31, hg => by
    rw [stepMonB]
    split
    · next hguard =>
      have hml : 1 ≤ s.mon ∧ s.mon ≤ 12 := by
        simp only [monInLimits, Bool.and_eq_true, decide_eq_true_eq] at hm
        exact hm
      have hyr : 1 ≤ s.yr := stepMonB_yr_pos s hml (by omega) hg
      rw [show ({ s with mon := s.mon - 1 } : smart_tm)
        = ⟨s.yr, s.mon - 1, s.day, s.hr, s.min, s.sec, s.fracSec⟩ from rfl]
      by_cases h1 : s.mon = 1
      · have hy2 : 2 ≤ s.yr := by
          by_contra hy2
          push_neg at hy2
          have hy1 : s.yr = 1 := by omega
          have hbase : yearMonthLeapBase s = leapCountTo s.yr := by
            unfold yearMonthLeapBase
            rw [if_neg (fun hc => by rw [hy1] at hc; exact absurd hc.1 (by decide))]
          have hcnt : leapCountTo s.yr = 0 := by rw [hy1]; decide
          have hms : monthDaysSum s.mon = 0 := by rw [h1]; decide
          unfold gIdx naiveIdx at hg
          omega
        have h0 : fixMon (⟨s.yr, s.mon - 1, s.day, s.hr, s.min, s.sec,
            s.fracSec⟩ : smart_tm)
            = ⟨s.yr - 1, 12, s.day, s.hr, s.min, s.sec, s.fracSec⟩ := by
          rw [fixMon_0 _ (by dsimp only; omega)]
        rw [h0]
        dsimp only
        have hnd : numDaysOfMonth (⟨s.yr - 1, 12, s.day, s.hr, s.min, s.sec,
            s.fracSec⟩ : smart_tm) = 31 := by
          rw [numDaysOfMonth_eq]
          dsimp only
          rw [if_neg (fun hc => by exact absurd hc.1 (by norm_num))]
          decide
        rw [hnd]
        have hgeq : gIdx (⟨s.yr - 1, 12, s.day + 31, s.hr, s.min, s.sec,
            s.fracSec⟩ : smart_tm) = gIdx s := by
          unfold gIdx naiveIdx
          dsimp only
          have hbd := base_year_down s.yr (s.day + 31) s.hr s.min s.sec
            0 0 0 0 s.fracSec 0 hy2
          have hbc : yearMonthLeapBase (⟨s.yr, 1, 0, 0, 0, 0, 0⟩ : smart_tm)
              = yearMonthLeapBase s := yearMonthLeapBase_congr _ _ rfl (by dsimp only; omega)
          have e1 : monthDaysSum 12 = 334 := by decide
          have e2 : monthDaysSum s.mon = 0 := by rw [h1]; decide
          omega
        have hmu : monInLimits (⟨s.yr - 1, 12, s.day + 31, s.hr, s.min, s.sec,
            s.fracSec⟩ : smart_tm) = true := by
          simp only [monInLimits, Bool.and_eq_true, decide_eq_true_eq]
          constructor <;> norm_num
        rw [stepMonB_gIdx f _ hmu (by dsimp only; omega) (by rw [hgeq]; exact hg)]
        exact hgeq
      · have hmu0 : monInLimits (⟨s.yr, s.mon - 1, s.day, s.hr, s.min, s.sec,
            s.fracSec⟩ : smart_tm) = true := by
          simp only [monInLimits, Bool.and_eq_true, decide_eq_true_eq]
          constructor <;> (dsimp only; omega)
        rw [fixMon_id _ hmu0]
        dsimp only
        have hnde : numDaysOfMonth (⟨s.yr, s.mon - 1, s.day, s.hr, s.min, s.sec,
            s.fracSec⟩ : smart_tm) = daysTable (s.mon - 1) +
            (if s.mon - 1 = 2 ∧ isLeapYearY s.yr = true then 1 else 0) := by
          rw [numDaysOfMonth_eq]
        have hdb1 := daysTable_bounds (s.mon - 1)
        have hgeq : gIdx (⟨s.yr, s.mon - 1, s.day + numDaysOfMonth (⟨s.yr, s.mon - 1,
            s.day, s.hr, s.min, s.sec, s.fracSec⟩ : smart_tm), s.hr, s.min, s.sec,
            s.fracSec⟩ : smart_tm) = gIdx s := by
          unfold gIdx naiveIdx
          dsimp only
          have hbs := base_step_mon s.yr (s.mon - 1) 0 0 0 0 s.day 0 0 0 0
            s.fracSec hyr (by omega)
          rw [show s.mon - 1 + 1 = s.mon by ring] at hbs
          have hbc1 : yearMonthLeapBase (⟨s.yr, s.mon, 0, 0, 0, 0, 0⟩ : smart_tm)
              = yearMonthLeapBase s := yearMonthLeapBase_congr _ _ rfl rfl
          have hbc2 : yearMonthLeapBase (⟨s.yr, s.mon - 1, s.day, 0, 0, 0,
              s.fracSec⟩ : smart_tm) = yearMonthLeapBase (⟨s.yr, s.mon - 1,
              s.day + numDaysOfMonth (⟨s.yr, s.mon - 1, s.day, s.hr, s.min, s.sec,
              s.fracSec⟩ : smart_tm), s.hr, s.min, s.sec, s.fracSec⟩ : smart_tm) :=
            yearMonthLeapBase_congr _ _ rfl rfl
          have hms := monthDaysSum_step (s.mon - 1) (by omega)
          rw [show s.mon - 1 + 1 = s.mon by ring] at hms
          by_cases hFeb : s.mon - 1 = 2 ∧ isLeapYearY s.yr = true
          · rw [if_pos hFeb] at hbs hnde
            omega
          · rw [if_neg hFeb] at hbs hnde
            omega
        have hmu : monInLimits (⟨s.yr, s.mon - 1, s.day + numDaysOfMonth (⟨s.yr,
            s.mon - 1, s.day, s.hr, s.min, s.sec, s.fracSec⟩ : smart_tm), s.hr, s.min,
            s.sec, s.fracSec⟩ : smart_tm) = true := by
          simp only [monInLimits, Bool.and_eq_true, decide_eq_true_eq]
          constructor <;> (dsimp only; omega)
        rw [stepMonB_gIdx f _ hmu (by
          dsimp only
          have hb2 := numDaysOfMonth_bounds (⟨s.yr, s.mon - 1, s.day, s.hr, s.min,
            s.sec, s.fracSec⟩ : smart_tm)
          omega) (by rw [hgeq]; exact hg)]
        exact hgeq
    · next hguard => rfl

theorem stepMon_gIdx (s : smart_tm) (hm : monInLimits s = true)
    (hyr : 1 ≤ s.yr) (hg : 365 ≤ gIdx s) : gIdx (stepMon s) = gIdx s := by
  unfold stepMon
  dsimp only
  obtain ⟨a1, a2, -, -⟩ := stepMonA_post s.day.toNat s le_rfl hm
  have hag := stepMonA_gIdx s.day.toNat s hm hyr
  have hd31 : (stepMonA s.day.toNat s).day ≤ 31 :=
    le_trans a2 (numDaysOfMonth_bounds _).2
  have hbg := stepMonB_gIdx (1 - (stepMonA s.day.toNat s).day).toNat _ a1 hd31
    (by rw [hag]; exact hg)
  rw [hbg, hag]

theorem fixDay_gIdx (E : Int) (t : smart_tm) (hm : monInLimits t = true)
    (hE : 1 ≤ E) (hyE : E ≤ t.yr) (hday : 0 ≤ t.day)
    (hG : 0 ≤ dayIndex E t) :
    gIdx (fixDay t) = gIdx t := by
  have hml : 1 ≤ t.mon ∧ t.mon ≤ 12 := by
    have h := hm
    simp only [monInLimits, Bool.and_eq_true, decide_eq_true_eq] at h
    exact h
  by_cases hd : dayInLimits t = true
  · unfold fixDay
    rw [if_pos hd]
  · rw [fixDay_eq t hd]
    rcases (show 1 ≤ t.day ∨ t.day = 0 from by omega) with hd1 | hd0
    · -- at least one naive day: the year shift is forward
      have htd : Int.tdiv (t.day - 1) 365 = (t.day - 1) / 365 :=
        Int.tdiv_eq_ediv (by omega) (by norm_num)
      set u := stepMonNoLeapCorrection ⟨t.yr + Int.tdiv (t.day - 1) 365, t.mon,
        t.day - Int.tdiv (t.day - 1) 365 * 365, t.hr, t.min, t.sec, t.fracSec⟩ with hu
      have hm1 : monInLimits (⟨t.yr + Int.tdiv (t.day - 1) 365, t.mon,
          t.day - Int.tdiv (t.day - 1) 365 * 365, t.hr, t.min, t.sec, t.fracSec⟩
          : smart_tm) = true := hm
      obtain ⟨n1, n2, n3, n4, n5⟩ := stepMonNLC_main _ hm1
      rw [← hu] at n1 n2 n3 n4 n5
      have hd1' : 1 ≤ t.day - Int.tdiv (t.day - 1) 365 * 365 := by
        rw [htd]
        omega
      have hyu : 1 ≤ u.yr := by
        have h5 := n5 hd1'
        dsimp only at h5
        rw [htd] at h5
        omega
      have hLc : leapDaysWalkedThroughFrom ⟨t.yr, t.mon, 1, 0, 0, 0, 0⟩ u
          = yearMonthLeapBase u - yearMonthLeapBase t := by
        unfold leapDaysWalkedThroughFrom
        dsimp only
        rw [adjCnt_noFeb u (fun hm2 => by
            have e : daysTable u.mon = 28 := by rw [hm2]; decide
            omega),
          adjCnt_noFeb _ (fun _ => by show (1 : Int) ≤ 29; norm_num),
          yearMonthLeapBase_congr (⟨t.yr, t.mon, 1, 0, 0, 0, 0⟩ : smart_tm) t rfl rfl]
      have hmw : monInLimits (⟨u.yr, u.mon, u.day - leapDaysWalkedThroughFrom ⟨t.yr,
          t.mon, 1, 0, 0, 0, 0⟩ u, u.hr, u.min, u.sec, u.fracSec⟩ : smart_tm)
          = true := n1
      have hgw : gIdx (⟨u.yr, u.mon, u.day - leapDaysWalkedThroughFrom ⟨t.yr, t.mon,
          1, 0, 0, 0, 0⟩ u, u.hr, u.min, u.sec, u.fracSec⟩ : smart_tm) = gIdx t := by
        unfold naiveIdx at n2
        dsimp only at n2
        unfold gIdx naiveIdx
        dsimp only
        rw [hLc]
        have hbw : yearMonthLeapBase (⟨u.yr, u.mon,
            u.day - (yearMonthLeapBase u - yearMonthLeapBase t), u.hr, u.min, u.sec,
            u.fracSec⟩ : smart_tm) = yearMonthLeapBase u :=
          yearMonthLeapBase_congr _ _ rfl rfl
        rw [hbw]
        omega
      have h365 : 365 ≤ gIdx (⟨u.yr, u.mon, u.day - leapDaysWalkedThroughFrom ⟨t.yr,
          t.mon, 1, 0, 0, 0, 0⟩ u, u.hr, u.min, u.sec, u.fracSec⟩ : smart_tm) := by
        rw [hgw]
        have hgt := dayIndex_gIdx E t
        have heb := epochLeapBase_nonneg E hE
        omega
      rw [stepMon_gIdx _ hmw hyu h365]
      exact hgw
    · -- transient day 0: the chain collapses to an explicit in-limits state
      have hc00 : Int.tdiv (t.day - 1) 365 = 0 := by
        rw [show t.day - 1 = -1 by omega]
        decide
      rw [hc00]
      simp only [add_zero, zero_mul, sub_zero]
      rw [show (⟨t.yr, t.mon, t.day, t.hr, t.min, t.sec, t.fracSec⟩ : smart_tm) = t
        from rfl]
      rcases stepMonNLC_day0 t hm hd0 with ⟨hm2, hueq⟩ | ⟨hm1, hueq⟩
      · rw [hueq]
        dsimp only
        have hbs := base_step_mon t.yr (t.mon - 1) 0 0 0 0 0 0 0 0 0 0
          (by omega) (by omega)
        rw [show t.mon - 1 + 1 = t.mon by ring] at hbs
        have hbt : yearMonthLeapBase (⟨t.yr, t.mon, (0:Int), 0, 0, 0, 0⟩ : smart_tm)
            = yearMonthLeapBase t := yearMonthLeapBase_congr _ _ rfl rfl
        have hLc : leapDaysWalkedThroughFrom ⟨t.yr, t.mon, 1, 0, 0, 0, 0⟩
            (⟨t.yr, t.mon - 1, daysTable (t.mon - 1), t.hr, t.min, t.sec,
              t.fracSec⟩ : smart_tm)
            = yearMonthLeapBase (⟨t.yr, t.mon - 1, daysTable (t.mon - 1), t.hr,
              t.min, t.sec, t.fracSec⟩ : smart_tm) - yearMonthLeapBase t := by
          unfold leapDaysWalkedThroughFrom
          dsimp only
          rw [adjCnt_noFeb _ (fun hmm2 => by
              have e2 : t.mon - 1 = 2 := hmm2
              show daysTable (t.mon - 1) ≤ 29
              rw [e2]
              decide),
            adjCnt_noFeb _ (fun _ => by show (1 : Int) ≤ 29; norm_num),
            yearMonthLeapBase_congr (⟨t.yr, t.mon, 1, 0, 0, 0, 0⟩ : smart_tm) t rfl rfl]
        rw [hLc]
        have hBc : yearMonthLeapBase (⟨t.yr, t.mon - 1, daysTable (t.mon - 1), t.hr,
            t.min, t.sec, t.fracSec⟩ : smart_tm)
            = yearMonthLeapBase (⟨t.yr, t.mon - 1, (0:Int), 0, 0, 0, 0⟩ : smart_tm) :=
          yearMonthLeapBase_congr _ _ rfl rfl
        have hdb := daysTable_bounds (t.mon - 1)
        have hndw : numDaysOfMonth (⟨t.yr, t.mon - 1, daysTable (t.mon - 1) -
            (yearMonthLeapBase (⟨t.yr, t.mon - 1, daysTable (t.mon - 1), t.hr, t.min,
              t.sec, t.fracSec⟩ : smart_tm) - yearMonthLeapBase t), t.hr, t.min,
            t.sec, t.fracSec⟩ : smart_tm)
            = daysTable (t.mon - 1) +
              (if t.mon - 1 = 2 ∧ isLeapYearY t.yr = true then 1 else 0) :=
          numDaysOfMonth_eq _
        have hbww : yearMonthLeapBase (⟨t.yr, t.mon - 1, daysTable (t.mon - 1) -
            (yearMonthLeapBase (⟨t.yr, t.mon - 1, daysTable (t.mon - 1), t.hr, t.min,
              t.sec, t.fracSec⟩ : smart_tm) - yearMonthLeapBase t), t.hr, t.min,
            t.sec, t.fracSec⟩ : smart_tm)
            = yearMonthLeapBase (⟨t.yr, t.mon - 1, (0:Int), 0, 0, 0, 0⟩ : smart_tm) :=
          yearMonthLeapBase_congr _ _ rfl rfl
        have hms := monthDaysSum_step (t.mon - 1) (by omega)
        rw [show t.mon - 1 + 1 = t.mon by ring] at hms
        by_cases hFeb : t.mon - 1 = 2 ∧ isLeapYearY t.yr = true
        · rw [if_pos hFeb] at hbs hndw
          rw [stepMon_id _ (by dsimp only; omega) (by dsimp only; rw [hndw]; omega)]
          unfold gIdx naiveIdx
          dsimp only
          rw [hbww]
          omega
        · rw [if_neg hFeb] at hbs hndw
          rw [stepMon_id _ (by dsimp only; omega) (by dsimp only; rw [hndw]; omega)]
          unfold gIdx naiveIdx
          dsimp only
          rw [hbww]
          omega
      · rw [hueq]
        dsimp only
        have hbu : yearMonthLeapBase (⟨t.yr - 1, 12, (31:Int), t.hr, t.min, t.sec,
            t.fracSec⟩ : smart_tm) = leapCountTo (t.yr - 1) := by
          unfold yearMonthLeapBase
          dsimp only
          rw [if_neg (by rintro ⟨-, hc | hc⟩ <;> norm_num at hc)]
        have hbt1 : yearMonthLeapBase t = leapCountTo (t.yr - 1) := by
          have hstep := leapCountTo_succ_exact (t.yr - 1) (by omega)
          rw [show t.yr - 1 + 1 = t.yr by ring] at hstep
          unfold yearMonthLeapBase
          by_cases hl : isLeapYearY t.yr = true
          · rw [if_pos ⟨hl, Or.inl hm1⟩]
          · rw [if_neg (fun hc => hl hc.1)]
            rw [if_neg hl] at hstep
            omega
        have hLc : leapDaysWalkedThroughFrom ⟨t.yr, t.mon, 1, 0, 0, 0, 0⟩
            (⟨t.yr - 1, 12, (31:Int), t.hr, t.min, t.sec, t.fracSec⟩ : smart_tm)
            = yearMonthLeapBase (⟨t.yr - 1, 12, (31:Int), t.hr, t.min, t.sec,
              t.fracSec⟩ : smart_tm) - yearMonthLeapBase t := by
          unfold leapDaysWalkedThroughFrom
          dsimp only
          rw [adjCnt_noFeb _ (fun hmm2 => by
              have hc : (12 : Int) = 2 := hmm2
              norm_num at hc),
            adjCnt_noFeb _ (fun _ => by show (1 : Int) ≤ 29; norm_num),
            yearMonthLeapBase_congr (⟨t.yr, t.mon, 1, 0, 0, 0, 0⟩ : smart_tm) t rfl rfl]
        rw [hLc, hbu, hbt1]
        rw [show leapCountTo (t.yr - 1) - leapCountTo (t.yr - 1) = 0 by ring]
        rw [show (31 : Int) - 0 = 31 by norm_num]
        have hndw : numDaysOfMonth (⟨t.yr - 1, 12, (31:Int), t.hr, t.min, t.sec,
            t.fracSec⟩ : smart_tm)
            = daysTable (12 : Int) +
              (if (12 : Int) = 2 ∧ isLeapYearY (t.yr - 1) = true then 1 else 0) :=
          numDaysOfMonth_eq _
        rw [if_neg (by rintro ⟨hc, -⟩; norm_num at hc)] at hndw
        rw [stepMon_id _ (by show (1 : Int) ≤ 31; norm_num)
          (by dsimp only; rw [hndw]; decide)]
        unfold gIdx naiveIdx
        dsimp only
        rw [hbu, hbt1]
        have e1 : monthDaysSum 12 = 334 := by decide
        have e2 : monthDaysSum t.mon = 0 := by rw [hm1]; decide
        omega

theorem yearMonthLeapBase_le (t : smart_tm) (h1 : 1 ≤ t.yr) :
    yearMonthLeapBase t ≤ leapCountTo t.yr := by
  have hstep := leapCountTo_succ_exact (t.yr - 1) (by omega)
  rw [show t.yr - 1 + 1 = t.yr by ring] at hstep
  rw [yearMonthLeapBase_eq t h1]
  by_cases hl : isLeapYearY t.yr = true
  · rw [if_pos hl] at hstep ⊢
    by_cases hc : t.mon = 1 ∨ t.mon = 2
    · rw [if_pos ⟨hl, hc⟩]
      omega
    · rw [if_neg (fun x => hc x.2)]
      omega
  · rw [if_neg hl] at hstep ⊢
    rw [if_neg (fun x => hl x.1)]
    omega

theorem yearMonthLeapBase_ge (t : smart_tm) (h1 : 1 ≤ t.yr) :
    leapCountTo (t.yr - 1) ≤ yearMonthLeapBase t := by
  rw [yearMonthLeapBase_eq t h1]
  by_cases hl : isLeapYearY t.yr = true
  · rw [if_pos hl]
    by_cases hc : t.mon = 1 ∨ t.mon = 2
    · rw [if_pos ⟨hl, hc⟩]
      omega
    · rw [if_neg (fun x => hc x.2)]
      omega
  · rw [if_neg hl, if_neg (fun x => hl x.1)]
    omega

theorem dayIndex_yr_lb (E : Int) (t : smart_tm) (hE : 1 ≤ E)
    (hml : 1 ≤ t.mon ∧ t.mon ≤ 12) (hd31 : t.day ≤ 31)
    (hG : 0 ≤ dayIndex E t) : E ≤ t.yr := by
  by_contra hy
  push_neg at hy
  have hms : monthDaysSum t.mon ≤ 334 := by
    have := monthDaysSum_mono t.mon 12 hml.1 hml.2
    have e : monthDaysSum 12 = 334 := by decide
    omega
  have heb : epochLeapBase E = leapCountTo (E - 1) := epochLeapBase_eq E hE
  unfold dayIndex at hG
  rw [heb] at hG
  rcases (show t.yr ≤ 0 ∨ 1 ≤ t.yr from by omega) with h0 | h1
  · have hb := yearMonthLeapBase_nonpos t h0
    have hcnt : 0 ≤ leapCountTo (E - 1) := leapCountTo_nonneg _ (by omega)
    omega
  · have hbt := yearMonthLeapBase_le t h1
    have hmono := leapCountTo_mono t.yr (E - 1) (by omega) (by omega)
    omega

theorem dayIndex_ub (E : Int) (t : smart_tm) (hE : 1 ≤ E)
    (hml : 1 ≤ t.mon ∧ t.mon ≤ 12) (hd31 : t.day ≤ 31)
    (hyE : E ≤ t.yr) (hy99 : t.yr ≤ 9999) : dayIndex E t ≤ 3652058 := by
  have hms : monthDaysSum t.mon ≤ 334 := by
    have := monthDaysSum_mono t.mon 12 hml.1 hml.2
    have e : monthDaysSum 12 = 334 := by decide
    omega
  have hbt := yearMonthLeapBase_le t (by omega)
  have hcm := leapCountTo_mono t.yr 9999 (by omega) (by omega)
  have e : leapCountTo 9999 = 2424 := by decide
  have heb := epochLeapBase_nonneg E hE
  unfold dayIndex
  omega

theorem fixHr_minGIdx (E : Int) (t : smart_tm) (hm : monInLimits t = true)
    (hE : 1 ≤ E) (hyE : E ≤ t.yr) (hd : dayInLimits t = true)
    (hhr : -24 ≤ t.hr) (hmn0 : 0 ≤ t.min) (hmn59 : t.min ≤ 59)
    (hJ : 0 ≤ minuteIdx E t) :
    minGIdx (fixHr t) = minGIdx t ∧ (fixHr t).sec = t.sec ∧
    (fixHr t).fracSec = t.fracSec := by
  by_cases hh : hrInLimits t = true
  · unfold fixHr
    rw [if_pos hh]
    exact ⟨rfl, rfl, rfl⟩
  · rw [fixHr_eq t hh]
    have h24 : Int.fdiv (t.hr - 0) 24 = (t.hr - 0) / 24 :=
      Int.fdiv_eq_ediv _ (by norm_num)
    have hd' : 1 ≤ t.day ∧ t.day ≤ 31 := by
      simp only [dayInLimits, Bool.and_eq_true, decide_eq_true_eq] at hd
      have := numDaysOfMonth_bounds t
      omega
    set t1 : smart_tm := ⟨t.yr, t.mon, t.day + Int.fdiv (t.hr - 0) 24,
      t.hr - Int.fdiv (t.hr - 0) 24 * 24, t.min, t.sec, t.fracSec⟩ with ht1
    have hm1 : monInLimits t1 = true := hm
    have hgsh : gIdx t1 = gIdx t + Int.fdiv (t.hr - 0) 24 := by
      rw [ht1]
      unfold gIdx naiveIdx
      dsimp only
      rw [show yearMonthLeapBase (⟨t.yr, t.mon, t.day + Int.fdiv (t.hr - 0) 24,
        t.hr - Int.fdiv (t.hr - 0) 24 * 24, t.min, t.sec, t.fracSec⟩ : smart_tm)
        = yearMonthLeapBase t from yearMonthLeapBase_congr _ _ rfl rfl]
      ring
    have hdsh : dayIndex E t1 = dayIndex E t + Int.fdiv (t.hr - 0) 24 := by
      rw [dayIndex_gIdx, dayIndex_gIdx, hgsh]
      ring
    have hday0 : 0 ≤ t1.day := by
      show 0 ≤ t.day + Int.fdiv (t.hr - 0) 24
      rw [h24]
      omega
    have hdix : 0 ≤ dayIndex E t1 := by
      rw [hdsh, h24]
      unfold minuteIdx at hJ
      omega
    have hdg := fixDay_gIdx E t1 hm1 hE hyE hday0 hdix
    obtain ⟨p1, p2, p3⟩ := fixDay_post t1 hm1
    simp only [Prod.mk.injEq] at p3
    refine ⟨?_, ?_, ?_⟩
    · unfold minGIdx
      rw [hdg, p3.1, p3.2.1, hgsh]
      show 1440 * (gIdx t + Int.fdiv (t.hr - 0) 24) +
        60 * (t.hr - Int.fdiv (t.hr - 0) 24 * 24) + t.min =
        1440 * gIdx t + 60 * t.hr + t.min
      ring
    · rw [p3.2.2.1]
    · rw [p3.2.2.2]

theorem fixMin_minGIdx (E : Int) (t : smart_tm) (hm : monInLimits t = true)
    (hE : 1 ≤ E) (hyE : E ≤ t.yr) (hd : dayInLimits t = true)
    (hh : hrInLimits t = true) (hmn : -60 ≤ t.min)
    (hJ : 0 ≤ minuteIdx E t) :
    minGIdx (fixMin t) = minGIdx t ∧ (fixMin t).sec = t.sec ∧
    (fixMin t).fracSec = t.fracSec := by
  by_cases hmi : minInLimits t = true
  · unfold fixMin
    rw [if_pos hmi]
    exact ⟨rfl, rfl, rfl⟩
  · rw [fixMin_eq t hmi]
    have h60 : Int.fdiv (t.min - 0) 60 = (t.min - 0) / 60 :=
      Int.fdiv_eq_ediv _ (by norm_num)
    have hh' : 0 ≤ t.hr ∧ t.hr ≤ 23 := by
      simp only [hrInLimits, Bool.and_eq_true, decide_eq_true_eq] at hh
      exact hh
    set t1 : smart_tm := ⟨t.yr, t.mon, t.day, t.hr + Int.fdiv (t.min - 0) 60,
      t.min - Int.fdiv (t.min - 0) 60 * 60, t.sec, t.fracSec⟩ with ht1
    have hm1 : monInLimits t1 = true := hm
    have hd1 : dayInLimits t1 = true := hd
    have hgsame : gIdx t1 = gIdx t := by
      rw [ht1]
      unfold gIdx naiveIdx
      dsimp only
      rw [show yearMonthLeapBase (⟨t.yr, t.mon, t.day, t.hr + Int.fdiv (t.min - 0) 60,
        t.min - Int.fdiv (t.min - 0) 60 * 60, t.sec, t.fracSec⟩ : smart_tm)
        = yearMonthLeapBase t from yearMonthLeapBase_congr _ _ rfl rfl]
    have hdsame : dayIndex E t1 = dayIndex E t := by
      rw [dayIndex_gIdx, dayIndex_gIdx, hgsame]
    have hJ1 : 0 ≤ minuteIdx E t1 := by
      unfold minuteIdx at hJ ⊢
      rw [hdsame]
      show 0 ≤ 1440 * dayIndex E t + 60 * (t.hr + Int.fdiv (t.min - 0) 60) +
        (t.min - Int.fdiv (t.min - 0) 60 * 60)
      omega
    have hhr1 : -24 ≤ t1.hr := by
      show -24 ≤ t.hr + Int.fdiv (t.min - 0) 60
      rw [h60]
      omega
    have hmn1 : 0 ≤ t1.min ∧ t1.min ≤ 59 := by
      constructor
      · show 0 ≤ t.min - Int.fdiv (t.min - 0) 60 * 60
        rw [h60]
        omega
      · show t.min - Int.fdiv (t.min - 0) 60 * 60 ≤ 59
        rw [h60]
        omega
    obtain ⟨q1, q2, q3⟩ := fixHr_minGIdx E t1 hm1 hE hyE hd1 hhr1 hmn1.1 hmn1.2 hJ1
    refine ⟨?_, by rw [q2], by rw [q3]⟩
    rw [q1]
    unfold minGIdx
    rw [hgsame]
    show 1440 * gIdx t + 60 * (t.hr + Int.fdiv (t.min - 0) 60) +
      (t.min - Int.fdiv (t.min - 0) 60 * 60) = 1440 * gIdx t + 60 * t.hr + t.min
    ring

theorem minuteLtB_iff (a b : smart_tm) : minuteLtB a b = true ↔
    (a.yr < b.yr ∨ (a.yr = b.yr ∧ (a.mon < b.mon ∨ (a.mon = b.mon ∧
      (a.day < b.day ∨ (a.day = b.day ∧ (a.hr < b.hr ∨ (a.hr = b.hr ∧
        a.min < b.min)))))))) := by
  unfold minuteLtB
  split_ifs <;> simp only [decide_eq_true_eq] <;> omega

theorem minuteEqB_iff (t u : smart_tm) : minuteEqB t u = true ↔
    (t.yr = u.yr ∧ t.mon = u.mon ∧ t.day = u.day ∧ t.hr = u.hr ∧
      t.min = u.min) := by
  unfold minuteEqB
  simp only [Bool.and_eq_true, beq_iff_eq]
  tauto

theorem year_pack (t : smart_tm) (h1 : 1 ≤ t.yr)
    (hml : 1 ≤ t.mon ∧ t.mon ≤ 12) (hd : t.day ≤ numDaysOfMonth t) :
    monthDaysSum t.mon + t.day - 1 + yearMonthLeapBase t ≤
      364 + leapCountTo t.yr := by
  rw [numDaysOfMonth_eq] at hd
  have hub := monthDaysSum_ub t.mon hml.1 hml.2
  have hstep := leapCountTo_succ_exact (t.yr - 1) (by omega)
  rw [show t.yr - 1 + 1 = t.yr by ring] at hstep
  rw [yearMonthLeapBase_eq t h1]
  by_cases hl : isLeapYearY t.yr = true
  · rw [if_pos hl] at hstep ⊢
    by_cases hc : t.mon = 1 ∨ t.mon = 2
    · rw [if_pos ⟨hl, hc⟩]
      by_cases hm2 : t.mon = 2
      · rw [if_pos ⟨hm2, hl⟩] at hd
        omega
      · rw [if_neg (fun x => hm2 x.1)] at hd
        omega
    · rw [if_neg (fun x => hc x.2)]
      rw [if_neg (fun x => hc (Or.inr x.1))] at hd
      omega
  · rw [if_neg hl] at hstep ⊢
    rw [if_neg (fun x => hl x.1)]
    rw [if_neg (fun x => hl x.2)] at hd
    omega

theorem base_val (y M : Int) :
    yearMonthLeapBase ⟨y, M, 0, 0, 0, 0, 0⟩ =
      if isLeapYearY y = true ∧ (M = 1 ∨ M = 2) then leapCountTo (y - 1)
      else leapCountTo y := rfl

theorem base_mon_mono (y m m' : Int) (hy : 1 ≤ y) (h1 : 1 ≤ m) (hmm : m ≤ m') :
    yearMonthLeapBase ⟨y, m, 0, 0, 0, 0, 0⟩ ≤
      yearMonthLeapBase ⟨y, m', 0, 0, 0, 0, 0⟩ := by
  have hstep := leapCountTo_succ_exact (y - 1) (by omega)
  rw [show y - 1 + 1 = y by ring] at hstep
  rw [base_val, base_val]
  by_cases hcm : isLeapYearY y = true ∧ (m = 1 ∨ m = 2)
  · rw [if_pos hcm]
    by_cases hcm2 : isLeapYearY y = true ∧ (m' = 1 ∨ m' = 2)
    · rw [if_pos hcm2]
    · rw [if_neg hcm2]
      rw [if_pos hcm.1] at hstep
      omega
  · rw [if_neg hcm]
    by_cases hcm2 : isLeapYearY y = true ∧ (m' = 1 ∨ m' = 2)
    · exact absurd ⟨hcm2.1, by omega⟩ hcm
    · rw [if_neg hcm2]

theorem gIdx_mono (a b : smart_tm) (hma : 1 ≤ a.mon ∧ a.mon ≤ 12)
    (hmb : 1 ≤ b.mon ∧ b.mon ≤ 12)
    (hda : 1 ≤ a.day ∧ a.day ≤ numDaysOfMonth a)
    (hdb : 1 ≤ b.day ∧ b.day ≤ numDaysOfMonth b)
    (hya : 1 ≤ a.yr) (hyb : 1 ≤ b.yr)
    (hlt : a.yr < b.yr ∨ (a.yr = b.yr ∧ (a.mon < b.mon ∨ (a.mon = b.mon ∧
      a.day < b.day)))) :
    gIdx a < gIdx b := by
  rcases hlt with hy | ⟨hy, hm | ⟨hm, hd⟩⟩
  · have hpa := year_pack a hya hma hda.2
    have hgeb := yearMonthLeapBase_ge b hyb
    have hmsb := monthDaysSum_nonneg b.mon hmb.1
    have hmono := leapCountTo_mono a.yr (b.yr - 1) (by omega) (by omega)
    unfold gIdx naiveIdx
    omega
  · have hstepm := monthDaysSum_step a.mon (by omega)
    have hbs := base_step_mon a.yr a.mon 0 0 0 0 0 0 0 0 0 0 hya (by omega)
    have hca : yearMonthLeapBase a = yearMonthLeapBase ⟨a.yr, a.mon, 0, 0, 0, 0, 0⟩ :=
      yearMonthLeapBase_congr _ _ rfl rfl
    have hcb : yearMonthLeapBase b = yearMonthLeapBase ⟨a.yr, b.mon, 0, 0, 0, 0, 0⟩ :=
      yearMonthLeapBase_congr _ _ hy.symm rfl
    have hmono2 := base_mon_mono a.yr (a.mon + 1) b.mon hya (by omega) (by omega)
    have hmsmono := monthDaysSum_mono (a.mon + 1) b.mon (by omega) (by omega)
    have hnda := numDaysOfMonth_eq a
    by_cases hFeb : a.mon = 2 ∧ isLeapYearY a.yr = true
    · rw [if_pos hFeb] at hbs hnda
      unfold gIdx naiveIdx
      omega
    · rw [if_neg hFeb] at hbs hnda
      unfold gIdx naiveIdx
      omega
  · have hca : yearMonthLeapBase a = yearMonthLeapBase b :=
      yearMonthLeapBase_congr _ _ hy hm
    have hmsum : monthDaysSum a.mon = monthDaysSum b.mon := by rw [hm]
    unfold gIdx naiveIdx
    omega

theorem countP_lt_strict {α : Type} (p q : α → Bool) :
    ∀ (l : List α), (∀ x ∈ l, p x = true → q x = true) →
    ∀ u ∈ l, p u = false → q u = true → l.countP p < l.countP q
  | [], _, u, hu, _, _ => absurd hu (List.not_mem_nil u)
  | a :: l, hpq, u, hu, hpu, hqu => by
    rw [List.countP_cons, List.countP_cons]
    rcases List.mem_cons.1 hu with rfl | hm
    · have hmono : l.countP p ≤ l.countP q :=
        List.countP_mono_left fun x hx => hpq x (List.mem_cons_of_mem _ hx)
      rw [hpu, hqu]
      simp only [Bool.false_eq_true, if_false, if_true]
      omega
    · have hlt := countP_lt_strict p q l
        (fun x hx => hpq x (List.mem_cons_of_mem _ hx)) u hm hpu hqu
      have hi : (if p a = true then 1 else 0) ≤ (if q a = true then 1 else 0) := by
        by_cases hpa : p a = true
        · rw [if_pos hpa, if_pos (hpq a (List.mem_cons_self a l) hpa)]
        · rw [if_neg hpa]
          omega
      omega

theorem countP_le_one_of_pairwise {α : Type} (p : α → Bool) :
    ∀ (l : List α),
    List.Pairwise (fun a b => ¬(p a = true ∧ p b = true)) l → l.countP p ≤ 1
  | [], _ => by simp
  | a :: l, h => by
    rw [List.countP_cons]
    rw [List.pairwise_cons] at h
    by_cases hpa : p a = true
    · have hz : l.countP p = 0 := by
        rw [List.countP_eq_zero]
        exact fun x hx hpx => h.1 x hx ⟨hpa, hpx⟩
      rw [hz, if_pos hpa]
    · have := countP_le_one_of_pairwise p l h.2
      rw [if_neg hpa]
      omega

theorem countP_or_split {α : Type} (p q : α → Bool) :
    ∀ (l : List α), (∀ x ∈ l, ¬(p x = true ∧ q x = true)) →
    l.countP (fun x => p x || q x) = l.countP p + l.countP q
  | [], _ => by simp
  | a :: l, h => by
    rw [List.countP_cons, List.countP_cons, List.countP_cons,
      countP_or_split p q l (fun x hx => h x (List.mem_cons_of_mem _ hx))]
    by_cases hpa : p a = true
    · have hqa : ¬ q a = true := fun hq => h a (List.mem_cons_self a l) ⟨hpa, hq⟩
      rw [if_pos hpa, if_neg hqa, if_pos (by rw [hpa]; rfl)]
      omega
    · by_cases hqa : q a = true
      · rw [if_neg hpa, if_pos hqa, if_pos (by
          rw [hqa, Bool.or_true])]
        omega
      · rw [if_neg hpa, if_neg hqa, if_neg (by
          rw [Bool.or_eq_true]
          tauto)]
        omega

theorem minGIdx_congr_of_eq (a b : smart_tm) (heq : minuteEqB a b = true) :
    minGIdx a = minGIdx b := by
  rw [minuteEqB_iff] at heq
  obtain ⟨h1, h2, h3, h4, h5⟩ := heq
  have hbase := yearMonthLeapBase_congr a b h1 h2
  have hms : monthDaysSum a.mon = monthDaysSum b.mon := by rw [h2]
  unfold minGIdx gIdx naiveIdx
  omega

theorem minute_tricho (a b : smart_tm) :
    minuteLtB a b = true ∨ minuteEqB a b = true ∨ minuteLtB b a = true := by
  rw [minuteLtB_iff, minuteLtB_iff, minuteEqB_iff]
  omega

theorem minGIdx_mono (a b : smart_tm)
    (hma : monInLimits a = true) (hmb : monInLimits b = true)
    (hda : dayInLimits a = true) (hdb : dayInLimits b = true)
    (hha : hrInLimits a = true) (hhb : hrInLimits b = true)
    (hmna : minInLimits a = true) (hmnb : minInLimits b = true)
    (hya : 1 ≤ a.yr) (hyb : 1 ≤ b.yr)
    (hlt : minuteLtB a b = true) : minGIdx a < minGIdx b := by
  simp only [monInLimits, dayInLimits, hrInLimits, minInLimits, Bool.and_eq_true,
    decide_eq_true_eq] at hma hmb hda hdb hha hhb hmna hmnb
  rw [minuteLtB_iff] at hlt
  rcases hlt with h | ⟨hy, h | ⟨hm, h | ⟨hd, hlast⟩⟩⟩
  · have hg := gIdx_mono a b hma hmb (by omega) (by omega) hya hyb (Or.inl h)
    unfold minGIdx
    omega
  · have hg := gIdx_mono a b hma hmb (by omega) (by omega) hya hyb
      (Or.inr ⟨hy, Or.inl h⟩)
    unfold minGIdx
    omega
  · have hg := gIdx_mono a b hma hmb (by omega) (by omega) hya hyb
      (Or.inr ⟨hy, Or.inr ⟨hm, h⟩⟩)
    unfold minGIdx
    omega
  · have hbase := yearMonthLeapBase_congr a b hy hm
    have hms : monthDaysSum a.mon = monthDaysSum b.mon := by rw [hm]
    unfold minGIdx gIdx naiveIdx
    rcases hlast with h | ⟨hh, h⟩ <;> omega

theorem minGIdx_lt_iff (a b : smart_tm)
    (hma : monInLimits a = true) (hmb : monInLimits b = true)
    (hda : dayInLimits a = true) (hdb : dayInLimits b = true)
    (hha : hrInLimits a = true) (hhb : hrInLimits b = true)
    (hmna : minInLimits a = true) (hmnb : minInLimits b = true)
    (hya : 1 ≤ a.yr) (hyb : 1 ≤ b.yr) :
    minuteLtB a b = true ↔ minGIdx a < minGIdx b := by
  constructor
  · exact minGIdx_mono a b hma hmb hda hdb hha hhb hmna hmnb hya hyb
  · intro h
    rcases minute_tricho a b with hlt | heq | hgt
    · exact hlt
    · have := minGIdx_congr_of_eq a b heq
      omega
    · have := minGIdx_mono b a hmb hma hdb hda hhb hha hmnb hmna hyb hya hgt
      omega

theorem minGIdx_inj (a b : smart_tm)
    (hma : monInLimits a = true) (hmb : monInLimits b = true)
    (hda : dayInLimits a = true) (hdb : dayInLimits b = true)
    (hha : hrInLimits a = true) (hhb : hrInLimits b = true)
    (hmna : minInLimits a = true) (hmnb : minInLimits b = true)
    (hya : 1 ≤ a.yr) (hyb : 1 ≤ b.yr) (h : minGIdx a = minGIdx b) :
    minuteEqB a b = true := by
  rcases minute_tricho a b with hlt | heq | hgt
  · have := minGIdx_mono a b hma hmb hda hdb hha hhb hmna hmnb hya hyb hlt
    omega
  · exact heq
  · have := minGIdx_mono b a hmb hma hdb hda hhb hha hmnb hmna hyb hya hgt
    omega

theorem minuteLtB_congr_right (a b v : smart_tm) (heq : minuteEqB a b = true) :
    minuteLtB v a = minuteLtB v b := by
  rw [minuteEqB_iff] at heq
  apply Bool.eq_iff_iff.mpr
  rw [minuteLtB_iff, minuteLtB_iff]
  omega

theorem lbm_congr (c : Ctx) (a b : smart_tm) (heq : minuteEqB a b = true) :
    leapsBeforeMinute c a = leapsBeforeMinute c b := by
  unfold leapsBeforeMinute
  exact List.countP_congr fun u _ => by rw [minuteLtB_congr_right a b u heq]

theorem isLeapMinute_countP (c : Ctx) (t : smart_tm) :
    isLeapMinute c t = c.leapSecondTMs.any fun u => minuteEqB t u := rfl

theorem wf_eqcount (c : Ctx) (t : smart_tm)
    (hsec : ∀ u ∈ c.leapSecondTMs, u.sec = 60)
    (hpw : List.Pairwise (fun a b => tmLtNoFrac a b = true) c.leapSecondTMs) :
    (c.leapSecondTMs.countP fun u => minuteEqB t u) =
      if isLeapMinute c t = true then 1 else 0 := by
  have hdisj : List.Pairwise (fun a b =>
      ¬(minuteEqB t a = true ∧ minuteEqB t b = true)) c.leapSecondTMs := by
    refine hpw.imp_of_mem ?_
    intro a b hain hbin hab ⟨hea, heb⟩
    rw [minuteEqB_iff] at hea heb
    have hsa := hsec a hain
    have hsb := hsec b hbin
    unfold tmLtNoFrac at hab
    rw [if_pos (by omega), if_pos (by omega), if_pos (by omega),
      if_pos (by omega), if_pos (by omega)] at hab
    simp only [decide_eq_true_eq] at hab
    omega
  have hle : (c.leapSecondTMs.countP fun u => minuteEqB t u) ≤ 1 :=
    countP_le_one_of_pairwise (fun u => minuteEqB t u) _ hdisj
  by_cases hl : isLeapMinute c t = true
  · rw [if_pos hl]
    rw [isLeapMinute_countP] at hl
    rw [List.any_eq_true] at hl
    obtain ⟨u, hu, hpu⟩ := hl
    have hpos : 0 < c.leapSecondTMs.countP fun u => minuteEqB t u :=
      List.countP_pos_iff.mpr ⟨u, hu, hpu⟩
    omega
  · rw [if_neg hl]
    rw [isLeapMinute_countP] at hl
    rw [List.countP_eq_zero]
    intro u hu hpu
    exact hl (List.any_eq_true.mpr ⟨u, hu, hpu⟩)

theorem eqNoFrac_iff (a b : smart_tm) : eqNoFrac a b = true ↔
    (a.yr = b.yr ∧ a.mon = b.mon ∧ a.day = b.day ∧ a.hr = b.hr ∧
      a.min = b.min ∧ a.sec = b.sec) := by
  unfold eqNoFrac
  simp only [Bool.and_eq_true, beq_iff_eq]
  tauto

theorem tmLt_of_minuteLt (a b : smart_tm) (h : minuteLtB a b = true) :
    tmLt a b = true := by
  rw [minuteLtB_iff] at h
  unfold tmLt
  split_ifs <;> first | (simp only [decide_eq_true_eq]; omega) | (exfalso; omega)

theorem tmLt_false_of_minuteGt (a b : smart_tm) (h : minuteLtB b a = true) :
    tmLt a b = false := by
  rw [minuteLtB_iff] at h
  unfold tmLt
  split_ifs <;> first | (simp only [decide_eq_false_iff_not]; omega) | (exfalso; omega)

theorem tmLt_count_mineq (u t : smart_tm) (heq : minuteEqB u t = true)
    (hsu : u.sec = 60) (hst : t.sec ≤ 60) :
    (tmLt u t && !eqNoFrac t u) = false := by
  rw [minuteEqB_iff] at heq
  obtain ⟨h1, h2, h3, h4, h5⟩ := heq
  by_cases hsec : u.sec = t.sec
  · have heqq : eqNoFrac t u = true := by
      rw [eqNoFrac_iff]
      omega
    rw [heqq]
    simp
  · have hlt : tmLt u t = false := by
      unfold tmLt
      rw [if_pos h1, if_pos h2, if_pos h3, if_pos h4, if_pos h5, if_neg hsec]
      simp only [decide_eq_false_iff_not]
      omega
    rw [hlt]
    simp

theorem ls_bridge (c : Ctx) (t : smart_tm) (hw : WfCtx c)
    (hs0 : 0 ≤ t.sec) (hs60 : t.sec ≤ 60) :
    leapSecondsWalkedThroughSinceEpoch c t = leapsBeforeMinute c t := by
  obtain ⟨hwE, hw9, hwl, hwu, hwp, hwd⟩ := hw
  unfold leapSecondsWalkedThroughSinceEpoch leapsBeforeMinute
  refine List.countP_congr fun u huin => ?_
  obtain ⟨u1, u2, u3, u4, u5, u6, u7, u8⟩ := hwu u huin
  constructor
  · intro h
    rcases minute_tricho u t with hlt | heq | hgt
    · exact hlt
    · rw [tmLt_count_mineq u t heq u5 hs60] at h
      exact absurd h (by norm_num)
    · rw [tmLt_false_of_minuteGt u t hgt] at h
      exact absurd h (by norm_num)
  · intro h
    rw [tmLt_of_minuteLt u t h]
    have hne : eqNoFrac t u = false := by
      rw [minuteLtB_iff] at h
      rw [Bool.eq_false_iff]
      rw [Ne, eqNoFrac_iff]
      omega
    rw [hne]
    rfl

theorem lbm_mono (c : Ctx) (v w : smart_tm) (hw : WfCtx c)
    (hJ : minGIdx v ≤ minGIdx w)
    (hvv : monInLimits v = true ∧ dayInLimits v = true ∧ hrInLimits v = true ∧
      minInLimits v = true ∧ 1 ≤ v.yr)
    (hww : monInLimits w = true ∧ dayInLimits w = true ∧ hrInLimits w = true ∧
      minInLimits w = true ∧ 1 ≤ w.yr) :
    leapsBeforeMinute c v ≤ leapsBeforeMinute c w := by
  obtain ⟨hwE, hw9, hwl, hwu, hwp, hwd⟩ := hw
  unfold leapsBeforeMinute
  refine List.countP_mono_left fun x hx hpx => ?_
  obtain ⟨x1, x2, x3, x4, x5, x6, x7, x8⟩ := hwu x hx
  have hx1 : 1 ≤ x.yr := by omega
  have h1 := (minGIdx_lt_iff x v x1 hvv.1 x2 hvv.2.1 x3 hvv.2.2.1 x4 hvv.2.2.2.1
    hx1 hvv.2.2.2.2).1 hpx
  exact (minGIdx_lt_iff x w x1 hww.1 x2 hww.2.1 x3 hww.2.2.1 x4 hww.2.2.2.1
    hx1 hww.2.2.2.2).2 (by omega)

theorem lbm_step (c : Ctx) (v w : smart_tm) (hw : WfCtx c)
    (hJ : minGIdx w = minGIdx v + 1)
    (hvv : monInLimits v = true ∧ dayInLimits v = true ∧ hrInLimits v = true ∧
      minInLimits v = true ∧ 1 ≤ v.yr)
    (hww : monInLimits w = true ∧ dayInLimits w = true ∧ hrInLimits w = true ∧
      minInLimits w = true ∧ 1 ≤ w.yr) :
    leapsBeforeMinute c w = leapsBeforeMinute c v +
      (if isLeapMinute c v = true then 1 else 0) := by
  obtain ⟨hwE, hw9, hwl, hwu, hwp, hwd⟩ := hw
  have hsec : ∀ u ∈ c.leapSecondTMs, u.sec = 60 := fun u hu => (hwu u hu).2.2.2.2.1
  unfold leapsBeforeMinute
  have hdisj : ∀ x ∈ c.leapSecondTMs,
      ¬((fun u => minuteLtB u v) x = true ∧ (fun u => minuteEqB v u) x = true) := by
    intro x hx ⟨hp, hq⟩
    obtain ⟨x1, x2, x3, x4, x5, x6, x7, x8⟩ := hwu x hx
    have hx1 : 1 ≤ x.yr := by omega
    have hlt := (minGIdx_lt_iff x v x1 hvv.1 x2 hvv.2.1 x3 hvv.2.2.1 x4
      hvv.2.2.2.1 hx1 hvv.2.2.2.2).1 hp
    have heqq := minGIdx_congr_of_eq v x hq
    omega
  have hsplit := countP_or_split (fun u => minuteLtB u v) (fun u => minuteEqB v u)
    c.leapSecondTMs hdisj
  have hcong : c.leapSecondTMs.countP (fun u => minuteLtB u w) =
      c.leapSecondTMs.countP (fun u => minuteLtB u v || minuteEqB v u) := by
    refine List.countP_congr fun x hx => ?_
    obtain ⟨x1, x2, x3, x4, x5, x6, x7, x8⟩ := hwu x hx
    have hx1 : 1 ≤ x.yr := by omega
    have hiw := minGIdx_lt_iff x w x1 hww.1 x2 hww.2.1 x3 hww.2.2.1 x4
      hww.2.2.2.1 hx1 hww.2.2.2.2
    have hiv := minGIdx_lt_iff x v x1 hvv.1 x2 hvv.2.1 x3 hvv.2.2.1 x4
      hvv.2.2.2.1 hx1 hvv.2.2.2.2
    constructor
    · intro hxw
      have h1 := hiw.1 hxw
      rw [Bool.or_eq_true]
      rcases (show minGIdx x < minGIdx v ∨ minGIdx x = minGIdx v from by omega)
        with h2 | h2
      · exact Or.inl (hiv.2 h2)
      · refine Or.inr ?_
        exact minGIdx_inj v x hvv.1 x1 hvv.2.1 x2 hvv.2.2.1 x3 hvv.2.2.2.1 x4
          hvv.2.2.2.2 hx1 h2.symm
    · intro hor
      rw [Bool.or_eq_true] at hor
      rcases hor with h2 | h2
      · exact hiw.2 (by have := hiv.1 h2; omega)
      · have := minGIdx_congr_of_eq v x h2
        exact hiw.2 (by omega)
  rw [hcong, hsplit, wf_eqcount c v hsec hwp]

theorem base_epoch (c : Ctx) :
    yearMonthLeapBase c.epoch = epochLeapBase c.epochYr := by
  unfold yearMonthLeapBase epochLeapBase Ctx.epoch
  dsimp only
  by_cases hl : isLeapYearY c.epochYr = true
  · rw [if_pos ⟨hl, Or.inl rfl⟩, if_pos hl]
  · rw [if_neg (fun x => hl x.1), if_neg hl]

theorem toEpochZ_eq_instIdx (c : Ctx) (t : smart_tm) (hw : WfCtx c)
    (hmt : monInLimits t = true) (hdt : dayInLimits t = true)
    (hyE : c.epochYr ≤ t.yr)
    (hs0 : 0 ≤ t.sec) (hs60 : t.sec ≤ 60) :
    toEpochZ c t = instIdx c t := by
  have hE : 1 ≤ c.epochYr := hw.1
  have hld : leapDaysWalkedThroughFrom c.epoch t =
      yearMonthLeapBase t - epochLeapBase c.epochYr := by
    unfold leapDaysWalkedThroughFrom
    dsimp only
    rw [adjCnt_noFeb t (fun hm2 => by
        simp only [dayInLimits, Bool.and_eq_true, decide_eq_true_eq] at hdt
        have hnd := numDaysOfMonth_eq t
        have hdt28 : daysTable t.mon = 28 := by rw [hm2]; decide
        by_cases hl : isLeapYearY t.yr = true
        · rw [if_pos ⟨hm2, hl⟩] at hnd
          omega
        · rw [if_neg (fun x => hl x.2)] at hnd
          omega),
      adjCnt_noFeb c.epoch (fun _ => by show (1 : Int) ≤ 29; norm_num),
      base_epoch]
  unfold toEpochZ instIdx minuteIdx leapDaysWalkedThroughSinceEpoch
  rw [monthSecs_eq_daysSum, ls_bridge c t hw hs0 hs60, hld, dayIndex_gIdx]
  unfold gIdx naiveIdx
  ring

theorem numSecondsOfMinute_eq (c : Ctx) (t : smart_tm) :
    numSecondsOfMinute c t = 60 + (if isLeapMinute c t = true then 1 else 0) := by
  unfold numSecondsOfMinute
  by_cases h : isLeapMinute c t = true
  · rw [if_pos h, if_pos h]
    norm_num
  · rw [if_neg h, if_neg h]
    norm_num

theorem epoch_parts (c : Ctx) (hE : 1 ≤ c.epochYr) :
    monInLimits c.epoch = true ∧ dayInLimits c.epoch = true ∧
    hrInLimits c.epoch = true ∧ minInLimits c.epoch = true ∧ 1 ≤ c.epoch.yr := by
  refine ⟨rfl, ?_, rfl, rfl, hE⟩
  simp only [dayInLimits, Bool.and_eq_true, decide_eq_true_eq]
  have hb := numDaysOfMonth_bounds c.epoch
  have he : c.epoch.day = 1 := rfl
  omega

theorem minuteIdx_epoch (c : Ctx) (hE : 1 ≤ c.epochYr) :
    minuteIdx c.epochYr c.epoch = 0 := by
  unfold minuteIdx
  have h0 : dayIndex c.epochYr c.epoch = 0 := by
    rw [dayIndex_gIdx]
    unfold gIdx naiveIdx
    rw [base_epoch]
    have e : monthDaysSum 1 = 0 := by decide
    have h1 : c.epoch.yr = c.epochYr := rfl
    have h2 : c.epoch.mon = 1 := rfl
    have h3 : c.epoch.day = 1 := rfl
    rw [h1, h2, h3, e]
    ring
  rw [h0]
  have h4 : c.epoch.hr = 0 := rfl
  have h5 : c.epoch.min = 0 := rfl
  rw [h4, h5]
  ring

theorem lbm_epoch (c : Ctx) (hw : WfCtx c) : leapsBeforeMinute c c.epoch = 0 := by
  obtain ⟨hwE, _, _, hwu, _, _⟩ := hw
  unfold leapsBeforeMinute
  rw [List.countP_eq_zero]
  intro u hu hlt
  obtain ⟨u1, u2, u3, u4, u5, u6, u7, u8⟩ := hwu u hu
  rw [minuteLtB_iff] at hlt
  simp only [monInLimits, dayInLimits, hrInLimits, minInLimits, Bool.and_eq_true,
    decide_eq_true_eq] at u1 u2 u3 u4
  have he1 : c.epoch.yr = c.epochYr := rfl
  have he2 : c.epoch.mon = 1 := rfl
  have he3 : c.epoch.day = 1 := rfl
  have he4 : c.epoch.hr = 0 := rfl
  have he5 : c.epoch.min = 0 := rfl
  omega

theorem instIdx_epoch (c : Ctx) (hw : WfCtx c) : instIdx c c.epoch = 0 := by
  unfold instIdx
  rw [minuteIdx_epoch c hw.1, lbm_epoch c hw]
  have he : c.epoch.sec = 0 := rfl
  rw [he]
  ring

theorem toEpochZ_epoch (c : Ctx) (hw : WfCtx c) : toEpochZ c c.epoch = 0 := by
  obtain ⟨he1, he2, he3, he4, he5⟩ := epoch_parts c hw.1
  rw [toEpochZ_eq_instIdx c c.epoch hw he1 he2 (le_refl _)
    (by rw [show c.epoch.sec = 0 from rfl]) (by rw [show c.epoch.sec = 0 from rfl]; norm_num)]
  exact instIdx_epoch c hw

theorem toEpoch_epoch (c : Ctx) (hw : WfCtx c) : toEpoch c c.epoch = 0 := by
  unfold toEpoch
  rw [toEpochZ_epoch c hw]
  rfl

theorem minuteIdx_yr_lb (E : Int) (t : smart_tm) (hE : 1 ≤ E)
    (hm : monInLimits t = true) (hd : dayInLimits t = true)
    (hh : hrInLimits t = true) (hmn : minInLimits t = true)
    (hJ : 0 ≤ minuteIdx E t) : E ≤ t.yr := by
  simp only [monInLimits, dayInLimits, hrInLimits, minInLimits, Bool.and_eq_true,
    decide_eq_true_eq] at hm hd hh hmn
  have hnd := numDaysOfMonth_bounds t
  have hdix : 0 ≤ dayIndex E t := by
    unfold minuteIdx at hJ
    omega
  exact dayIndex_yr_lb E t hE hm (by omega) hdix

theorem minuteEq_epoch_of_J0 (c : Ctx) (t : smart_tm) (hE : 1 ≤ c.epochYr)
    (hm : monInLimits t = true) (hd : dayInLimits t = true)
    (hh : hrInLimits t = true) (hmn : minInLimits t = true) (hy : 1 ≤ t.yr)
    (hJ : minuteIdx c.epochYr t = 0) : minuteEqB t c.epoch = true := by
  obtain ⟨he1, he2, he3, he4, he5⟩ := epoch_parts c hE
  have hgg : minGIdx t = minGIdx c.epoch := by
    have h1 := minuteIdx_minGIdx c.epochYr t
    have h2 := minuteIdx_minGIdx c.epochYr c.epoch
    have h3 := minuteIdx_epoch c hE
    omega
  exact minGIdx_inj t c.epoch hm he1 hd he2 hh he3 hmn he4 hy he5 hgg

theorem fixSecA_instIdx (c : Ctx) (hw : WfCtx c) : ∀ (f : Nat) (t : smart_tm),
    monInLimits t = true → dayInLimits t = true → hrInLimits t = true →
    minInLimits t = true → 0 ≤ minuteIdx c.epochYr t →
    instIdx c (fixSecA c f t) = instIdx c t ∧
    (fixSecA c f t).fracSec = t.fracSec ∧
    0 ≤ minuteIdx c.epochYr (fixSecA c f t)
  | 0, t, _, _, _, _, hJ => ⟨rfl, rfl, hJ⟩
  | f+1, t, hm, hd, hh, hmn, hJ => by
    rw [fixSecA]
    split
    · next hguard =>
      have hE : 1 ≤ c.epochYr := hw.1
      have hyE : c.epochYr ≤ t.yr := minuteIdx_yr_lb _ t hE hm hd hh hmn hJ
      have hy1 : 1 ≤ t.yr := by omega
      have hmn' : 0 ≤ t.min ∧ t.min ≤ 59 := by
        simp only [minInLimits, Bool.and_eq_true, decide_eq_true_eq] at hmn
        exact hmn
      set tp : smart_tm := ⟨t.yr, t.mon, t.day, t.hr, t.min + 1,
        t.sec - numSecondsOfMinute c t, t.fracSec⟩ with htp
      have hmp : monInLimits tp = true := hm
      have hdp : dayInLimits tp = true := hd
      have hhp : hrInLimits tp = true := hh
      have hgp : minGIdx tp = minGIdx t + 1 := by
        rw [htp]
        unfold minGIdx gIdx naiveIdx
        dsimp only
        rw [show yearMonthLeapBase (⟨t.yr, t.mon, t.day, t.hr, t.min + 1,
          t.sec - numSecondsOfMinute c t, t.fracSec⟩ : smart_tm)
          = yearMonthLeapBase t from yearMonthLeapBase_congr _ _ rfl rfl]
        ring
      have hJtp : minuteIdx c.epochYr tp = minuteIdx c.epochYr t + 1 := by
        rw [minuteIdx_minGIdx, minuteIdx_minGIdx, hgp]
        ring
      obtain ⟨q1, q2, q3⟩ := fixMin_minGIdx c.epochYr tp hmp hE hyE hdp hhp
        (by show -60 ≤ t.min + 1; omega) (by omega)
      obtain ⟨p1, p2, p3, p4, p5⟩ := fixMin_post tp hmp hdp hhp
      simp only [Prod.mk.injEq] at p5
      set u := fixMin tp with hu
      have hJu : minGIdx u = minGIdx t + 1 := by rw [q1, hgp]
      have hJuz : minuteIdx c.epochYr u = minuteIdx c.epochYr t + 1 := by
        rw [minuteIdx_minGIdx, hJu, minuteIdx_minGIdx c.epochYr t]
        ring
      have hyEu : c.epochYr ≤ u.yr :=
        minuteIdx_yr_lb _ u hE p1 p2 p3 p4 (by omega)
      have hlb := lbm_step c t u hw hJu ⟨hm, hd, hh, hmn, hy1⟩
        ⟨p1, p2, p3, p4, by omega⟩
      have husec : u.sec = t.sec - numSecondsOfMinute c t := p5.1
      have hufr : u.fracSec = t.fracSec := p5.2
      have hnum := numSecondsOfMinute_eq c t
      have hlbz : (leapsBeforeMinute c u : Int) = (leapsBeforeMinute c t : Int) +
          (if isLeapMinute c t = true then 1 else 0) := by
        rw [hlb]
        split_ifs <;> push_cast <;> ring
      have hinst : instIdx c u = instIdx c t := by
        unfold instIdx
        rw [husec, hJuz, hlbz, hnum]
        ring
      obtain ⟨r1, r2, r3⟩ := fixSecA_instIdx c hw f u p1 p2 p3 p4 (by omega)
      exact ⟨r1.trans hinst, r2.trans hufr, r3⟩
    · next hguard => exact ⟨rfl, rfl, hJ⟩

theorem fixSecB_instIdx (c : Ctx) (hw : WfCtx c) : ∀ (f : Nat) (t : smart_tm),
    monInLimits t = true → dayInLimits t = true → hrInLimits t = true →
    minInLimits t = true → 0 ≤ minuteIdx c.epochYr t → 0 ≤ instIdx c t →
    instIdx c (fixSecB c f t) = instIdx c t ∧
    (fixSecB c f t).fracSec = t.fracSec ∧
    0 ≤ minuteIdx c.epochYr (fixSecB c f t)
  | 0, t, _, _, _, _, hJ, _ => ⟨rfl, rfl, hJ⟩
  | f+1, t, hm, hd, hh, hmn, hJ, hI => by
    rw [fixSecB]
    split
    · next hguard =>
      have hE : 1 ≤ c.epochYr := hw.1
      have hyE : c.epochYr ≤ t.yr := minuteIdx_yr_lb _ t hE hm hd hh hmn hJ
      have hy1 : 1 ≤ t.yr := by omega
      have hmn' : 0 ≤ t.min ∧ t.min ≤ 59 := by
        simp only [minInLimits, Bool.and_eq_true, decide_eq_true_eq] at hmn
        exact hmn
      -- the minute index must still be positive: at the epoch minute the
      -- second count equals the whole instant index, which is nonnegative
      have hJpos : 1 ≤ minuteIdx c.epochYr t := by
        rcases (show 1 ≤ minuteIdx c.epochYr t ∨ minuteIdx c.epochYr t = 0
          from by omega) with h | h0
        · exact h
        · exfalso
          have heqe := minuteEq_epoch_of_J0 c t hE hm hd hh hmn hy1 h0
          have hlb0 : leapsBeforeMinute c t = 0 := by
            rw [lbm_congr c t c.epoch heqe]
            exact lbm_epoch c hw
          unfold instIdx at hI
          rw [h0, hlb0] at hI
          omega
      set tp : smart_tm := ⟨t.yr, t.mon, t.day, t.hr, t.min - 1, t.sec,
        t.fracSec⟩ with htp
      have hmp : monInLimits tp = true := hm
      have hdp : dayInLimits tp = true := hd
      have hhp : hrInLimits tp = true := hh
      have hgp : minGIdx tp = minGIdx t - 1 := by
        rw [htp]
        unfold minGIdx gIdx naiveIdx
        dsimp only
        rw [show yearMonthLeapBase (⟨t.yr, t.mon, t.day, t.hr, t.min - 1, t.sec,
          t.fracSec⟩ : smart_tm)
          = yearMonthLeapBase t from yearMonthLeapBase_congr _ _ rfl rfl]
        ring
      have hJtp : minuteIdx c.epochYr tp = minuteIdx c.epochYr t - 1 := by
        rw [minuteIdx_minGIdx, minuteIdx_minGIdx, hgp]
        ring
      obtain ⟨q1, q2, q3⟩ := fixMin_minGIdx c.epochYr tp hmp hE hyE hdp hhp
        (by show -60 ≤ t.min - 1; omega) (by omega)
      obtain ⟨p1, p2, p3, p4, p5⟩ := fixMin_post tp hmp hdp hhp
      simp only [Prod.mk.injEq] at p5
      set t1 := fixMin tp with ht1
      have hJt1 : minGIdx t1 = minGIdx t - 1 := by rw [q1, hgp]
      have hJt1z : minuteIdx c.epochYr t1 = minuteIdx c.epochYr t - 1 := by
        rw [minuteIdx_minGIdx, hJt1, minuteIdx_minGIdx c.epochYr t]
        ring
      have hyEt1 : c.epochYr ≤ t1.yr :=
        minuteIdx_yr_lb _ t1 hE p1 p2 p3 p4 (by omega)
      have hlb := lbm_step c t1 t hw (by omega) ⟨p1, p2, p3, p4, by omega⟩
        ⟨hm, hd, hh, hmn, hy1⟩
      have ht1sec : t1.sec = t.sec := p5.1
      have ht1fr : t1.fracSec = t.fracSec := p5.2
      set s1 : smart_tm := ⟨t1.yr, t1.mon, t1.day, t1.hr, t1.min,
        t1.sec + numSecondsOfMinute c t1, t1.fracSec⟩ with hs1
      have hms : monInLimits s1 = true := p1
      have hds : dayInLimits s1 = true := p2
      have hhs : hrInLimits s1 = true := p3
      have hmns : minInLimits s1 = true := p4
      have hgs : minGIdx s1 = minGIdx t1 := by
        rw [hs1]
        unfold minGIdx gIdx naiveIdx
        dsimp only
        rw [show yearMonthLeapBase (⟨t1.yr, t1.mon, t1.day, t1.hr, t1.min,
          t1.sec + numSecondsOfMinute c t1, t1.fracSec⟩ : smart_tm)
          = yearMonthLeapBase t1 from yearMonthLeapBase_congr _ _ rfl rfl]
      have hJs1 : minuteIdx c.epochYr s1 = minuteIdx c.epochYr t1 := by
        rw [minuteIdx_minGIdx, hgs, minuteIdx_minGIdx c.epochYr t1]
      have hlbs1 : leapsBeforeMinute c s1 = leapsBeforeMinute c t1 :=
        lbm_congr c s1 t1 (by
          rw [minuteEqB_iff]
          exact ⟨rfl, rfl, rfl, rfl, rfl⟩)
      have hnum := numSecondsOfMinute_eq c t1
      have hlbz : (leapsBeforeMinute c t : Int) = (leapsBeforeMinute c t1 : Int) +
          (if isLeapMinute c t1 = true then 1 else 0) := by
        rw [hlb]
        split_ifs <;> push_cast <;> ring
      have hs1sec : s1.sec = t1.sec + numSecondsOfMinute c t1 := rfl
      have hinst : instIdx c s1 = instIdx c t := by
        unfold instIdx
        rw [hs1sec, hJs1, hJt1z, hlbs1, ht1sec, hnum, hlbz]
        ring
      obtain ⟨r1, r2, r3⟩ := fixSecB_instIdx c hw f s1 hms hds hhs hmns
        (by omega) (by rw [hinst]; exact hI)
      have hsfr : s1.fracSec = t.fracSec := by
        rw [hs1]
        exact ht1fr
      exact ⟨r1.trans hinst, r2.trans hsfr, r3⟩
    · next hguard => exact ⟨rfl, rfl, hJ⟩

theorem base_epoch_tuple (E : Int) :
    yearMonthLeapBase ⟨E, 1, 0, 0, 0, 0, 0⟩ = epochLeapBase E := by
  unfold yearMonthLeapBase epochLeapBase
  dsimp only
  by_cases hl : isLeapYearY E = true
  · rw [if_pos ⟨hl, Or.inl rfl⟩, if_pos hl]
  · rw [if_neg (fun x => hl x.1), if_neg hl]

theorem minuteIdx_nonneg (E : Int) (u : smart_tm) (hE : 1 ≤ E)
    (hm : monInLimits u = true) (hd : dayInLimits u = true)
    (hh : hrInLimits u = true) (hmn : minInLimits u = true)
    (hyE : E ≤ u.yr) : 0 ≤ minuteIdx E u := by
  simp only [monInLimits, dayInLimits, hrInLimits, minInLimits, Bool.and_eq_true,
    decide_eq_true_eq] at hm hd hh hmn
  have hdix : 0 ≤ dayIndex E u := by
    rcases (show u.yr = E ∨ E + 1 ≤ u.yr from by omega) with he | hgt
    · rw [dayIndex_gIdx]
      unfold gIdx naiveIdx
      have hbc : yearMonthLeapBase u = yearMonthLeapBase ⟨E, u.mon, 0, 0, 0, 0, 0⟩ :=
        yearMonthLeapBase_congr _ _ he rfl
      have hbm := base_mon_mono E 1 u.mon hE (by norm_num) hm.1
      have hbe := base_epoch_tuple E
      have hms := monthDaysSum_nonneg u.mon hm.1
      omega
    · rw [dayIndex_gIdx]
      unfold gIdx naiveIdx
      have hge := yearMonthLeapBase_ge u (by omega)
      have hmono := leapCountTo_mono (E - 1) (u.yr - 1) (by omega) (by omega)
      have heb := epochLeapBase_eq E hE
      have hms := monthDaysSum_nonneg u.mon hm.1
      omega
  unfold minuteIdx
  omega

theorem lswf_bound (c : Ctx) (s e : Nat) :
    -(c.leapSecondDeltas.length : Int) ≤ leapSecondsWalkedThroughFrom c s e ∧
    leapSecondsWalkedThroughFrom c s e ≤ (c.leapSecondDeltas.length : Int) := by
  unfold leapSecondsWalkedThroughFrom
  split
  · have h := List.countP_le_length
      (p := fun d => decide (e ≥ d) && decide (s ≤ d)) (l := c.leapSecondDeltas)
    constructor
    · have : (0 : Int) ≤ (c.leapSecondDeltas.countP
          fun d => decide (e ≥ d) && decide (s ≤ d) : Nat) := by positivity
      omega
    · exact_mod_cast h
  · have h := List.countP_le_length
      (p := fun d => decide (s ≥ d) && decide (e ≤ d)) (l := c.leapSecondDeltas)
    constructor
    · have h2 : ((c.leapSecondDeltas.countP
          fun d => decide (s ≥ d) && decide (e ≤ d) : Nat) : Int) ≤
          (c.leapSecondDeltas.length : Int) := by exact_mod_cast h
      omega
    · have : (0 : Int) ≤ (c.leapSecondDeltas.countP
          fun d => decide (s ≥ d) && decide (e ≤ d) : Nat) := by positivity
      omega

theorem instIdx_le_iff_minuteLt (c : Ctx) (hw : WfCtx c) (u w : smart_tm)
    (hum : monInLimits u = true) (hud : dayInLimits u = true)
    (huh : hrInLimits u = true) (humn : minInLimits u = true)
    (huy : c.epochYr ≤ u.yr) (hus : u.sec = 60)
    (hwm : monInLimits w = true) (hwd : dayInLimits w = true)
    (hwh : hrInLimits w = true) (hwmn : minInLimits w = true)
    (hwy : c.epochYr ≤ w.yr) (hws0 : 0 ≤ w.sec) (hws59 : w.sec ≤ 59) :
    (instIdx c u ≤ instIdx c w ↔ minuteLtB u w = true) := by
  have hE : 1 ≤ c.epochYr := hw.1
  have huy1 : 1 ≤ u.yr := by omega
  have hwy1 : 1 ≤ w.yr := by omega
  have hmidu := minuteIdx_minGIdx c.epochYr u
  have hmidw := minuteIdx_minGIdx c.epochYr w
  have hiff := minGIdx_lt_iff u w hum hwm hud hwd huh hwh humn hwmn huy1 hwy1
  have hiffr := minGIdx_lt_iff w u hwm hum hwd hud hwh huh hwmn humn hwy1 huy1
  constructor
  · intro hle
    rcases minute_tricho u w with h | h | h
    · exact h
    · exfalso
      have hJeq := minGIdx_congr_of_eq u w h
      have hlbeq := lbm_congr c u w h
      unfold instIdx at hle
      omega
    · exfalso
      have hJlt := hiffr.1 h
      have hlble := lbm_mono c w u hw (by omega)
        ⟨hwm, hwd, hwh, hwmn, hwy1⟩ ⟨hum, hud, huh, humn, huy1⟩
      unfold instIdx at hle
      omega
  · intro hlt
    have hJlt := hiff.1 hlt
    have hlble := lbm_mono c u w hw (by omega)
      ⟨hum, hud, huh, humn, huy1⟩ ⟨hwm, hwd, hwh, hwmn, hwy1⟩
    unfold instIdx
    omega

theorem delta_eq_lbm (c : Ctx) (hw : WfCtx c) (w : smart_tm) (N : Nat)
    (hm : monInLimits w = true) (hd : dayInLimits w = true)
    (hh : hrInLimits w = true) (hmn : minInLimits w = true)
    (hyE : c.epochYr ≤ w.yr)
    (hs0 : 0 ≤ w.sec) (hs59 : w.sec ≤ 59)
    (hNe : (N : Int) = toEpochZ c w) (hN1 : 1 ≤ N) :
    leapSecondsWalkedThroughFrom c 0 N = (leapsBeforeMinute c w : Int) := by
  have hE : 1 ≤ c.epochYr := hw.1
  have hzw : toEpochZ c w = instIdx c w :=
    toEpochZ_eq_instIdx c w hw hm hd hyE hs0 (by omega)
  unfold leapSecondsWalkedThroughFrom
  rw [if_pos (show N > 0 from hN1)]
  rw [hw.2.2.2.2.2, List.countP_map]
  unfold leapsBeforeMinute
  have hcnt : (c.leapSecondTMs.countP
      ((fun d => decide (N ≥ d) && decide (0 ≤ d)) ∘ fun u => (toEpochZ c u).toNat))
      = c.leapSecondTMs.countP fun u => minuteLtB u w := by
    refine List.countP_congr fun u hu => ?_
    obtain ⟨u1, u2, u3, u4, u5, u6, u7, u8⟩ := hw.2.2.2.1 u hu
    have hzu : toEpochZ c u = instIdx c u :=
      toEpochZ_eq_instIdx c u hw u1 u2 u7 (by omega) (by omega)
    have hJu := minuteIdx_nonneg c.epochYr u hE u1 u2 u3 u4 u7
    have hlbu : (0 : Int) ≤ (leapsBeforeMinute c u : Int) := by positivity
    have hzu0 : 0 ≤ toEpochZ c u := by
      rw [hzu]
      unfold instIdx
      omega
    have hiff := instIdx_le_iff_minuteLt c hw u w u1 u2 u3 u4 u7 u5
      hm hd hh hmn hyE hs0 hs59
    simp only [Function.comp, Bool.and_eq_true, decide_eq_true_eq, ge_iff_le,
      Nat.zero_le, and_true]
    rw [Int.toNat_le, hNe, hzw, hzu]
    exact hiff
  rw [hcnt]

set_option maxHeartbeats 1000000 in
theorem fixSec_sinceEpoch (c : Ctx) (n : Nat) (hw : WfCtx c)
    (hns : ¬ secInLimits c (⟨c.epochYr, 1, 1, 0, 0, (n : Int), 0⟩ : smart_tm) = true) :
    monInLimits (fixSec c ⟨c.epochYr, 1, 1, 0, 0, (n : Int), 0⟩) = true ∧
    dayInLimits (fixSec c ⟨c.epochYr, 1, 1, 0, 0, (n : Int), 0⟩) = true ∧
    hrInLimits (fixSec c ⟨c.epochYr, 1, 1, 0, 0, (n : Int), 0⟩) = true ∧
    minInLimits (fixSec c ⟨c.epochYr, 1, 1, 0, 0, (n : Int), 0⟩) = true ∧
    secInLimits c (fixSec c ⟨c.epochYr, 1, 1, 0, 0, (n : Int), 0⟩) = true ∧
    (fixSec c ⟨c.epochYr, 1, 1, 0, 0, (n : Int), 0⟩).fracSec = 0 ∧
    0 ≤ minuteIdx c.epochYr (fixSec c ⟨c.epochYr, 1, 1, 0, 0, (n : Int), 0⟩) ∧
    ((n : Int) ≤ instIdx c (fixSec c ⟨c.epochYr, 1, 1, 0, 0, (n : Int), 0⟩) + 4294967296) ∧
    ((n : Int) + 4294967296 < 2 ^ 64 →
      instIdx c (fixSec c ⟨c.epochYr, 1, 1, 0, 0, (n : Int), 0⟩) = (n : Int)) := by
  have hE : 1 ≤ c.epochYr := hw.1
  have hqe : Int.fdiv ((n : Int) - 0) 60 = ((n : Int) - 0) / 60 :=
    Int.fdiv_eq_ediv _ (by norm_num)
  have hn0 : (0 : Int) ≤ (n : Int) := by positivity
  have hq0 : 0 ≤ Int.fdiv ((n : Int) - 0) 60 := by rw [hqe]; omega
  -- the pre-normalization minute-shifted state
  have hmtq : monInLimits (⟨c.epochYr, 1, 1, 0, 0 + Int.fdiv ((n : Int) - 0) 60,
      0, 0⟩ : smart_tm) = true := rfl
  have hdtq : dayInLimits (⟨c.epochYr, 1, 1, 0, 0 + Int.fdiv ((n : Int) - 0) 60,
      0, 0⟩ : smart_tm) = true := by
    simp only [dayInLimits, Bool.and_eq_true, decide_eq_true_eq]
    have hb := numDaysOfMonth_bounds (⟨c.epochYr, 1, 1,
      0, 0 + Int.fdiv ((n : Int) - 0) 60, 0, 0⟩ : smart_tm)
    have he : (⟨c.epochYr, 1, 1, 0, 0 + Int.fdiv ((n : Int) - 0) 60, 0,
      0⟩ : smart_tm).day = 1 := rfl
    omega
  have hhtq : hrInLimits (⟨c.epochYr, 1, 1, 0, 0 + Int.fdiv ((n : Int) - 0) 60,
      0, 0⟩ : smart_tm) = true := rfl
  have hJtq : minuteIdx c.epochYr (⟨c.epochYr, 1, 1,
      0, 0 + Int.fdiv ((n : Int) - 0) 60, 0, 0⟩ : smart_tm)
      = Int.fdiv ((n : Int) - 0) 60 := by
    unfold minuteIdx
    have hdz : dayIndex c.epochYr (⟨c.epochYr, 1, 1,
        0, 0 + Int.fdiv ((n : Int) - 0) 60, 0, 0⟩ : smart_tm) = 0 := by
      rw [dayIndex_gIdx]
      unfold gIdx naiveIdx
      dsimp only
      rw [show yearMonthLeapBase (⟨c.epochYr, 1, 1,
        0, 0 + Int.fdiv ((n : Int) - 0) 60, 0, 0⟩ : smart_tm)
        = yearMonthLeapBase ⟨c.epochYr, 1, 0, 0, 0, 0, 0⟩ from
        yearMonthLeapBase_congr _ _ rfl rfl, base_epoch_tuple]
      have e : monthDaysSum 1 = 0 := by decide
      omega
    rw [hdz]
    dsimp only
    ring
  obtain ⟨j1, j2, j3⟩ := fixMin_minGIdx c.epochYr
    (⟨c.epochYr, 1, 1, 0, 0 + Int.fdiv ((n : Int) - 0) 60, 0, 0⟩ : smart_tm)
    hmtq hE le_rfl hdtq hhtq (by show -60 ≤ 0 + Int.fdiv ((n : Int) - 0) 60; omega)
    (by rw [hJtq]; omega)
  obtain ⟨p1, p2, p3, p4, p5⟩ := fixMin_post
    (⟨c.epochYr, 1, 1, 0, 0 + Int.fdiv ((n : Int) - 0) 60, 0, 0⟩ : smart_tm)
    hmtq hdtq hhtq
  simp only [Prod.mk.injEq] at p5
  set T1 := fixMin (⟨c.epochYr, 1, 1, 0, 0 + Int.fdiv ((n : Int) - 0) 60,
    0, 0⟩ : smart_tm) with hT1
  have hT1sec : T1.sec = 0 := p5.1
  have hT1fr : T1.fracSec = 0 := p5.2
  have hJT1 : minuteIdx c.epochYr T1 = Int.fdiv ((n : Int) - 0) 60 := by
    have h1 := minuteIdx_minGIdx c.epochYr T1
    have h2 := minuteIdx_minGIdx c.epochYr
      (⟨c.epochYr, 1, 1, 0, 0 + Int.fdiv ((n : Int) - 0) 60, 0, 0⟩ : smart_tm)
    omega
  have hyT1 : c.epochYr ≤ T1.yr :=
    minuteIdx_yr_lb _ T1 hE p1 p2 p3 p4 (by omega)
  -- the state whose epoch offset is taken inside the body
  set T2t : smart_tm := ⟨T1.yr, T1.mon, T1.day, T1.hr, T1.min,
    (n : Int) - Int.fdiv ((n : Int) - 0) 60 * 60, T1.fracSec⟩ with hT2t
  have hmT2 : monInLimits T2t = true := p1
  have hdT2 : dayInLimits T2t = true := p2
  have hhT2 : hrInLimits T2t = true := p3
  have hmnT2 : minInLimits T2t = true := p4
  have hyT2 : c.epochYr ≤ T2t.yr := hyT1
  have hr0 : 0 ≤ (n : Int) - Int.fdiv ((n : Int) - 0) 60 * 60 := by rw [hqe]; omega
  have hr59 : (n : Int) - Int.fdiv ((n : Int) - 0) 60 * 60 ≤ 59 := by rw [hqe]; omega
  have hgT2 : minGIdx T2t = minGIdx T1 := by
    rw [hT2t]
    unfold minGIdx gIdx naiveIdx
    dsimp only
    rw [show yearMonthLeapBase (⟨T1.yr, T1.mon, T1.day, T1.hr, T1.min,
      (n : Int) - Int.fdiv ((n : Int) - 0) 60 * 60, T1.fracSec⟩ : smart_tm)
      = yearMonthLeapBase T1 from yearMonthLeapBase_congr _ _ rfl rfl]
  have hJT2 : minuteIdx c.epochYr T2t = Int.fdiv ((n : Int) - 0) 60 := by
    have h1 := minuteIdx_minGIdx c.epochYr T2t
    have h2 := minuteIdx_minGIdx c.epochYr T1
    omega
  have hlbT2 : leapsBeforeMinute c T2t = leapsBeforeMinute c T1 :=
    lbm_congr c T2t T1 (by rw [minuteEqB_iff]; exact ⟨rfl, rfl, rfl, rfl, rfl⟩)
  have hz2 : toEpochZ c T2t = instIdx c T2t :=
    toEpochZ_eq_instIdx c T2t hw hmT2 hdT2 hyT2 (by exact hr0) (by
      show (n : Int) - Int.fdiv ((n : Int) - 0) 60 * 60 ≤ 60
      omega)
  have hinst2 : instIdx c T2t = (n : Int) + (leapsBeforeMinute c T1 : Int) := by
    unfold instIdx
    rw [hJT2, hlbT2]
    have hsec2 : T2t.sec = (n : Int) - Int.fdiv ((n : Int) - 0) 60 * 60 := rfl
    rw [hsec2]
    ring
  have hlbm1b : (leapsBeforeMinute c T1 : Int) ≤ 4294967296 := by
    have h1 : leapsBeforeMinute c T1 ≤ c.leapSecondTMs.length :=
      List.countP_le_length _
    have h2 := hw.2.2.1
    omega
  have hlbm1p : (0 : Int) ≤ (leapsBeforeMinute c T1 : Int) := by positivity
  have hOld : toEpoch c (⟨c.epochYr, 1, 1, 0, 0, 0, 0⟩ : smart_tm) = 0 :=
    toEpoch_epoch c hw
  have hlenD : (c.leapSecondDeltas.length : Int) ≤ 4294967296 := by
    rw [hw.2.2.2.2.2, List.length_map]
    exact_mod_cast hw.2.2.1
  have hDbnd := lswf_bound c (toEpoch c (⟨c.epochYr, 1, 1, 0, 0, 0, 0⟩ : smart_tm))
    (toEpoch c T2t)
  -- exact value of the correction when no modular wrap occurs
  have hDval : (n : Int) + 4294967296 < 2 ^ 64 →
      leapSecondsWalkedThroughFrom c
        (toEpoch c (⟨c.epochYr, 1, 1, 0, 0, 0, 0⟩ : smart_tm)) (toEpoch c T2t)
      = (leapsBeforeMinute c T1 : Int) := by
    intro hbig
    have hn60' : 60 ≤ (n : Int) := by
      by_contra hlt
      push_neg at hlt
      apply hns
      simp only [secInLimits, Bool.and_eq_true, decide_eq_true_eq]
      have hb := numSecondsOfMinute_bounds c (⟨c.epochYr, 1, 1, 0, 0,
        (n : Int), 0⟩ : smart_tm)
      omega
    have hz0 : 0 ≤ toEpochZ c T2t := by rw [hz2, hinst2]; omega
    have hzlt : toEpochZ c T2t < 2 ^ 64 := by rw [hz2, hinst2]; omega
    have hN : (toEpoch c T2t : Int) = toEpochZ c T2t := by
      unfold toEpoch
      rw [Int.emod_eq_of_lt hz0 hzlt, Int.toNat_of_nonneg hz0]
    have hN1 : 1 ≤ toEpoch c T2t := by
      have h1 : (1 : Int) ≤ (toEpoch c T2t : Int) := by
        rw [hN, hz2, hinst2]
        omega
      exact_mod_cast h1
    rw [hOld]
    rw [delta_eq_lbm c hw T2t (toEpoch c T2t) hmT2 hdT2 hhT2 hmnT2 hyT2 hr0 hr59
      (by rw [hN]) hN1]
    rw [hlbT2]
  -- the corrected state entering the second-field loops
  set T3t : smart_tm := ⟨T1.yr, T1.mon, T1.day, T1.hr, T1.min,
    (n : Int) - Int.fdiv ((n : Int) - 0) 60 * 60 -
      leapSecondsWalkedThroughFrom c
        (toEpoch c (⟨c.epochYr, 1, 1, 0, 0, 0, 0⟩ : smart_tm)) (toEpoch c T2t),
    T1.fracSec⟩ with hT3t
  have hmT3 : monInLimits T3t = true := p1
  have hdT3 : dayInLimits T3t = true := p2
  have hhT3 : hrInLimits T3t = true := p3
  have hmnT3 : minInLimits T3t = true := p4
  have hgT3 : minGIdx T3t = minGIdx T1 := by
    rw [hT3t]
    unfold minGIdx gIdx naiveIdx
    dsimp only
    rw [show yearMonthLeapBase (⟨T1.yr, T1.mon, T1.day, T1.hr, T1.min,
      (n : Int) - Int.fdiv ((n : Int) - 0) 60 * 60 -
        leapSecondsWalkedThroughFrom c
          (toEpoch c (⟨c.epochYr, 1, 1, 0, 0, 0, 0⟩ : smart_tm)) (toEpoch c T2t),
      T1.fracSec⟩ : smart_tm)
      = yearMonthLeapBase T1 from yearMonthLeapBase_congr _ _ rfl rfl]
  have hJT3 : minuteIdx c.epochYr T3t = Int.fdiv ((n : Int) - 0) 60 := by
    have h1 := minuteIdx_minGIdx c.epochYr T3t
    have h2 := minuteIdx_minGIdx c.epochYr T1
    omega
  have hlbT3 : leapsBeforeMinute c T3t = leapsBeforeMinute c T1 :=
    lbm_congr c T3t T1 (by rw [minuteEqB_iff]; exact ⟨rfl, rfl, rfl, rfl, rfl⟩)
  have hinst3 : instIdx c T3t = (n : Int) -
      leapSecondsWalkedThroughFrom c
        (toEpoch c (⟨c.epochYr, 1, 1, 0, 0, 0, 0⟩ : smart_tm)) (toEpoch c T2t) +
      (leapsBeforeMinute c T1 : Int) := by
    unfold instIdx
    rw [hJT3, hlbT3]
    have hsec3 : T3t.sec = (n : Int) - Int.fdiv ((n : Int) - 0) 60 * 60 -
        leapSecondsWalkedThroughFrom c
          (toEpoch c (⟨c.epochYr, 1, 1, 0, 0, 0, 0⟩ : smart_tm))
          (toEpoch c T2t) := rfl
    rw [hsec3, hqe]
    omega
  have hIT3 : 0 ≤ instIdx c T3t ∧
      ((n : Int) ≤ instIdx c T3t + 4294967296) ∧
      ((n : Int) + 4294967296 < 2 ^ 64 → instIdx c T3t = (n : Int)) := by
    by_cases hbig : (n : Int) + 4294967296 < 2 ^ 64
    · have hD := hDval hbig
      rw [hinst3, hD]
      refine ⟨by omega, by omega, fun _ => by ring⟩
    · push_neg at hbig
      rw [hinst3]
      refine ⟨by omega, by omega, fun hc => absurd hc (by omega)⟩
  -- the min field is already normalized, so the inner fixMin is the identity
  have hT4eq : fixMin T3t = T3t := by
    unfold fixMin
    rw [if_pos hmnT3]
  have hmT4 : monInLimits (fixMin T3t) = true := by rw [hT4eq]; exact hmT3
  have hdT4 : dayInLimits (fixMin T3t) = true := by rw [hT4eq]; exact hdT3
  have hhT4 : hrInLimits (fixMin T3t) = true := by rw [hT4eq]; exact hhT3
  have hmnT4 : minInLimits (fixMin T3t) = true := by rw [hT4eq]; exact hmnT3
  obtain ⟨a1, a2, a3⟩ := fixSecA_instIdx c hw (fixMin T3t).sec.toNat (fixMin T3t)
    hmT4 hdT4 hhT4 hmnT4 (by rw [hT4eq, hJT3]; omega)
  obtain ⟨q1, q2, q3, q4, q5, q6, q7⟩ := fixSecA_post c (fixMin T3t).sec.toNat
    (fixMin T3t) le_rfl hmT4 hdT4 hhT4 hmnT4
  obtain ⟨b1, b2, b3⟩ := fixSecB_instIdx c hw
    (-(fixSecA c (fixMin T3t).sec.toNat (fixMin T3t)).sec).toNat
    (fixSecA c (fixMin T3t).sec.toNat (fixMin T3t)) q1 q2 q3 q4 a3
    (by rw [a1, hT4eq]; exact hIT3.1)
  have key := fixSecAB_post c (fixMin T3t) hmT4 hdT4 hhT4 hmnT4
  unfold fixSec
  rw [if_neg hns]
  refine ⟨key.1, key.2.1, key.2.2.1, key.2.2.2.1, key.2.2.2.2.1, ?_, b3, ?_, ?_⟩
  · show (fixSecB c (-(fixSecA c (fixMin T3t).sec.toNat (fixMin T3t)).sec).toNat
      (fixSecA c (fixMin T3t).sec.toNat (fixMin T3t))).fracSec = 0
    rw [key.2.2.2.2.2, hT4eq]
    show T1.fracSec = 0
    exact hT1fr
  · show (n : Int) ≤ instIdx c (fixSecB c
      (-(fixSecA c (fixMin T3t).sec.toNat (fixMin T3t)).sec).toNat
      (fixSecA c (fixMin T3t).sec.toNat (fixMin T3t))) + 4294967296
    rw [b1, a1, hT4eq]
    exact hIT3.2.1
  · intro hbig
    show instIdx c (fixSecB c
      (-(fixSecA c (fixMin T3t).sec.toNat (fixMin T3t)).sec).toNat
      (fixSecA c (fixMin T3t).sec.toNat (fixMin T3t))) = (n : Int)
    rw [b1, a1, hT4eq]
    exact hIT3.2.2 hbig

theorem instIdx_ub (c : Ctx) (t : smart_tm) (hw : WfCtx c)
    (hm : monInLimits t = true) (hd : dayInLimits t = true)
    (hh : hrInLimits t = true) (hmn : minInLimits t = true)
    (hyE : c.epochYr ≤ t.yr) (hy99 : t.yr ≤ 9999) (hs : t.sec ≤ 60) :
    instIdx c t ≤ 319832864896 := by
  have hE : 1 ≤ c.epochYr := hw.1
  have hml : 1 ≤ t.mon ∧ t.mon ≤ 12 := by
    simp only [monInLimits, Bool.and_eq_true, decide_eq_true_eq] at hm
    exact hm
  have hdl : 1 ≤ t.day ∧ t.day ≤ 31 := by
    simp only [dayInLimits, Bool.and_eq_true, decide_eq_true_eq] at hd
    have := numDaysOfMonth_bounds t
    omega
  have hhl : 0 ≤ t.hr ∧ t.hr ≤ 23 := by
    simp only [hrInLimits, Bool.and_eq_true, decide_eq_true_eq] at hh
    exact hh
  have hmnl : 0 ≤ t.min ∧ t.min ≤ 59 := by
    simp only [minInLimits, Bool.and_eq_true, decide_eq_true_eq] at hmn
    exact hmn
  have hdix := dayIndex_ub c.epochYr t hE hml hdl.2 hyE hy99
  have hlbm : (leapsBeforeMinute c t : Int) ≤ 4294967296 := by
    have h1 : leapsBeforeMinute c t ≤ c.leapSecondTMs.length :=
      List.countP_le_length _
    have h2 := hw.2.2.1
    omega
  unfold instIdx minuteIdx
  omega

set_option maxHeartbeats 1000000 in
theorem sinceEpochTm_core (c : Ctx) (n : Nat) (hw : WfCtx c) :
    monInLimits (sinceEpochTm c n) = true ∧
    dayInLimits (sinceEpochTm c n) = true ∧
    hrInLimits (sinceEpochTm c n) = true ∧
    minInLimits (sinceEpochTm c n) = true ∧
    secInLimits c (sinceEpochTm c n) = true ∧
    (sinceEpochTm c n).fracSec = 0 ∧
    c.epochYr ≤ (sinceEpochTm c n).yr ∧
    ((n : Int) ≤ instIdx c (sinceEpochTm c n) + 4294967296) ∧
    ((n : Int) + 4294967296 < 2 ^ 64 → instIdx c (sinceEpochTm c n) = (n : Int)) := by
  have hE : 1 ≤ c.epochYr := hw.1
  have ht0 : sinceEpochTm c n = adjust c ⟨c.epochYr, 1, 1, 0, 0, (n : Int), 0⟩ := by
    unfold sinceEpochTm
    have h1 : c.epoch.sec + (n : Int) = (n : Int) := by
      show (0 : Int) + (n : Int) = (n : Int)
      ring
    show adjust c { c.epoch with sec := c.epoch.sec + (n : Int) } = _
    rw [h1]
    rfl
  rw [ht0]
  have hm0 : monInLimits (⟨c.epochYr, 1, 1, 0, 0, (n : Int), 0⟩ : smart_tm)
      = true := rfl
  have hd0 : dayInLimits (⟨c.epochYr, 1, 1, 0, 0, (n : Int), 0⟩ : smart_tm)
      = true := by
    simp only [dayInLimits, Bool.and_eq_true, decide_eq_true_eq]
    have hb := numDaysOfMonth_bounds
      (⟨c.epochYr, 1, 1, 0, 0, (n : Int), 0⟩ : smart_tm)
    have he : (⟨c.epochYr, 1, 1, 0, 0, (n : Int), 0⟩ : smart_tm).day = 1 := rfl
    omega
  have hh0 : hrInLimits (⟨c.epochYr, 1, 1, 0, 0, (n : Int), 0⟩ : smart_tm)
      = true := rfl
  have hmi0 : minInLimits (⟨c.epochYr, 1, 1, 0, 0, (n : Int), 0⟩ : smart_tm)
      = true := rfl
  have hfr0 : fracSecInLimits (⟨c.epochYr, 1, 1, 0, 0, (n : Int), 0⟩ : smart_tm)
      = true := rfl
  have heq0 : minuteEqB (⟨c.epochYr, 1, 1, 0, 0, (n : Int), 0⟩ : smart_tm)
      c.epoch = true := by
    rw [minuteEqB_iff]
    exact ⟨rfl, rfl, rfl, rfl, rfl⟩
  have hJ0 : minuteIdx c.epochYr (⟨c.epochYr, 1, 1, 0, 0, (n : Int), 0⟩ : smart_tm)
      = 0 := by
    have h1 := minGIdx_congr_of_eq _ _ heq0
    have h2 := minuteIdx_minGIdx c.epochYr
      (⟨c.epochYr, 1, 1, 0, 0, (n : Int), 0⟩ : smart_tm)
    have h3 := minuteIdx_minGIdx c.epochYr c.epoch
    have h4 := minuteIdx_epoch c hE
    omega
  have hlb0 : leapsBeforeMinute c
      (⟨c.epochYr, 1, 1, 0, 0, (n : Int), 0⟩ : smart_tm) = 0 := by
    rw [lbm_congr c _ c.epoch heq0]
    exact lbm_epoch c hw
  have hinst0 : instIdx c (⟨c.epochYr, 1, 1, 0, 0, (n : Int), 0⟩ : smart_tm)
      = (n : Int) := by
    unfold instIdx
    rw [hJ0, hlb0]
    have hs0 : (⟨c.epochYr, 1, 1, 0, 0, (n : Int), 0⟩ : smart_tm).sec
      = (n : Int) := rfl
    rw [hs0]
    ring
  unfold adjust
  by_cases hv : isValid c (⟨c.epochYr, 1, 1, 0, 0, (n : Int), 0⟩ : smart_tm) = true
  · rw [if_pos hv]
    obtain ⟨v1, v2, v3, v4, v5, v6, v7⟩ := isValid_parts _ _ hv
    refine ⟨v2, v3, v4, v5, v6, rfl, le_refl _, ?_, fun _ => hinst0⟩
    rw [hinst0]
    omega
  · rw [if_neg hv]
    have hyr0 : yrInLimits c (⟨c.epochYr, 1, 1, 0, 0, (n : Int), 0⟩ : smart_tm)
        = true := by
      simp only [yrInLimits, Bool.and_eq_true, decide_eq_true_eq]
      exact ⟨le_refl _, hw.2.1⟩
    have hns : ¬ secInLimits c (⟨c.epochYr, 1, 1, 0, 0, (n : Int), 0⟩ : smart_tm)
        = true := by
      intro hs
      apply hv
      unfold isValid
      rw [hyr0, hm0, hd0, hh0, hmi0, hs, hfr0]
      rfl
    have hfm : fixMon (⟨c.epochYr, 1, 1, 0, 0, (n : Int), 0⟩ : smart_tm)
        = ⟨c.epochYr, 1, 1, 0, 0, (n : Int), 0⟩ := fixMon_id _ hm0
    have hfd : fixDay (⟨c.epochYr, 1, 1, 0, 0, (n : Int), 0⟩ : smart_tm)
        = ⟨c.epochYr, 1, 1, 0, 0, (n : Int), 0⟩ := by
      unfold fixDay
      rw [if_pos hd0]
    have hfh : fixHr (⟨c.epochYr, 1, 1, 0, 0, (n : Int), 0⟩ : smart_tm)
        = ⟨c.epochYr, 1, 1, 0, 0, (n : Int), 0⟩ := by
      unfold fixHr
      rw [if_pos hh0]
    have hfmi : fixMin (⟨c.epochYr, 1, 1, 0, 0, (n : Int), 0⟩ : smart_tm)
        = ⟨c.epochYr, 1, 1, 0, 0, (n : Int), 0⟩ := by
      unfold fixMin
      rw [if_pos hmi0]
    rw [hfm, hfd, hfh, hfmi]
    obtain ⟨k1, k2, k3, k4, k5, k6, k7, k8, k9⟩ := fixSec_sinceEpoch c n hw hns
    have hfrv : fracSecInLimits
        (fixSec c (⟨c.epochYr, 1, 1, 0, 0, (n : Int), 0⟩ : smart_tm)) = true := by
      simp only [fracSecInLimits, Bool.and_eq_true, decide_eq_true_eq]
      rw [k6]
      norm_num
    have hff : fixFracSec c
        (fixSec c (⟨c.epochYr, 1, 1, 0, 0, (n : Int), 0⟩ : smart_tm))
        = fixSec c (⟨c.epochYr, 1, 1, 0, 0, (n : Int), 0⟩ : smart_tm) := by
      unfold fixFracSec
      rw [if_pos hfrv]
    rw [hff]
    have hyE : c.epochYr ≤
        (fixSec c (⟨c.epochYr, 1, 1, 0, 0, (n : Int), 0⟩ : smart_tm)).yr :=
      minuteIdx_yr_lb _ _ hE k1 k2 k3 k4 k7
    exact ⟨k1, k2, k3, k4, k5, k6, hyE, k8, k9⟩

theorem lbm_strict (c : Ctx) (hw : WfCtx c) (a b : smart_tm)
    (haa : monInLimits a = true ∧ dayInLimits a = true ∧ hrInLimits a = true ∧
      minInLimits a = true ∧ 1 ≤ a.yr)
    (hbb : monInLimits b = true ∧ dayInLimits b = true ∧ hrInLimits b = true ∧
      minInLimits b = true ∧ 1 ≤ b.yr)
    (hleap : isLeapMinute c a = true) (hlt : minuteLtB a b = true) :
    leapsBeforeMinute c a < leapsBeforeMinute c b := by
  have hwu := hw.2.2.2.1
  have hE := hw.1
  rw [isLeapMinute_countP, List.any_eq_true] at hleap
  obtain ⟨u, hu, hequ⟩ := hleap
  obtain ⟨u1, u2, u3, u4, u5, u6, u7, u8⟩ := hwu u hu
  have hu1 : 1 ≤ u.yr := by omega
  have hJab := minGIdx_mono a b haa.1 hbb.1 haa.2.1 hbb.2.1 haa.2.2.1 hbb.2.2.1
    haa.2.2.2.1 hbb.2.2.2.1 haa.2.2.2.2 hbb.2.2.2.2 hlt
  have hJau : minGIdx a = minGIdx u := minGIdx_congr_of_eq a u hequ
  unfold leapsBeforeMinute
  refine countP_lt_strict _ _ _ (fun x hx hpx => ?_) u hu ?_ ?_
  · obtain ⟨x1, x2, x3, x4, x5, x6, x7, x8⟩ := hwu x hx
    have hx1 : 1 ≤ x.yr := by omega
    have h1 := (minGIdx_lt_iff x a x1 haa.1 x2 haa.2.1 x3 haa.2.2.1 x4 haa.2.2.2.1
      hx1 haa.2.2.2.2).1 hpx
    exact (minGIdx_lt_iff x b x1 hbb.1 x2 hbb.2.1 x3 hbb.2.2.1 x4 hbb.2.2.2.1
      hx1 hbb.2.2.2.2).2 (by omega)
  · rw [Bool.eq_false_iff, Ne]
    intro hua
    have h1 := (minGIdx_lt_iff u a u1 haa.1 u2 haa.2.1 u3 haa.2.2.1 u4 haa.2.2.2.1
      hu1 haa.2.2.2.2).1 hua
    omega
  · exact (minGIdx_lt_iff u b u1 hbb.1 u2 hbb.2.1 u3 hbb.2.2.1 u4 hbb.2.2.2.1
      hu1 hbb.2.2.2.2).2 (by omega)

theorem instIdx_strict_mono (c : Ctx) (hw : WfCtx c) (a b : smart_tm)
    (ham : monInLimits a = true) (had : dayInLimits a = true)
    (hah : hrInLimits a = true) (hamn : minInLimits a = true)
    (hay : c.epochYr ≤ a.yr) (hasL : secInLimits c a = true)
    (hbm : monInLimits b = true) (hbd : dayInLimits b = true)
    (hbh : hrInLimits b = true) (hbmn : minInLimits b = true)
    (hby : c.epochYr ≤ b.yr) (hbs0 : 0 ≤ b.sec)
    (hlt : minuteLtB a b = true) : instIdx c a < instIdx c b := by
  have hE := hw.1
  have hay1 : 1 ≤ a.yr := by omega
  have hby1 : 1 ≤ b.yr := by omega
  have hJab := minGIdx_mono a b ham hbm had hbd hah hbh hamn hbmn hay1 hby1 hlt
  have hmza := minuteIdx_minGIdx c.epochYr a
  have hmzb := minuteIdx_minGIdx c.epochYr b
  have hlbm := lbm_mono c a b hw (by omega) ⟨ham, had, hah, hamn, hay1⟩
    ⟨hbm, hbd, hbh, hbmn, hby1⟩
  simp only [secInLimits, Bool.and_eq_true, decide_eq_true_eq] at hasL
  have hnum := numSecondsOfMinute_eq c a
  by_cases hla : isLeapMinute c a = true
  · have hstrict := lbm_strict c hw a b ⟨ham, had, hah, hamn, hay1⟩
      ⟨hbm, hbd, hbh, hbmn, hby1⟩ hla hlt
    rw [if_pos hla] at hnum
    unfold instIdx
    omega
  · rw [if_neg hla] at hnum
    unfold instIdx
    omega

/-- C2: under an initialized context (the `WfCtx` invariants established by
a successful `init`), for every epoch offset `n` such that the Timestamp
built from `n` by the sinceEpoch constructor has year at most 9999,
`toEpoch` of that Timestamp returns exactly `n`. -/
theorem toEpoch_roundtrip (c : Ctx) (n : Nat) (hw : WfCtx c)
    (hyr : (sinceEpochTm c n).yr ≤ 9999) :
    toEpoch c (sinceEpochTm c n) = n := by
  obtain ⟨k1, k2, k3, k4, k5, k6, k7, k8, k9⟩ := sinceEpochTm_core c n hw
  have hsl : 0 ≤ (sinceEpochTm c n).sec ∧ (sinceEpochTm c n).sec ≤ 60 := by
    simp only [secInLimits, Bool.and_eq_true, decide_eq_true_eq] at k5
    have hb := numSecondsOfMinute_bounds c (sinceEpochTm c n)
    omega
  have hub := instIdx_ub c (sinceEpochTm c n) hw k1 k2 k3 k4 k7 hyr hsl.2
  have hnb : (n : Int) + 4294967296 < 2 ^ 64 := by omega
  have hinst := k9 hnb
  have hz : toEpochZ c (sinceEpochTm c n) = (n : Int) := by
    rw [toEpochZ_eq_instIdx c (sinceEpochTm c n) hw k1 k2 k7 hsl.1 hsl.2]
    exact hinst
  unfold toEpoch
  rw [hz, Int.emod_eq_of_lt (Int.natCast_nonneg n) (by omega)]
  exact Int.toNat_natCast n

theorem toEpoch_roundtrip_witness :
    WfCtx sys6.ctx ∧ (sinceEpochTm sys6.ctx 709948805).yr ≤ 9999 ∧
      toEpoch sys6.ctx (sinceEpochTm sys6.ctx 709948805) = 709948805 := by
  have h1 : WfCtx sys6.ctx := by unfold WfCtx; decide
  have h2 : (sinceEpochTm sys6.ctx 709948805).yr ≤ 9999 := by decide
  exact ⟨h1, h2, toEpoch_roundtrip sys6.ctx 709948805 h1 h2⟩

/-- C1: under an initialized context (the `WfCtx` invariants established by
a successful `init`), for every valid Timestamp `t`, the Timestamp built
from the epoch offset `toEpoch(t)` by the sinceEpoch constructor (copy the
Epoch Reference, add the offset to the second field, adjust) equals `t` in
all fields except the fractional second. -/
theorem sinceEpoch_toEpoch_roundtrip (c : Ctx) (t : smart_tm) (hw : WfCtx c)
    (hv : isValid c t = true) :
    eqNoFrac (sinceEpochTm c (toEpoch c t)) t = true := by
  obtain ⟨hyv, hm, hd, hh, hmn, hs, hfr⟩ := isValid_parts c t hv
  have hE : 1 ≤ c.epochYr := hw.1
  simp only [yrInLimits, Bool.and_eq_true, decide_eq_true_eq] at hyv
  have hsl : 0 ≤ t.sec ∧ t.sec ≤ 60 := by
    simp only [secInLimits, Bool.and_eq_true, decide_eq_true_eq] at hs
    have hb := numSecondsOfMinute_bounds c t
    omega
  have hzt : (toEpoch c t : Int) = toEpochZ c t :=
    toEpoch_eq_toEpochZ c t (by omega) hw.2.2.1 hv
  have hzi : toEpochZ c t = instIdx c t :=
    toEpochZ_eq_instIdx c t hw hm hd hyv.1 hsl.1 hsl.2
  obtain ⟨k1, k2, k3, k4, k5, k6, k7, k8, k9⟩ :=
    sinceEpochTm_core c (toEpoch c t) hw
  have hubt := instIdx_ub c t hw hm hd hh hmn hyv.1 hyv.2 hsl.2
  have hnb : ((toEpoch c t : Nat) : Int) + 4294967296 < 2 ^ 64 := by
    have h1 := hzt
    rw [hzi] at h1
    omega
  have hinstR := k9 hnb
  set R := sinceEpochTm c (toEpoch c t) with hRdef
  have hRt : instIdx c R = instIdx c t := by rw [hinstR, hzt, hzi]
  have hRsl : 0 ≤ R.sec := by
    simp only [secInLimits, Bool.and_eq_true, decide_eq_true_eq] at k5
    exact k5.1
  rcases minute_tricho R t with hlt | heq | hgt
  · exfalso
    have := instIdx_strict_mono c hw R t k1 k2 k3 k4 k7 k5
      hm hd hh hmn hyv.1 hsl.1 hlt
    omega
  · have hJ := minGIdx_congr_of_eq R t heq
    have hlbm : leapsBeforeMinute c R = leapsBeforeMinute c t :=
      lbm_congr c R t heq
    have h1 := minuteIdx_minGIdx c.epochYr R
    have h2 := minuteIdx_minGIdx c.epochYr t
    have hsec : R.sec = t.sec := by
      unfold instIdx at hRt
      omega
    rw [minuteEqB_iff] at heq
    rw [eqNoFrac_iff]
    exact ⟨heq.1, heq.2.1, heq.2.2.1, heq.2.2.2.1, heq.2.2.2.2, hsec⟩
  · exfalso
    have := instIdx_strict_mono c hw t R hm hd hh hmn hyv.1 hs
      k1 k2 k3 k4 k7 hRsl hgt
    omega

theorem sinceEpoch_toEpoch_roundtrip_witness :
    WfCtx sys6.ctx ∧ isValid sys6.ctx leapTm2012 = true ∧
      eqNoFrac (sinceEpochTm sys6.ctx (toEpoch sys6.ctx leapTm2012))
        leapTm2012 = true := by
  have h1 : WfCtx sys6.ctx := by unfold WfCtx; decide
  have h2 : isValid sys6.ctx leapTm2012 = true := by decide
  exact ⟨h1, h2, sinceEpoch_toEpoch_roundtrip sys6.ctx leapTm2012 h1 h2⟩
